import Mathlib

/-!
# The allocator and mark-and-sweep collector of `alloc.c`

A shallow embedding of `src/alloc.c`.  The C heap is three typed memories
(one per struct kind: a cell is `none` when nothing is allocated at that
address, or after `free`), a pointer is `Option Nat` (`none` is `NULL`),
and the three static `PtrVector`s are lists of pointers.  A run that trips
an `assert` or dereferences a `NULL` or dangling pointer ends in
`Fail.abort`.  The three mark functions call one another and loop over
data they are marking, so they take a step budget; running out of it is
`Fail.fuel`, and `gc_fuel` is a budget that always suffices.
-/

namespace PScheme

/-- How a run ends when it does not return. -/
inductive Fail where
  /-- an `assert` failed, or a `NULL` or dangling pointer was dereferenced -/
  | abort
  /-- the step budget of the model is used up -/
  | fuel
  deriving DecidableEq, Repr

/-! ## The object model (`alloc.h`, as used by `alloc.c`) -/

/-- Modelled from the spec: the `ValueType` enumeration of `alloc.h` (not
in src/), numbered in the order the spec lists the tags; `alloc.c` only
compares tags for equality. -/
def T_Nil : Nat := 0

/-- Modelled from the spec: tag of booleans (`alloc.h`, not in src/). -/
def T_Boolean : Nat := 1

/-- Modelled from the spec: tag of integers (`alloc.h`, not in src/). -/
def T_Integer : Nat := 2

/-- Modelled from the spec: tag of reals (`alloc.h`, not in src/). -/
def T_Float : Nat := 3

/-- Modelled from the spec: tag of strings (`alloc.h`, not in src/). -/
def T_String : Nat := 4

/-- Modelled from the spec: tag of symbols (`alloc.h`, not in src/). -/
def T_Atom : Nat := 5

/-- Modelled from the spec: tag of cons pairs (`alloc.h`, not in src/). -/
def T_ConsPair : Nat := 6

/-- Modelled from the spec: tag of closures (`alloc.h`, not in src/). -/
def T_Lambda : Nat := 7

/-- Modelled from the spec: tag of error values (`alloc.h`, not in src/). -/
def T_Error : Nat := 8

/-- The fields of `struct Value` that `alloc.c` reads or writes.  The
payload is a union in C; `alloc.c` reads a member only under the matching
tag, so the members are kept side by side. -/
structure Value where
  type : Nat
  marked : Bool
  string_val : Option String
  lambda_val : Option Nat
  p_car : Option Nat
  p_cdr : Option Nat
  deriving DecidableEq, Repr

/-- The fields of `struct Lambda` that `alloc.c` reads or writes. -/
structure Lambda where
  marked : Bool
  native_impl : Bool
  arg_spec : Option Nat
  body : Option Nat
  parent_env : Option Nat
  deriving DecidableEq, Repr

/-- One entry of an environment: an owned name and a pointer to a value. -/
structure Binding where
  name : String
  value : Option Nat
  deriving DecidableEq, Repr

/-- The fields of `struct Environment`; `bindings` is the array of
`num_bindings` entries. -/
structure Environment where
  marked : Bool
  parent_env : Option Nat
  bindings : List Binding
  deriving DecidableEq, Repr

/-- The field `num_bindings`: the length of the bindings array. -/
def Environment.num_bindings (e : Environment) : Nat := e.bindings.length

/-- One frame of the evaluation stack.  `local_vals` holds, for each
registered `Value **`, the `Value *` it points at. -/
structure EvaluationContext where
  current_env : Option Nat
  expression : Option Nat
  child_eval_result : Option Nat
  local_vals : List (Option Nat)
  deriving DecidableEq, Repr

/-- The allocator state: the three memories and the three registries
`allocated_values`, `allocated_lambdas`, `allocated_environments`. -/
structure Heap where
  values : List (Option Value)
  lambdas : List (Option Lambda)
  environments : List (Option Environment)
  allocated_values : List (Option Nat)
  allocated_lambdas : List (Option Nat)
  allocated_environments : List (Option Nat)
  deriving DecidableEq, Repr

/-! ## Memory and pointer vectors -/

/-- The cell at address `a`: `none` when nothing is allocated there. -/
def rd {α : Type} (m : List (Option α)) (a : Nat) : Option α := m.getD a none

/-- Overwrite the cell at address `a`. -/
def wr {α : Type} (m : List (Option α)) (a : Nat) (x : Option α) : List (Option α) :=
  m.set a x

/-- Modelled from the spec: `pv_init` of `ptr_vector.c` (not in src/)
makes the vector empty. -/
def pv_init : List (Option Nat) := []

/-- Modelled from the spec: `pv_add_elem` of `ptr_vector.c` (not in src/)
appends the pointer. -/
def pv_add_elem (pv : List (Option Nat)) (p : Option Nat) : List (Option Nat) := pv ++ [p]

/-- Modelled from the spec: `pv_get_elem` of `ptr_vector.c` (not in src/)
reads slot `i`. -/
def pv_get_elem (pv : List (Option Nat)) (i : Nat) : Option Nat := pv.getD i none

/-- Modelled from the spec: `pv_set_elem` of `ptr_vector.c` (not in src/)
overwrites slot `i`. -/
def pv_set_elem (pv : List (Option Nat)) (i : Nat) (p : Option Nat) : List (Option Nat) :=
  pv.set i p

/-- Modelled from the spec: `pv_compact` of `ptr_vector.c` (not in src/)
removes the `NULL` slots. -/
def pv_compact (pv : List (Option Nat)) : List (Option Nat) := pv.filter Option.isSome

/-- Dereference a `Value *`. -/
def Heap.value (h : Heap) (a : Nat) : Option Value := rd h.values a

/-- Dereference a `Lambda *`. -/
def Heap.lambda (h : Heap) (a : Nat) : Option Lambda := rd h.lambdas a

/-- Dereference an `Environment *`. -/
def Heap.environment (h : Heap) (a : Nat) : Option Environment := rd h.environments a

/-- The assignment `v->marked = b` for the value at `a`. -/
def Heap.setValueMark (h : Heap) (a : Nat) (b : Bool) : Heap :=
  match h.value a with
  | some x => { h with values := wr h.values a (some { x with marked := b }) }
  | none => h

/-- The assignment `f->marked = b` for the lambda at `a`. -/
def Heap.setLambdaMark (h : Heap) (a : Nat) (b : Bool) : Heap :=
  match h.lambda a with
  | some x => { h with lambdas := wr h.lambdas a (some { x with marked := b }) }
  | none => h

/-- The assignment `env->marked = b` for the environment at `a`. -/
def Heap.setEnvMark (h : Heap) (a : Nat) (b : Bool) : Heap :=
  match h.environment a with
  | some x => { h with environments := wr h.environments a (some { x with marked := b }) }
  | none => h

/-! ## Mark phase -/

mutual

/-- The function `mark_value`: assert, early return, then the loop. -/
def mark_value : Nat → Heap → Option Nat → Except Fail Heap
  | 0, _, _ => .error .fuel
  | n + 1, h, v =>
    match v with
    | none => .error .abort
    | some a =>
      match h.value a with
      | none => .error .abort
      | some x => if x.marked then .ok h else mark_value_loop n h (some a)

/-- The loop `while (!v->marked)` of `mark_value`, entered at its test. -/
def mark_value_loop : Nat → Heap → Option Nat → Except Fail Heap
  | 0, _, _ => .error .fuel
  | n + 1, h, v =>
    match v with
    | none => .error .abort
    | some a =>
      match h.value a with
      | none => .error .abort
      | some x =>
        if x.marked then .ok h
        else
          let h1 := h.setValueMark a true
          if x.type = T_Lambda then do
            let h2 ← mark_lambda n h1 x.lambda_val
            mark_value_loop n h2 (some a)
          else if x.type = T_ConsPair then do
            let h2 ← mark_value n h1 x.p_car
            match h2.value a with
            | none => .error .abort
            | some x2 => mark_value_loop n h2 x2.p_cdr
          else mark_value_loop n h1 (some a)

/-- The function `mark_lambda`. -/
def mark_lambda : Nat → Heap → Option Nat → Except Fail Heap
  | 0, _, _ => .error .fuel
  | n + 1, h, f =>
    match f with
    | none => .error .abort
    | some a =>
      match h.lambda a with
      | none => .error .abort
      | some x =>
        if x.marked then .ok h
        else
          let h1 := h.setLambdaMark a true
          if !x.native_impl then do
            let h2 ← mark_value n h1 x.arg_spec
            match h2.lambda a with
            | none => .error .abort
            | some x2 =>
              let h3 ← mark_value n h2 x2.body
              match h3.lambda a with
              | none => .error .abort
              | some x3 => mark_environment n h3 x3.parent_env
          else mark_environment n h1 x.parent_env

/-- The function `mark_environment`: assert, then the loop. -/
def mark_environment : Nat → Heap → Option Nat → Except Fail Heap
  | 0, _, _ => .error .fuel
  | n + 1, h, env =>
    match env with
    | none => .error .abort
    | some a => mark_environment_loop n h (some a)

/-- The loop `while (env != NULL && !env->marked)` of `mark_environment`,
entered at its test. -/
def mark_environment_loop : Nat → Heap → Option Nat → Except Fail Heap
  | 0, _, _ => .error .fuel
  | n + 1, h, env =>
    match env with
    | none => .ok h
    | some a =>
      match h.environment a with
      | none => .error .abort
      | some x =>
        if x.marked then .ok h
        else do
          let h2 ← mark_bindings n (h.setEnvMark a true) a 0
          match h2.environment a with
          | none => .error .abort
          | some x2 => mark_environment_loop n h2 x2.parent_env

/-- The loop `for (i = 0; i < env->num_bindings; i++)` of
`mark_environment` for the environment at `a`, entered at its test with
index `i`. -/
def mark_bindings : Nat → Heap → Nat → Nat → Except Fail Heap
  | 0, _, _, _ => .error .fuel
  | n + 1, h, a, i =>
    match h.environment a with
    | none => .error .abort
    | some x =>
      if i < x.num_bindings then
        match x.bindings[i]? with
        | none => .error .abort
        | some b => do
          let h2 ← mark_value n h b.value
          mark_bindings n h2 a (i + 1)
      else .ok h

end

/-- The loop over `ctx->local_vals` of `mark_eval_stack`: a slot whose
`Value *` is `NULL` is passed over. -/
def mark_local_vals (n : Nat) : Heap → List (Option Nat) → Except Fail Heap
  | h, [] => .ok h
  | h, p :: rest =>
    if p.isSome then do
      let h2 ← mark_value n h p
      mark_local_vals n h2 rest
    else mark_local_vals n h rest

/-- The body of the loop of `mark_eval_stack` for one frame. -/
def mark_context (n : Nat) (h : Heap) (ctx : EvaluationContext) : Except Fail Heap := do
  let h1 ← (if ctx.current_env.isSome then mark_environment n h ctx.current_env else .ok h)
  let h2 ← (if ctx.expression.isSome then mark_value n h1 ctx.expression else .ok h1)
  let h3 ← (if ctx.child_eval_result.isSome then mark_value n h2 ctx.child_eval_result
    else .ok h2)
  mark_local_vals n h3 ctx.local_vals

/-- The loop over the frames of `mark_eval_stack`, from the bottom of the
stack (index 0) upwards. -/
def mark_contexts (n : Nat) : Heap → List EvaluationContext → Except Fail Heap
  | h, [] => .ok h
  | h, ctx :: rest => do
    let h1 ← mark_context n h ctx
    mark_contexts n h1 rest

/-- The function `mark_eval_stack`; `none` is a `NULL` stack. -/
def mark_eval_stack (n : Nat) (h : Heap) (eval_stack : Option (List EvaluationContext)) :
    Except Fail Heap :=
  match eval_stack with
  | none => .error .abort
  | some frames => mark_contexts n h frames

/-! ## Allocation and release -/

/-- The function `init_alloc`. -/
def init_alloc : Heap :=
  { values := [], lambdas := [], environments := [],
    allocated_values := pv_init, allocated_lambdas := pv_init,
    allocated_environments := pv_init }

/-- A `Value` after `memset(v, 0, sizeof(Value))`. -/
def Value.zero : Value :=
  { type := 0, marked := false, string_val := none, lambda_val := none,
    p_car := none, p_cdr := none }

/-- A `Lambda` after `memset(f, 0, sizeof(Lambda))`. -/
def Lambda.zero : Lambda :=
  { marked := false, native_impl := false, arg_spec := none, body := none,
    parent_env := none }

/-- An `Environment` after `memset(env, 0, sizeof(Environment))`. -/
def Environment.zero : Environment :=
  { marked := false, parent_env := none, bindings := [] }

/-- The function `alloc_value`; `malloc` hands out the first address past
the value memory, at which nothing is allocated.  Returns the new state and
the pointer. -/
def alloc_value (h : Heap) : Heap × Nat :=
  let v := h.values.length
  ({ h with values := h.values ++ [some Value.zero],
            allocated_values := pv_add_elem h.allocated_values (some v) }, v)

/-- The function `alloc_lambda`. -/
def alloc_lambda (h : Heap) : Heap × Nat :=
  let f := h.lambdas.length
  ({ h with lambdas := h.lambdas ++ [some Lambda.zero],
            allocated_lambdas := pv_add_elem h.allocated_lambdas (some f) }, f)

/-- The function `alloc_environment`. -/
def alloc_environment (h : Heap) : Heap × Nat :=
  let env := h.environments.length
  ({ h with environments := h.environments ++ [some Environment.zero],
            allocated_environments := pv_add_elem h.allocated_environments (some env) }, env)

/-- The function `free_value`: the cell, with the string buffer it owns,
is released.  The lambda of a closure is not touched. -/
def free_value (h : Heap) (v : Option Nat) : Except Fail Heap :=
  match v with
  | none => .error .abort
  | some a =>
    match h.value a with
    | none => .error .abort
    | some _ => .ok { h with values := wr h.values a none }

/-- The function `free_lambda`. -/
def free_lambda (h : Heap) (f : Option Nat) : Except Fail Heap :=
  match f with
  | none => .error .abort
  | some a =>
    match h.lambda a with
    | none => .error .abort
    | some _ => .ok { h with lambdas := wr h.lambdas a none }

/-- The function `free_environment`: the cell, with the names and the
bindings array it owns, is released.  The bound values are not touched. -/
def free_environment (h : Heap) (env : Option Nat) : Except Fail Heap :=
  match env with
  | none => .error .abort
  | some a =>
    match h.environment a with
    | none => .error .abort
    | some _ => .ok { h with environments := wr h.environments a none }

/-! ## Sweep phase -/

/-- The loop of `sweep_values`, entered at its test with index `i` and
with `k` slots still to visit. -/
def sweep_values_loop : Nat → Nat → Heap → Except Fail Heap
  | 0, _, h => .ok h
  | k + 1, i, h =>
    match pv_get_elem h.allocated_values i with
    | none => .error .abort
    | some a =>
      match h.value a with
      | none => .error .abort
      | some x =>
        if !x.marked then do
          let h1 ← free_value h (some a)
          sweep_values_loop k (i + 1)
            { h1 with allocated_values := pv_set_elem h1.allocated_values i none }
        else sweep_values_loop k (i + 1) (h.setValueMark a false)

/-- The function `sweep_values`. -/
def sweep_values (h : Heap) : Except Fail Heap := do
  let h1 ← sweep_values_loop h.allocated_values.length 0 h
  .ok { h1 with allocated_values := pv_compact h1.allocated_values }

/-- The loop of `sweep_lambdas`, entered at its test with index `i` and
with `k` slots still to visit. -/
def sweep_lambdas_loop : Nat → Nat → Heap → Except Fail Heap
  | 0, _, h => .ok h
  | k + 1, i, h =>
    match pv_get_elem h.allocated_lambdas i with
    | none => .error .abort
    | some a =>
      match h.lambda a with
      | none => .error .abort
      | some x =>
        if !x.marked then do
          let h1 ← free_lambda h (some a)
          sweep_lambdas_loop k (i + 1)
            { h1 with allocated_lambdas := pv_set_elem h1.allocated_lambdas i none }
        else sweep_lambdas_loop k (i + 1) (h.setLambdaMark a false)

/-- The function `sweep_lambdas`. -/
def sweep_lambdas (h : Heap) : Except Fail Heap := do
  let h1 ← sweep_lambdas_loop h.allocated_lambdas.length 0 h
  .ok { h1 with allocated_lambdas := pv_compact h1.allocated_lambdas }

/-- The loop of `sweep_environments`, entered at its test with index `i`
and with `k` slots still to visit. -/
def sweep_environments_loop : Nat → Nat → Heap → Except Fail Heap
  | 0, _, h => .ok h
  | k + 1, i, h =>
    match pv_get_elem h.allocated_environments i with
    | none => .error .abort
    | some a =>
      match h.environment a with
      | none => .error .abort
      | some x =>
        if !x.marked then do
          let h1 ← free_environment h (some a)
          sweep_environments_loop k (i + 1)
            { h1 with allocated_environments := pv_set_elem h1.allocated_environments i none }
        else sweep_environments_loop k (i + 1) (h.setEnvMark a false)

/-- The function `sweep_environments`. -/
def sweep_environments (h : Heap) : Except Fail Heap := do
  let h1 ← sweep_environments_loop h.allocated_environments.length 0 h
  .ok { h1 with allocated_environments := pv_compact h1.allocated_environments }

/-! ## The collector -/

/-- Steps an unmarked value cell may cost the mark phase. -/
def value_weight : Option Value → Nat
  | some x => if x.marked then 0 else 2
  | none => 0

/-- Steps an unmarked lambda cell may cost the mark phase. -/
def lambda_weight : Option Lambda → Nat
  | some x => if x.marked then 0 else 2
  | none => 0

/-- Steps an unmarked environment cell may cost the mark phase. -/
def env_weight : Option Environment → Nat
  | some x => if x.marked then 0 else x.num_bindings + 2
  | none => 0

/-- Total cost of the cells that are not marked yet. -/
def mark_budget (h : Heap) : Nat :=
  (h.values.map value_weight).sum + (h.lambdas.map lambda_weight).sum
    + (h.environments.map env_weight).sum

/-- A step budget with which no mark function runs out of steps on `h`. -/
def gc_fuel (h : Heap) : Nat := mark_budget h + 2

/-- The function `collect_garbage` as built (`ALWAYS_GC` defined, `GC_STATS`
undefined), run with step budget `n`.  `global_env` and `eval_stack` are
what `get_global_environment()` and `get_eval_stack()` return. -/
def collect_garbage_steps (n : Nat) (h : Heap) (global_env : Option Nat)
    (eval_stack : Option (List EvaluationContext)) : Except Fail Heap := do
  let h1 ← mark_environment n h global_env
  let h2 ← mark_eval_stack n h1 eval_stack
  let h3 ← sweep_values h2
  let h4 ← sweep_lambdas h3
  sweep_environments h4

/-- The function `collect_garbage`, with a sufficient step budget. -/
def collect_garbage (h : Heap) (global_env : Option Nat)
    (eval_stack : Option (List EvaluationContext)) : Except Fail Heap :=
  collect_garbage_steps (gc_fuel h) h global_env eval_stack

/-! ## Objects, references and reachability -/

/-- A heap object: a kind and an address. -/
inductive Obj where
  | value (a : Nat)
  | lambda (a : Nat)
  | env (a : Nat)
  deriving DecidableEq, Repr

/-- The objects held by the three registries. -/
def Heap.objects (h : Heap) : List Obj :=
  h.allocated_values.reduceOption.map Obj.value
    ++ h.allocated_lambdas.reduceOption.map Obj.lambda
    ++ h.allocated_environments.reduceOption.map Obj.env

/-- The mark flag of an object (`false` when nothing is allocated there). -/
def Heap.marked (h : Heap) : Obj → Bool
  | .value a => match h.value a with
    | some x => x.marked
    | none => false
  | .lambda a => match h.lambda a with
    | some x => x.marked
    | none => false
  | .env a => match h.environment a with
    | some x => x.marked
    | none => false

/-- Whether something is allocated at the object's address. -/
def Heap.live (h : Heap) : Obj → Bool
  | .value a => (h.value a).isSome
  | .lambda a => (h.lambda a).isSome
  | .env a => (h.environment a).isSome

/-- The references the mark phase follows out of an object: `lambda_val`
of a closure, `p_car` and `p_cdr` of a cons pair, `arg_spec` and `body` of
an interpreted lambda, `parent_env` of a lambda, the value of each binding
and the parent of an environment.  A `none` entry is a required reference
that is absent; an absent environment parent is no entry at all. -/
def Heap.refs (h : Heap) : Obj → List (Option Obj)
  | .value a => match h.value a with
    | some x =>
      if x.type = T_Lambda then [x.lambda_val.map Obj.lambda]
      else if x.type = T_ConsPair then [x.p_car.map Obj.value, x.p_cdr.map Obj.value]
      else []
    | none => []
  | .lambda a => match h.lambda a with
    | some x =>
      (if x.native_impl then [] else [x.arg_spec.map Obj.value, x.body.map Obj.value])
        ++ [x.parent_env.map Obj.env]
    | none => []
  | .env a => match h.environment a with
    | some x =>
      x.bindings.map (fun b => b.value.map Obj.value)
        ++ (x.parent_env.toList.map (fun p => some (Obj.env p)))
    | none => []

/-- The objects a frame refers to directly. -/
def EvaluationContext.roots (ctx : EvaluationContext) : List Obj :=
  ctx.current_env.toList.map Obj.env ++ ctx.expression.toList.map Obj.value
    ++ ctx.child_eval_result.toList.map Obj.value
    ++ ctx.local_vals.reduceOption.map Obj.value

/-- The root set of a collection: the global environment and what the
frames of the evaluation stack refer to. -/
def roots (global_env : Option Nat) (frames : List EvaluationContext) : List Obj :=
  global_env.toList.map Obj.env ++ frames.flatMap EvaluationContext.roots

/-- Reachability from a set of roots along the references of `h`. -/
inductive Reach (h : Heap) (R : List Obj) : Obj → Prop where
  | root {o : Obj} : o ∈ R → Reach h R o
  | step {o o' : Obj} : Reach h R o → some o' ∈ h.refs o → Reach h R o'

/-- The registries hold no `NULL`, no pointer twice, and only pointers to
allocated cells. -/
def RegistryOK (h : Heap) : Prop :=
  (none ∉ h.allocated_values ∧ none ∉ h.allocated_lambdas ∧ none ∉ h.allocated_environments)
    ∧ (h.allocated_values.Nodup ∧ h.allocated_lambdas.Nodup ∧ h.allocated_environments.Nodup)
    ∧ ∀ o ∈ h.objects, h.live o = true

/-- Every registered object has its mark flag clear. -/
def Unmarked (h : Heap) : Prop := ∀ o ∈ h.objects, h.marked o = false

/-- Every reference of a registered object is present and points to a
registered object. -/
def RefsOK (h : Heap) : Prop :=
  ∀ o ∈ h.objects, ∀ r ∈ h.refs o, ∃ o' ∈ h.objects, r = some o'

/-- The global environment is present and every root is registered. -/
def RootsOK (h : Heap) (global_env : Option Nat) (frames : List EvaluationContext) : Prop :=
  global_env ≠ none ∧ ∀ o ∈ roots global_env frames, o ∈ h.objects

/-- A well-formed heap with its roots, as it is between two collections. -/
def WellFormed (h : Heap) (global_env : Option Nat) (frames : List EvaluationContext) : Prop :=
  RegistryOK h ∧ Unmarked h ∧ RefsOK h ∧ RootsOK h global_env frames

instance (h : Heap) : Decidable (RegistryOK h) := by
  unfold RegistryOK; infer_instance

instance (h : Heap) : Decidable (Unmarked h) := by
  unfold Unmarked; infer_instance

instance (h : Heap) : Decidable (RefsOK h) := by
  unfold RefsOK; infer_instance

instance (h : Heap) (g : Option Nat) (s : List EvaluationContext) : Decidable (RootsOK h g s) := by
  unfold RootsOK; infer_instance

instance (h : Heap) (g : Option Nat) (s : List EvaluationContext) :
    Decidable (WellFormed h g s) := by
  unfold WellFormed; infer_instance

/-! ## Relating the states of a mark phase -/

/-- The value with its mark flag cleared. -/
def Value.clear (x : Value) : Value := { x with marked := false }

/-- The lambda with its mark flag cleared. -/
def Lambda.clear (x : Lambda) : Lambda := { x with marked := false }

/-- The environment with its mark flag cleared. -/
def Environment.clear (x : Environment) : Environment := { x with marked := false }

/-- The state `h'` differs from `h` only by mark flags that went from
clear to set. -/
structure Ext (h h' : Heap) : Prop where
  allocated_values : h'.allocated_values = h.allocated_values
  allocated_lambdas : h'.allocated_lambdas = h.allocated_lambdas
  allocated_environments : h'.allocated_environments = h.allocated_environments
  value : ∀ a, (h'.value a).map Value.clear = (h.value a).map Value.clear
  lambda : ∀ a, (h'.lambda a).map Lambda.clear = (h.lambda a).map Lambda.clear
  environment : ∀ a,
    (h'.environment a).map Environment.clear = (h.environment a).map Environment.clear
  mono : ∀ o, h.marked o = true → h'.marked o = true
  budget : mark_budget h' ≤ mark_budget h

/-- What a mark run from the roots `R` achieves: only mark flags are set,
the roots are marked, every object it marked has all its references present
and marked, and every object it marked is reachable from `R`. -/
structure MarkedBy (R : List Obj) (h h' : Heap) : Prop where
  ext : Ext h h'
  roots : ∀ r ∈ R, h'.marked r = true
  closed : ∀ o, h'.marked o = true → h.marked o = false →
    ∀ r ∈ h.refs o, ∃ o', r = some o' ∧ h'.marked o' = true
  reach : ∀ o, h'.marked o = true → h.marked o = false → Reach h R o

/-- The entry points of the mark functions and of their loops. -/
inductive Task where
  | value (v : Option Nat)
  | valueLoop (v : Option Nat)
  | lambda (f : Option Nat)
  | env (e : Option Nat)
  | envLoop (e : Option Nat)
  | bindings (a : Nat) (i : Nat)
  deriving DecidableEq, Repr

/-- Run a task with step budget `n`. -/
def Task.run (n : Nat) (h : Heap) : Task → Except Fail Heap
  | .value v => mark_value n h v
  | .valueLoop v => mark_value_loop n h v
  | .lambda f => mark_lambda n h f
  | .env e => mark_environment n h e
  | .envLoop e => mark_environment_loop n h e
  | .bindings a i => mark_bindings n h a i

/-- The pointers a task is asked to mark; `none` is a `NULL` it would
dereference. -/
def Task.targets (h : Heap) : Task → List (Option Obj)
  | .value v => [v.map Obj.value]
  | .valueLoop v => [v.map Obj.value]
  | .lambda f => [f.map Obj.lambda]
  | .env e => [e.map Obj.env]
  | .envLoop e => e.toList.map (fun a => some (Obj.env a))
  | .bindings a i => match h.environment a with
    | some x => (x.bindings.drop i).map (fun b => b.value.map Obj.value)
    | none => []

/-- Steps a task needs beyond the cost of the unmarked cells. -/
def Task.cost (h : Heap) : Task → Nat
  | .value _ => 2
  | .valueLoop _ => 1
  | .lambda _ => 1
  | .env _ => 2
  | .envLoop _ => 1
  | .bindings a i => match h.environment a with
    | some x => 2 + (x.num_bindings - i)
    | none => 2

/-- The runs of the mark functions that return, as a relation between the
state before and the state after. -/
inductive Marks : Task → Heap → Heap → Prop where
  | value_marked {h : Heap} {a : Nat} {x : Value} :
      h.value a = some x → x.marked = true → Marks (.value (some a)) h h
  | value_enter {h h' : Heap} {a : Nat} {x : Value} :
      h.value a = some x → x.marked = false →
      Marks (.valueLoop (some a)) h h' → Marks (.value (some a)) h h'
  | loop_marked {h : Heap} {a : Nat} {x : Value} :
      h.value a = some x → x.marked = true → Marks (.valueLoop (some a)) h h
  | loop_lambda {h h2 h' : Heap} {a : Nat} {x : Value} :
      h.value a = some x → x.marked = false → x.type = T_Lambda →
      Marks (.lambda x.lambda_val) (h.setValueMark a true) h2 →
      Marks (.valueLoop (some a)) h2 h' → Marks (.valueLoop (some a)) h h'
  | loop_cons {h h2 h' : Heap} {a : Nat} {x x2 : Value} :
      h.value a = some x → x.marked = false → x.type ≠ T_Lambda → x.type = T_ConsPair →
      Marks (.value x.p_car) (h.setValueMark a true) h2 →
      h2.value a = some x2 →
      Marks (.valueLoop x2.p_cdr) h2 h' → Marks (.valueLoop (some a)) h h'
  | loop_other {h h' : Heap} {a : Nat} {x : Value} :
      h.value a = some x → x.marked = false → x.type ≠ T_Lambda → x.type ≠ T_ConsPair →
      Marks (.valueLoop (some a)) (h.setValueMark a true) h' →
      Marks (.valueLoop (some a)) h h'
  | lambda_marked {h : Heap} {a : Nat} {x : Lambda} :
      h.lambda a = some x → x.marked = true → Marks (.lambda (some a)) h h
  | lambda_interp {h h2 h3 h' : Heap} {a : Nat} {x x2 x3 : Lambda} :
      h.lambda a = some x → x.marked = false → x.native_impl = false →
      Marks (.value x.arg_spec) (h.setLambdaMark a true) h2 →
      h2.lambda a = some x2 → Marks (.value x2.body) h2 h3 →
      h3.lambda a = some x3 → Marks (.env x3.parent_env) h3 h' →
      Marks (.lambda (some a)) h h'
  | lambda_native {h h' : Heap} {a : Nat} {x : Lambda} :
      h.lambda a = some x → x.marked = false → x.native_impl = true →
      Marks (.env x.parent_env) (h.setLambdaMark a true) h' →
      Marks (.lambda (some a)) h h'
  | env_enter {h h' : Heap} {a : Nat} :
      Marks (.envLoop (some a)) h h' → Marks (.env (some a)) h h'
  | envLoop_null {h : Heap} : Marks (.envLoop none) h h
  | envLoop_marked {h : Heap} {a : Nat} {x : Environment} :
      h.environment a = some x → x.marked = true → Marks (.envLoop (some a)) h h
  | envLoop_step {h h2 h' : Heap} {a : Nat} {x x2 : Environment} :
      h.environment a = some x → x.marked = false →
      Marks (.bindings a 0) (h.setEnvMark a true) h2 →
      h2.environment a = some x2 →
      Marks (.envLoop x2.parent_env) h2 h' → Marks (.envLoop (some a)) h h'
  | bindings_done {h : Heap} {a i : Nat} {x : Environment} :
      h.environment a = some x → ¬ i < x.num_bindings → Marks (.bindings a i) h h
  | bindings_step {h h2 h' : Heap} {a i : Nat} {x : Environment} {b : Binding} :
      h.environment a = some x → i < x.num_bindings → x.bindings[i]? = some b →
      Marks (.value b.value) h h2 → Marks (.bindings a (i + 1)) h2 h' →
      Marks (.bindings a i) h h'

/-! ## The three sweep loops as one loop -/

/-- The loop shared by `sweep_values`, `sweep_lambdas` and
`sweep_environments`, on one registry `reg` and the memory `mem` of its
kind: slot `i` is read, an unmarked cell is released and its slot set to
`NULL`, a marked cell has its flag cleared. -/
def sweep_loop {α : Type} (marked : α → Bool) (clear : α → α) :
    Nat → Nat → List (Option Nat) × List (Option α) →
    Except Fail (List (Option Nat) × List (Option α))
  | 0, _, s => .ok s
  | k + 1, i, (reg, mem) =>
    match pv_get_elem reg i with
    | none => .error .abort
    | some a =>
      match rd mem a with
      | none => .error .abort
      | some x =>
        if !marked x then
          sweep_loop marked clear k (i + 1) (pv_set_elem reg i none, wr mem a none)
        else sweep_loop marked clear k (i + 1) (reg, wr mem a (some (clear x)))

/-- What a sweep leaves in a cell: a marked object with its flag cleared,
nothing otherwise. -/
def swept {α : Type} (marked : α → Bool) (clear : α → α) : Option α → Option α
  | some x => if marked x then some (clear x) else none
  | none => none

/-- Whether a registry slot points to a marked object. -/
def slot_marked {α : Type} (marked : α → Bool) (mem : List (Option α)) : Option Nat → Bool
  | some a => match rd mem a with
    | some x => marked x
    | none => false
  | none => false

/-- A registry holds no `NULL`, no pointer twice, and only pointers to
allocated cells of its memory. -/
def RegOK {α : Type} (reg : List (Option Nat)) (mem : List (Option α)) : Prop :=
  (∀ p ∈ reg, ∃ a, p = some a ∧ (rd mem a).isSome = true) ∧ reg.Nodup

/-- The state `h'` is what the three sweeps make of `h`: each registry
keeps its marked objects, in order, and each registered cell is swept. -/
structure SweptFrom (h h' : Heap) : Prop where
  allocated_values :
    h'.allocated_values = h.allocated_values.filter (slot_marked Value.marked h.values)
  allocated_lambdas :
    h'.allocated_lambdas = h.allocated_lambdas.filter (slot_marked Lambda.marked h.lambdas)
  allocated_environments :
    h'.allocated_environments
      = h.allocated_environments.filter (slot_marked Environment.marked h.environments)
  value : ∀ c, h'.value c = if some c ∈ h.allocated_values
    then swept Value.marked Value.clear (h.value c) else h.value c
  lambda : ∀ c, h'.lambda c = if some c ∈ h.allocated_lambdas
    then swept Lambda.marked Lambda.clear (h.lambda c) else h.lambda c
  environment : ∀ c, h'.environment c = if some c ∈ h.allocated_environments
    then swept Environment.marked Environment.clear (h.environment c) else h.environment c

/-! ## Statements about roots and absent references -/

/-- Mark one root object with the mark function of its kind. -/
def mark_root (n : Nat) (h : Heap) : Obj → Except Fail Heap
  | .value a => mark_value n h (some a)
  | .lambda a => mark_lambda n h (some a)
  | .env a => mark_environment n h (some a)

/-- Mark a list of root objects one after the other. -/
def mark_roots (n : Nat) : Heap → List Obj → Except Fail Heap
  | h, [] => .ok h
  | h, r :: rest => do
    let h1 ← mark_root n h r
    mark_roots n h1 rest

/-- Every field of the frame is absent. -/
def EvaluationContext.allAbsent (ctx : EvaluationContext) : Prop :=
  ctx.current_env = none ∧ ctx.expression = none ∧ ctx.child_eval_result = none
    ∧ ∀ p ∈ ctx.local_vals, p = none

/-- The object has a required reference that is absent: a closure value
without lambda, a cons pair without car or without cdr, an interpreted
lambda without arg_spec or without body, a lambda without captured
environment, an environment with a binding without value. -/
def AbsentRef (h : Heap) : Obj → Prop
  | .value a => ∃ x, h.value a = some x ∧
      ((x.type = T_Lambda ∧ x.lambda_val = none)
        ∨ (x.type ≠ T_Lambda ∧ x.type = T_ConsPair ∧ (x.p_car = none ∨ x.p_cdr = none)))
  | .lambda a => ∃ x, h.lambda a = some x ∧
      ((x.native_impl = false ∧ (x.arg_spec = none ∨ x.body = none)) ∨ x.parent_env = none)
  | .env a => ∃ x, h.environment a = some x ∧ ∃ b ∈ x.bindings, b.value = none

/-- The chain of parents of the environment at `a` passes through `b`. -/
inductive Ancestor (h : Heap) : Nat → Nat → Prop where
  | self (a : Nat) : Ancestor h a a
  | parent {a b c : Nat} {x : Environment} :
      Ancestor h a b → h.environment b = some x → x.parent_env = some c → Ancestor h a c

/-- What a sweep does to one registry: `reg'` holds exactly the pointers of
`reg` whose object was marked, as many slots as there were such pointers,
no `NULL`, and every object it holds has its flag clear afterwards. -/
def RegistrySwept (reg reg' : List (Option Nat)) (marked marked' : Nat → Bool) : Prop :=
  (∀ a, some a ∈ reg' ↔ (some a ∈ reg ∧ marked a = true))
    ∧ reg'.length = reg.countP (fun p => match p with
        | some a => marked a
        | none => false)
    ∧ none ∉ reg'
    ∧ ∀ a, some a ∈ reg' → marked' a = false

/-! ## Example heaps -/

/-- A value cell of the given tag with no payload. -/
def Value.ofType (t : Nat) : Value := { Value.zero with type := t }

/-- A cons pair. -/
def Value.cons (car cdr : Option Nat) : Value :=
  { Value.zero with type := T_ConsPair, p_car := car, p_cdr := cdr }

/-- A closure value. -/
def Value.closure (f : Option Nat) : Value :=
  { Value.zero with type := T_Lambda, lambda_val := f }

/-- An interpreted lambda. -/
def Lambda.interpreted (arg_spec body parent_env : Option Nat) : Lambda :=
  { Lambda.zero with arg_spec := arg_spec, body := body, parent_env := parent_env }

/-- The global environment (environment 0) binds `x` to the pair `(1 . 2)`
(values 0, 1, 2); value 3 is a pair nothing refers to; value 4 is a closure
of lambda 0, whose argument list and body are values 5 and 6 and whose
captured environment is environment 1, a child of the global one;
environment 2 is not referred to. -/
def exampleHeap : Heap :=
  { values := [some (Value.cons (some 1) (some 2)), some (Value.ofType T_Integer),
      some (Value.ofType T_Integer), some (Value.cons (some 1) (some 2)),
      some (Value.closure (some 0)), some (Value.ofType T_Nil), some (Value.ofType T_Nil)],
    lambdas := [some (Lambda.interpreted (some 5) (some 6) (some 1))],
    environments := [some { Environment.zero with bindings := [⟨"x", some 0⟩] },
      some { Environment.zero with parent_env := some 0 },
      some { Environment.zero with parent_env := some 0 }],
    allocated_values := [some 0, some 1, some 2, some 3, some 4, some 5, some 6],
    allocated_lambdas := [some 0],
    allocated_environments := [some 0, some 1, some 2] }

/-- One frame: its scope is the global environment, its expression the
closure (value 4), no child result, one absent and one present local. -/
def exampleFrames : List EvaluationContext :=
  [{ current_env := some 0, expression := some 4, child_eval_result := none,
     local_vals := [none, some 1] }]

/-- A heap full of cycles: value 0 is a pair whose car is the closure
(value 1) and whose cdr is the pair itself; the closure's lambda has the
pair as argument list, the closure as body and environment 0 as captured
environment; environments 0 and 1 are each other's parent, and environment
1 binds `p` to the pair. -/
def cyclicHeap : Heap :=
  { values := [some (Value.cons (some 1) (some 0)), some (Value.closure (some 0))],
    lambdas := [some (Lambda.interpreted (some 0) (some 1) (some 0))],
    environments := [some { Environment.zero with parent_env := some 1 },
      some { Environment.zero with parent_env := some 0, bindings := [⟨"p", some 0⟩] }],
    allocated_values := [some 0, some 1],
    allocated_lambdas := [some 0],
    allocated_environments := [some 0, some 1] }

/-- A heap as the mark phase leaves it: value 0, lambda 0 and environment
0 are marked, value 1 and environment 1 are not. -/
def markedHeap : Heap :=
  { values := [some { Value.ofType T_Integer with marked := true },
      some (Value.ofType T_Integer)],
    lambdas := [some { Lambda.interpreted (some 0) (some 0) (some 0) with marked := true }],
    environments := [some { Environment.zero with marked := true },
      some Environment.zero],
    allocated_values := [some 0, some 1],
    allocated_lambdas := [some 0],
    allocated_environments := [some 0, some 1] }

/-- The global environment binds `x` to a pair whose cdr is absent. -/
def brokenHeap : Heap :=
  { values := [some (Value.cons (some 1) none), some (Value.ofType T_Integer)],
    lambdas := [],
    environments := [some { Environment.zero with bindings := [⟨"x", some 0⟩] }],
    allocated_values := [some 0, some 1],
    allocated_lambdas := [],
    allocated_environments := [some 0] }

/-! ## The size estimate and the collection threshold -/

/-- A 64-bit `long` holding the integer `x` reduced modulo `2 ^ 64`. -/
def wrap_long (x : Int) : Int := (x + 2 ^ 63) % 2 ^ 64 - 2 ^ 63

/-- The function `allocation_size`.  The struct declarations of `alloc.h`
are not in src/, so `sizeof(Value)` and `sizeof(Lambda)` are parameters;
`size` of a `PtrVector` is its number of slots.  Each product is `size_t`
arithmetic (64 bits) and each sum is stored back in the `long size`. -/
def allocation_size (sizeof_Value sizeof_Lambda : Nat) (h : Heap) : Int :=
  let size0 : Int := 0
  let size1 := wrap_long (size0 + ((sizeof_Value * h.allocated_values.length % 2 ^ 64 : Nat) : Int))
  let size2 := wrap_long (size1 + ((sizeof_Lambda * h.allocated_lambdas.length % 2 ^ 64 : Nat) : Int))
  wrap_long (size2 + ((sizeof_Value * h.allocated_environments.length % 2 ^ 64 : Nat) : Int))

/-- The estimate in the words of the specification: for each kind, the
fixed size of an object of the kind times the registry count of the kind. -/
def allocation_size_spec (sizeof_Value sizeof_Lambda sizeof_Environment : Nat) (h : Heap) : Int :=
  sizeof_Value * h.allocated_values.length + sizeof_Lambda * h.allocated_lambdas.length
    + sizeof_Environment * h.allocated_environments.length

/-- The initial value of the static `max_allocation_size`, which exists in
the build with `ALWAYS_GC` undefined. -/
def max_allocation_size_init : Int := 1048576

/-- The function `collect_garbage` built with `ALWAYS_GC` undefined (and
`GC_STATS` undefined), run with step budget `n`.  The static
`max_allocation_size` is passed in and returned with the state; doubling it
is `long` arithmetic. -/
def collect_garbage_threshold_steps (sizeof_Value sizeof_Lambda n : Nat) (h : Heap)
    (max_allocation_size : Int) (global_env : Option Nat)
    (eval_stack : Option (List EvaluationContext)) : Except Fail (Heap × Int) :=
  if allocation_size sizeof_Value sizeof_Lambda h < max_allocation_size then
    .ok (h, max_allocation_size)
  else do
    let h1 ← mark_environment n h global_env
    let h2 ← mark_eval_stack n h1 eval_stack
    let h3 ← sweep_values h2
    let h4 ← sweep_lambdas h3
    let h5 ← sweep_environments h4
    if allocation_size sizeof_Value sizeof_Lambda h5 > max_allocation_size then
      .ok (h5, wrap_long (max_allocation_size * 2))
    else .ok (h5, max_allocation_size)

/-- The function `collect_garbage` built with `ALWAYS_GC` undefined, with a
sufficient step budget. -/
def collect_garbage_threshold (sizeof_Value sizeof_Lambda : Nat) (h : Heap)
    (max_allocation_size : Int) (global_env : Option Nat)
    (eval_stack : Option (List EvaluationContext)) : Except Fail (Heap × Int) :=
  collect_garbage_threshold_steps sizeof_Value sizeof_Lambda (gc_fuel h) h max_allocation_size
    global_env eval_stack

/-! ## The sweeps, one after the other -/

/-- One whole sweep on a registry `s.1` and the memory `s.2` of its kind:
the loop over every slot, then `pv_compact`. -/
def sweep_registry {α : Type} (marked : α → Bool) (clear : α → α)
    (s : List (Option Nat) × List (Option α)) :
    Except Fail (List (Option Nat) × List (Option α)) :=
  (sweep_loop marked clear s.1.length 0 s).map (fun r => (pv_compact r.1, r.2))

/-- Three sweeps run one after the other, as the last three calls of
`collect_garbage` are. -/
def sweep_in_order (first second third : Heap → Except Fail Heap) (h : Heap) :
    Except Fail Heap := do
  let h1 ← first h
  let h2 ← second h1
  third h2

/-! ## What the mark phase may change -/

/-- The two values agree on every field other than `marked`. -/
def Value.sameFields (x y : Value) : Prop :=
  x.type = y.type ∧ x.string_val = y.string_val ∧ x.lambda_val = y.lambda_val
    ∧ x.p_car = y.p_car ∧ x.p_cdr = y.p_cdr

/-- The two lambdas agree on every field other than `marked`. -/
def Lambda.sameFields (x y : Lambda) : Prop :=
  x.native_impl = y.native_impl ∧ x.arg_spec = y.arg_spec ∧ x.body = y.body
    ∧ x.parent_env = y.parent_env

/-- The two environments agree on every field other than `marked`. -/
def Environment.sameFields (x y : Environment) : Prop :=
  x.parent_env = y.parent_env ∧ x.bindings = y.bindings

/-- From `h` to `h'` nothing but mark flags changed, and no flag went from
set to clear: the three registries are the same lists, every cell allocated
in `h` is allocated in `h'` with the same fields other than `marked` and
with its flag still set if it was set, and nothing is allocated in `h'`
where nothing was in `h`. -/
structure FlagsOnlySet (h h' : Heap) : Prop where
  allocated_values : h'.allocated_values = h.allocated_values
  allocated_lambdas : h'.allocated_lambdas = h.allocated_lambdas
  allocated_environments : h'.allocated_environments = h.allocated_environments
  value : ∀ a x, h.value a = some x →
    ∃ x', h'.value a = some x' ∧ x'.sameFields x ∧ (x.marked = true → x'.marked = true)
  lambda : ∀ a x, h.lambda a = some x →
    ∃ x', h'.lambda a = some x' ∧ x'.sameFields x ∧ (x.marked = true → x'.marked = true)
  environment : ∀ a x, h.environment a = some x →
    ∃ x', h'.environment a = some x' ∧ x'.sameFields x ∧ (x.marked = true → x'.marked = true)
  value_none : ∀ a, h.value a = none → h'.value a = none
  lambda_none : ∀ a, h.lambda a = none → h'.lambda a = none
  environment_none : ∀ a, h.environment a = none → h'.environment a = none

/-- Every cell allocated in `h'` was allocated in `h` with the same fields
other than `marked`. -/
structure FieldsKept (h h' : Heap) : Prop where
  value : ∀ a x', h'.value a = some x' → ∃ x, h.value a = some x ∧ x'.sameFields x
  lambda : ∀ a x', h'.lambda a = some x' → ∃ x, h.lambda a = some x ∧ x'.sameFields x
  environment : ∀ a x', h'.environment a = some x' →
    ∃ x, h.environment a = some x ∧ x'.sameFields x

/-! ## Marking from a heap with flags already set -/

/-- Reachability from the roots `R` along references, through objects whose
mark flag is clear in `h` only: where the mark functions find a flag set
they return. -/
inductive ReachUnmarked (h : Heap) (R : List Obj) : Obj → Prop where
  | root {o : Obj} : o ∈ R → h.marked o = false → ReachUnmarked h R o
  | step {o o' : Obj} : ReachUnmarked h R o → some o' ∈ h.refs o → h.marked o' = false →
      ReachUnmarked h R o'

/-- The frame `d` is the frame `c` with its `local_vals` in another order. -/
def EvaluationContext.sameUpToLocals (c d : EvaluationContext) : Prop :=
  c.current_env = d.current_env ∧ c.expression = d.expression
    ∧ c.child_eval_result = d.child_eval_result ∧ c.local_vals.Perm d.local_vals

/-- The stack `t` is the stack `s` with the `local_vals` of each frame, and
then the frames, put in another order. -/
def Reordered (s t : List EvaluationContext) : Prop :=
  ∃ mid, List.Forall₂ EvaluationContext.sameUpToLocals s mid ∧ mid.Perm t

/-- Two frames on the example heaps: the first has environment 1 as scope,
value 0 as expression and one absent and one present local; the second has
the global environment as scope and value 1 as child result. -/
def twoFrames : List EvaluationContext :=
  [{ current_env := some 1, expression := some 0, child_eval_result := none,
     local_vals := [some 1, none] },
   { current_env := some 0, expression := none, child_eval_result := some 1,
     local_vals := [] }]

/-- The frames of `twoFrames` in the other order, the locals of the first
swapped. -/
def twoFramesSwapped : List EvaluationContext :=
  [{ current_env := some 0, expression := none, child_eval_result := some 1,
     local_vals := [] },
   { current_env := some 1, expression := some 0, child_eval_result := none,
     local_vals := [none, some 1] }]

/-! ## The mark functions with their call depth

The same functions as above, each returning, next to the state, the depth
of the deepest chain of nested C calls of the run.  A call of a function
counts one; an iteration of a loop counts nothing. -/

mutual

/-- The function `mark_value` with the depth of its deepest chain of nested
calls, the call itself included. -/
def mark_value_depth : Nat → Heap → Option Nat → Except Fail (Heap × Nat)
  | 0, _, _ => .error .fuel
  | n + 1, h, v =>
    match v with
    | none => .error .abort
    | some a =>
      match h.value a with
      | none => .error .abort
      | some x =>
        if x.marked then .ok (h, 1)
        else do
          let r ← mark_value_loop_depth n h (some a)
          .ok (r.1, r.2 + 1)

/-- The loop of `mark_value` with the depth of the deepest chain of calls
made from it (0 when it makes no call). -/
def mark_value_loop_depth : Nat → Heap → Option Nat → Except Fail (Heap × Nat)
  | 0, _, _ => .error .fuel
  | n + 1, h, v =>
    match v with
    | none => .error .abort
    | some a =>
      match h.value a with
      | none => .error .abort
      | some x =>
        if x.marked then .ok (h, 0)
        else
          let h1 := h.setValueMark a true
          if x.type = T_Lambda then do
            let r1 ← mark_lambda_depth n h1 x.lambda_val
            let r2 ← mark_value_loop_depth n r1.1 (some a)
            .ok (r2.1, max r1.2 r2.2)
          else if x.type = T_ConsPair then do
            let r1 ← mark_value_depth n h1 x.p_car
            match r1.1.value a with
            | none => .error .abort
            | some x2 => do
              let r2 ← mark_value_loop_depth n r1.1 x2.p_cdr
              .ok (r2.1, max r1.2 r2.2)
          else mark_value_loop_depth n h1 (some a)

/-- The function `mark_lambda` with the depth of its deepest chain of
nested calls, the call itself included. -/
def mark_lambda_depth : Nat → Heap → Option Nat → Except Fail (Heap × Nat)
  | 0, _, _ => .error .fuel
  | n + 1, h, f =>
    match f with
    | none => .error .abort
    | some a =>
      match h.lambda a with
      | none => .error .abort
      | some x =>
        if x.marked then .ok (h, 1)
        else
          let h1 := h.setLambdaMark a true
          if !x.native_impl then do
            let r1 ← mark_value_depth n h1 x.arg_spec
            match r1.1.lambda a with
            | none => .error .abort
            | some x2 => do
              let r2 ← mark_value_depth n r1.1 x2.body
              match r2.1.lambda a with
              | none => .error .abort
              | some x3 => do
                let r3 ← mark_environment_depth n r2.1 x3.parent_env
                .ok (r3.1, max r1.2 (max r2.2 r3.2) + 1)
          else do
            let r ← mark_environment_depth n h1 x.parent_env
            .ok (r.1, r.2 + 1)

/-- The function `mark_environment` with the depth of its deepest chain of
nested calls, the call itself included. -/
def mark_environment_depth : Nat → Heap → Option Nat → Except Fail (Heap × Nat)
  | 0, _, _ => .error .fuel
  | n + 1, h, env =>
    match env with
    | none => .error .abort
    | some a => do
      let r ← mark_environment_loop_depth n h (some a)
      .ok (r.1, r.2 + 1)

/-- The loop of `mark_environment` with the depth of the deepest chain of
calls made from it. -/
def mark_environment_loop_depth : Nat → Heap → Option Nat → Except Fail (Heap × Nat)
  | 0, _, _ => .error .fuel
  | n + 1, h, env =>
    match env with
    | none => .ok (h, 0)
    | some a =>
      match h.environment a with
      | none => .error .abort
      | some x =>
        if x.marked then .ok (h, 0)
        else do
          let r1 ← mark_bindings_depth n (h.setEnvMark a true) a 0
          match r1.1.environment a with
          | none => .error .abort
          | some x2 => do
            let r2 ← mark_environment_loop_depth n r1.1 x2.parent_env
            .ok (r2.1, max r1.2 r2.2)

/-- The loop over the bindings with the depth of the deepest chain of calls
made from it. -/
def mark_bindings_depth : Nat → Heap → Nat → Nat → Except Fail (Heap × Nat)
  | 0, _, _, _ => .error .fuel
  | n + 1, h, a, i =>
    match h.environment a with
    | none => .error .abort
    | some x =>
      if i < x.num_bindings then
        match x.bindings[i]? with
        | none => .error .abort
        | some b => do
          let r1 ← mark_value_depth n h b.value
          let r2 ← mark_bindings_depth n r1.1 a (i + 1)
          .ok (r2.1, max r1.2 r2.2)
      else .ok (h, 0)

end

/-- Run a task with step budget `n`, with its call depth. -/
def Task.runDepth (n : Nat) (h : Heap) : Task → Except Fail (Heap × Nat)
  | .value v => mark_value_depth n h v
  | .valueLoop v => mark_value_loop_depth n h v
  | .lambda f => mark_lambda_depth n h f
  | .env e => mark_environment_depth n h e
  | .envLoop e => mark_environment_loop_depth n h e
  | .bindings a i => mark_bindings_depth n h a i

/-- The pointer `v` does not point to a cons pair. -/
def IsLeaf (h : Heap) (v : Option Nat) : Prop :=
  ∀ a y, v = some a → h.value a = some y → y.type ≠ T_ConsPair

/-- The values of the heap are flat lists: no value is a closure, and the
car of a cons pair is not a cons pair. -/
def FlatLists (h : Heap) : Prop :=
  ∀ a x, h.value a = some x → x.type ≠ T_Lambda ∧ (x.type = T_ConsPair → IsLeaf h x.p_car)

/-- The bound on the call depth of a task on a heap of flat lists. -/
def Task.depthBound : Task → Nat
  | .value _ => 2
  | .valueLoop _ => 1
  | .lambda _ => 0
  | .env _ => 3
  | .envLoop _ => 2
  | .bindings _ _ => 2

/-! ## Long lists and deep parent chains -/

/-- The value at address `a` of `deepHeap n k`: below `n` the pair number
`a` of a list of `n` pairs, whose car is the integer at `n + 1 + a` and
whose cdr is the next pair, or the nil value after the last pair; at `n`
the nil value that ends the list; above `n` an integer. -/
def deepValue (n a : Nat) : Value :=
  if a < n then Value.cons (some (n + 1 + a)) (some (a + 1))
  else if a = n then Value.ofType T_Nil
  else Value.ofType T_Integer

/-- The environment at address `j` of `deepHeap n k`: at 0 the global
environment, which binds `lst` to the head of the list and has no parent;
above 0 an environment without bindings whose parent is at `j - 1`. -/
def deepEnvironment (j : Nat) : Environment :=
  if j = 0 then { Environment.zero with bindings := [⟨"lst", some 0⟩] }
  else { Environment.zero with parent_env := some (j - 1) }

/-- A heap whose global environment (environment 0) binds a name to a
proper list of `n` cons pairs with integer elements, and in which
environment `k` is the head of a parent chain of depth `k` that ends at the
global environment. -/
def deepHeap (n k : Nat) : Heap :=
  { values := (List.range (2 * n + 1)).map (fun a => some (deepValue n a)),
    lambdas := [],
    environments := (List.range (k + 1)).map (fun j => some (deepEnvironment j)),
    allocated_values := (List.range (2 * n + 1)).map some,
    allocated_lambdas := [],
    allocated_environments := (List.range (k + 1)).map some }

/-- One frame whose scope is the head of the parent chain of `deepHeap`. -/
def deepFrames (k : Nat) : List EvaluationContext :=
  [{ current_env := some k, expression := none, child_eval_result := none,
     local_vals := [] }]

/-! ## Lemmas -/

theorem rd_wr_same {α : Type} (m : List (Option α)) (a : Nat) (x : Option α)
    (h : a < m.length) : rd (wr m a x) a = x := by
  simp [rd, wr, h]

theorem rd_wr_ne {α : Type} (m : List (Option α)) (a b : Nat) (x : Option α)
    (h : a ≠ b) : rd (wr m a x) b = rd m b := by
  simp [rd, wr, h]

theorem rd_lt {α : Type} {m : List (Option α)} {a : Nat} {x : α}
    (h : rd m a = some x) : a < m.length := by
  by_contra hlt
  simp [rd, List.getElem?_eq_none (Nat.le_of_not_lt hlt)] at h

theorem rd_wr {α : Type} (m : List (Option α)) (a b : Nat) (x : Option α) :
    rd (wr m a x) b = if a = b ∧ a < m.length then x else rd m b := by
  by_cases hab : a = b
  · subst hab
    by_cases hlt : a < m.length
    · simp [rd_wr_same, hlt]
    · have h1 : (m.set a x)[a]? = none :=
        List.getElem?_eq_none (by simpa using Nat.le_of_not_lt hlt)
      simp [rd, wr, hlt, h1, List.getElem?_eq_none (Nat.le_of_not_lt hlt)]
  · simp [rd_wr_ne, hab]

theorem length_wr {α : Type} (m : List (Option α)) (a : Nat) (x : Option α) :
    (wr m a x).length = m.length := by
  simp [wr]

theorem sum_map_wr {α : Type} (w : Option α → Nat) (m : List (Option α)) (a : Nat)
    (x : Option α) (h : a < m.length) :
    ((wr m a x).map w).sum + w (rd m a) = (m.map w).sum + w x := by
  induction m generalizing a with
  | nil => simp at h
  | cons y ys ih =>
    cases a with
    | zero => simp [wr, rd]; omega
    | succ a =>
      have := ih a (by simpa using h)
      simp [wr, rd] at this ⊢
      omega


theorem bind_eq_ok {α β : Type} {x : Except Fail α} {f : α → Except Fail β} {b : β}
    (h : (x >>= f) = .ok b) : ∃ a, x = .ok a ∧ f a = .ok b := by
  cases x with
  | error e => simp [bind, Except.bind] at h
  | ok a => exact ⟨a, rfl, h⟩

theorem marks_of_run : ∀ (n : Nat) (t : Task) (h h' : Heap),
    t.run n h = .ok h' → Marks t h h' := by
  intro n
  induction n with
  | zero =>
    intro t h h' hr
    cases t <;> simp [Task.run, mark_value, mark_value_loop, mark_lambda, mark_environment,
      mark_environment_loop, mark_bindings] at hr
  | succ n ih =>
    intro t h h' hr
    cases t with
    | value v =>
      simp only [Task.run, mark_value] at hr
      split at hr
      · simp at hr
      · rename_i a
        split at hr
        · simp at hr
        · rename_i x hx
          split at hr
          · rename_i hm
            cases hr
            exact Marks.value_marked hx hm
          · rename_i hm
            exact Marks.value_enter hx (by simpa using hm) (ih (.valueLoop (some a)) _ _ hr)
    | valueLoop v =>
      simp only [Task.run, mark_value_loop] at hr
      split at hr
      · simp at hr
      · rename_i a
        split at hr
        · simp at hr
        · rename_i x hx
          split at hr
          · rename_i hm
            cases hr
            exact Marks.loop_marked hx hm
          · rename_i hm
            have hm' : x.marked = false := by simpa using hm
            split at hr
            · rename_i ht
              obtain ⟨h2, e1, e2⟩ := bind_eq_ok hr
              exact Marks.loop_lambda hx hm' ht (ih (.lambda _) _ _ e1)
                (ih (.valueLoop _) _ _ e2)
            · rename_i ht
              split at hr
              · rename_i hc
                obtain ⟨h2, e1, e2⟩ := bind_eq_ok hr
                split at e2
                · simp at e2
                · rename_i x2 hx2
                  exact Marks.loop_cons hx hm' ht hc (ih (.value _) _ _ e1) hx2
                    (ih (.valueLoop _) _ _ e2)
              · rename_i hc
                exact Marks.loop_other hx hm' ht hc (ih (.valueLoop _) _ _ hr)
    | lambda f =>
      simp only [Task.run, mark_lambda] at hr
      split at hr
      · simp at hr
      · rename_i a
        split at hr
        · simp at hr
        · rename_i x hx
          split at hr
          · rename_i hm
            cases hr
            exact Marks.lambda_marked hx hm
          · rename_i hm
            have hm' : x.marked = false := by simpa using hm
            split at hr
            · rename_i hn
              have hn' : x.native_impl = false := by simpa using hn
              obtain ⟨h2, e1, e2⟩ := bind_eq_ok hr
              split at e2
              · simp at e2
              · rename_i x2 hx2
                obtain ⟨h3, e3, e4⟩ := bind_eq_ok e2
                split at e4
                · simp at e4
                · rename_i x3 hx3
                  exact Marks.lambda_interp hx hm' hn' (ih (.value _) _ _ e1) hx2
                    (ih (.value _) _ _ e3) hx3 (ih (.env _) _ _ e4)
            · rename_i hn
              have hn' : x.native_impl = true := by simpa using hn
              exact Marks.lambda_native hx hm' hn' (ih (.env _) _ _ hr)
    | env e =>
      simp only [Task.run, mark_environment] at hr
      split at hr
      · simp at hr
      · rename_i a
        exact Marks.env_enter (ih (.envLoop _) _ _ hr)
    | envLoop e =>
      simp only [Task.run, mark_environment_loop] at hr
      split at hr
      · cases hr
        exact Marks.envLoop_null
      · rename_i a
        split at hr
        · simp at hr
        · rename_i x hx
          split at hr
          · rename_i hm
            cases hr
            exact Marks.envLoop_marked hx hm
          · rename_i hm
            have hm' : x.marked = false := by simpa using hm
            obtain ⟨h2, e1, e2⟩ := bind_eq_ok hr
            split at e2
            · simp at e2
            · rename_i x2 hx2
              exact Marks.envLoop_step hx hm' (ih (.bindings _ _) _ _ e1) hx2
                (ih (.envLoop _) _ _ e2)
    | bindings a i =>
      simp only [Task.run, mark_bindings] at hr
      split at hr
      · simp at hr
      · rename_i x hx
        split at hr
        · rename_i hi
          split at hr
          · simp at hr
          · rename_i b hb
            obtain ⟨h2, e1, e2⟩ := bind_eq_ok hr
            exact Marks.bindings_step hx hi hb (ih (.value _) _ _ e1)
              (ih (.bindings _ _) _ _ e2)
        · rename_i hi
          cases hr
          exact Marks.bindings_done hx hi

theorem value_setValueMark {h : Heap} {a : Nat} {x : Value} (hx : h.value a = some x)
    (b : Bool) (c : Nat) :
    (h.setValueMark a b).value c = if a = c then some { x with marked := b } else h.value c := by
  have hlt := rd_lt hx
  simp only [Heap.value] at hx
  simp only [Heap.setValueMark, Heap.value, hx, rd_wr]
  simp [hlt]

theorem lambda_setLambdaMark {h : Heap} {a : Nat} {x : Lambda} (hx : h.lambda a = some x)
    (b : Bool) (c : Nat) :
    (h.setLambdaMark a b).lambda c = if a = c then some { x with marked := b } else h.lambda c := by
  have hlt := rd_lt hx
  simp only [Heap.lambda] at hx
  simp only [Heap.setLambdaMark, Heap.lambda, hx, rd_wr]
  simp [hlt]

theorem environment_setEnvMark {h : Heap} {a : Nat} {x : Environment}
    (hx : h.environment a = some x) (b : Bool) (c : Nat) :
    (h.setEnvMark a b).environment c
      = if a = c then some { x with marked := b } else h.environment c := by
  have hlt := rd_lt hx
  simp only [Heap.environment] at hx
  simp only [Heap.setEnvMark, Heap.environment, hx, rd_wr]
  simp [hlt]

theorem setValueMark_frame (h : Heap) (a : Nat) (b : Bool) :
    (h.setValueMark a b).lambdas = h.lambdas
    ∧ (h.setValueMark a b).environments = h.environments
    ∧ (h.setValueMark a b).allocated_values = h.allocated_values
    ∧ (h.setValueMark a b).allocated_lambdas = h.allocated_lambdas
    ∧ (h.setValueMark a b).allocated_environments = h.allocated_environments := by
  unfold Heap.setValueMark
  split <;> simp

theorem setLambdaMark_frame (h : Heap) (a : Nat) (b : Bool) :
    (h.setLambdaMark a b).values = h.values
    ∧ (h.setLambdaMark a b).environments = h.environments
    ∧ (h.setLambdaMark a b).allocated_values = h.allocated_values
    ∧ (h.setLambdaMark a b).allocated_lambdas = h.allocated_lambdas
    ∧ (h.setLambdaMark a b).allocated_environments = h.allocated_environments := by
  unfold Heap.setLambdaMark
  split <;> simp

theorem setEnvMark_frame (h : Heap) (a : Nat) (b : Bool) :
    (h.setEnvMark a b).values = h.values
    ∧ (h.setEnvMark a b).lambdas = h.lambdas
    ∧ (h.setEnvMark a b).allocated_values = h.allocated_values
    ∧ (h.setEnvMark a b).allocated_lambdas = h.allocated_lambdas
    ∧ (h.setEnvMark a b).allocated_environments = h.allocated_environments := by
  unfold Heap.setEnvMark
  split <;> simp

theorem budget_setValueMark {h : Heap} {a : Nat} {x : Value} (hx : h.value a = some x)
    (hm : x.marked = false) : mark_budget (h.setValueMark a true) + 2 = mark_budget h := by
  have hlt := rd_lt hx
  have key := sum_map_wr value_weight h.values a (some { x with marked := true }) hlt
  simp only [Heap.value] at hx
  rw [hx] at key
  simp only [mark_budget, Heap.setValueMark, Heap.value, hx]
  simp [value_weight, hm] at key ⊢
  omega

theorem budget_setLambdaMark {h : Heap} {a : Nat} {x : Lambda} (hx : h.lambda a = some x)
    (hm : x.marked = false) : mark_budget (h.setLambdaMark a true) + 2 = mark_budget h := by
  have hlt := rd_lt hx
  have key := sum_map_wr lambda_weight h.lambdas a (some { x with marked := true }) hlt
  simp only [Heap.lambda] at hx
  rw [hx] at key
  simp only [mark_budget, Heap.setLambdaMark, Heap.lambda, hx]
  simp [lambda_weight, hm] at key ⊢
  omega

theorem budget_setEnvMark {h : Heap} {a : Nat} {x : Environment}
    (hx : h.environment a = some x) (hm : x.marked = false) :
    mark_budget (h.setEnvMark a true) + (x.num_bindings + 2) = mark_budget h := by
  have hlt := rd_lt hx
  have key := sum_map_wr env_weight h.environments a (some { x with marked := true }) hlt
  simp only [Heap.environment] at hx
  rw [hx] at key
  simp only [mark_budget, Heap.setEnvMark, Heap.environment, hx]
  simp [env_weight, hm] at key ⊢
  omega

theorem Ext.refl (h : Heap) : Ext h h :=
  ⟨rfl, rfl, rfl, fun _ => rfl, fun _ => rfl, fun _ => rfl, fun _ hm => hm, le_rfl⟩

theorem Ext.trans {h1 h2 h3 : Heap} (e1 : Ext h1 h2) (e2 : Ext h2 h3) : Ext h1 h3 :=
  ⟨e2.allocated_values.trans e1.allocated_values,
   e2.allocated_lambdas.trans e1.allocated_lambdas,
   e2.allocated_environments.trans e1.allocated_environments,
   fun a => (e2.value a).trans (e1.value a),
   fun a => (e2.lambda a).trans (e1.lambda a),
   fun a => (e2.environment a).trans (e1.environment a),
   fun o hm => e2.mono o (e1.mono o hm),
   le_trans e2.budget e1.budget⟩

theorem marked_setValueMark {h : Heap} {a : Nat} {x : Value} (hx : h.value a = some x)
    (o : Obj) :
    (h.setValueMark a true).marked o = (decide (o = Obj.value a) || h.marked o) := by
  cases o with
  | value c =>
    simp only [Heap.marked, value_setValueMark hx]
    by_cases hac : a = c
    · subst hac; simp
    · have : ¬ c = a := fun e => hac e.symm
      simp [hac, this]
  | lambda c => simp [Heap.marked, Heap.lambda, (setValueMark_frame h a true).1]
  | env c => simp [Heap.marked, Heap.environment, (setValueMark_frame h a true).2.1]

theorem marked_setLambdaMark {h : Heap} {a : Nat} {x : Lambda} (hx : h.lambda a = some x)
    (o : Obj) :
    (h.setLambdaMark a true).marked o = (decide (o = Obj.lambda a) || h.marked o) := by
  cases o with
  | value c => simp [Heap.marked, Heap.value, (setLambdaMark_frame h a true).1]
  | lambda c =>
    simp only [Heap.marked, lambda_setLambdaMark hx]
    by_cases hac : a = c
    · subst hac; simp
    · have : ¬ c = a := fun e => hac e.symm
      simp [hac, this]
  | env c => simp [Heap.marked, Heap.environment, (setLambdaMark_frame h a true).2.1]

theorem marked_setEnvMark {h : Heap} {a : Nat} {x : Environment}
    (hx : h.environment a = some x) (o : Obj) :
    (h.setEnvMark a true).marked o = (decide (o = Obj.env a) || h.marked o) := by
  cases o with
  | value c => simp [Heap.marked, Heap.value, (setEnvMark_frame h a true).1]
  | lambda c => simp [Heap.marked, Heap.lambda, (setEnvMark_frame h a true).2.1]
  | env c =>
    simp only [Heap.marked, environment_setEnvMark hx]
    by_cases hac : a = c
    · subst hac; simp
    · have : ¬ c = a := fun e => hac e.symm
      simp [hac, this]

theorem ext_setValueMark {h : Heap} {a : Nat} {x : Value} (hx : h.value a = some x)
    (hm : x.marked = false) : Ext h (h.setValueMark a true) := by
  obtain ⟨f1, f2, f3, f4, f5⟩ := setValueMark_frame h a true
  refine ⟨f3, f4, f5, ?_, ?_, ?_, ?_, ?_⟩
  · intro c
    rw [value_setValueMark hx]
    by_cases hac : a = c
    · subst hac; simp [hx, Value.clear]
    · simp [hac]
  · intro c; simp [Heap.lambda, f1]
  · intro c; simp [Heap.environment, f2]
  · intro o ho; rw [marked_setValueMark hx]; simp [ho]
  · have := budget_setValueMark hx hm; omega

theorem ext_setLambdaMark {h : Heap} {a : Nat} {x : Lambda} (hx : h.lambda a = some x)
    (hm : x.marked = false) : Ext h (h.setLambdaMark a true) := by
  obtain ⟨f1, f2, f3, f4, f5⟩ := setLambdaMark_frame h a true
  refine ⟨f3, f4, f5, ?_, ?_, ?_, ?_, ?_⟩
  · intro c; simp [Heap.value, f1]
  · intro c
    rw [lambda_setLambdaMark hx]
    by_cases hac : a = c
    · subst hac; simp [hx, Lambda.clear]
    · simp [hac]
  · intro c; simp [Heap.environment, f2]
  · intro o ho; rw [marked_setLambdaMark hx]; simp [ho]
  · have := budget_setLambdaMark hx hm; omega

theorem ext_setEnvMark {h : Heap} {a : Nat} {x : Environment}
    (hx : h.environment a = some x) (hm : x.marked = false) : Ext h (h.setEnvMark a true) := by
  obtain ⟨f1, f2, f3, f4, f5⟩ := setEnvMark_frame h a true
  refine ⟨f3, f4, f5, ?_, ?_, ?_, ?_, ?_⟩
  · intro c; simp [Heap.value, f1]
  · intro c; simp [Heap.lambda, f2]
  · intro c
    rw [environment_setEnvMark hx]
    by_cases hac : a = c
    · subst hac; simp [hx, Environment.clear]
    · simp [hac]
  · intro o ho; rw [marked_setEnvMark hx]; simp [ho]
  · have := budget_setEnvMark hx hm; omega

theorem Ext.value_eq {h h' : Heap} (e : Ext h h') {a : Nat} {x : Value}
    (hx : h.value a = some x) :
    ∃ x', h'.value a = some x' ∧ x'.type = x.type ∧ x'.string_val = x.string_val
      ∧ x'.lambda_val = x.lambda_val ∧ x'.p_car = x.p_car ∧ x'.p_cdr = x.p_cdr := by
  have := e.value a
  rw [hx] at this
  cases hx' : h'.value a with
  | none => simp [hx'] at this
  | some x' =>
    rw [hx'] at this
    cases x; cases x'
    simp [Value.clear] at this
    simp [this]

theorem Ext.lambda_eq {h h' : Heap} (e : Ext h h') {a : Nat} {x : Lambda}
    (hx : h.lambda a = some x) :
    ∃ x', h'.lambda a = some x' ∧ x'.native_impl = x.native_impl ∧ x'.arg_spec = x.arg_spec
      ∧ x'.body = x.body ∧ x'.parent_env = x.parent_env := by
  have := e.lambda a
  rw [hx] at this
  cases hx' : h'.lambda a with
  | none => simp [hx'] at this
  | some x' =>
    rw [hx'] at this
    cases x; cases x'
    simp [Lambda.clear] at this
    simp [this]

theorem Ext.environment_eq {h h' : Heap} (e : Ext h h') {a : Nat} {x : Environment}
    (hx : h.environment a = some x) :
    ∃ x', h'.environment a = some x' ∧ x'.parent_env = x.parent_env
      ∧ x'.bindings = x.bindings := by
  have := e.environment a
  rw [hx] at this
  cases hx' : h'.environment a with
  | none => simp [hx'] at this
  | some x' =>
    rw [hx'] at this
    cases x; cases x'
    simp [Environment.clear] at this
    simp [this]

theorem Ext.value_none {h h' : Heap} (e : Ext h h') {a : Nat} (hx : h.value a = none) :
    h'.value a = none := by
  have := e.value a
  rw [hx] at this
  simpa using this

theorem Ext.lambda_none {h h' : Heap} (e : Ext h h') {a : Nat} (hx : h.lambda a = none) :
    h'.lambda a = none := by
  have := e.lambda a
  rw [hx] at this
  simpa using this

theorem Ext.environment_none {h h' : Heap} (e : Ext h h') {a : Nat}
    (hx : h.environment a = none) : h'.environment a = none := by
  have := e.environment a
  rw [hx] at this
  simpa using this

theorem Ext.refs {h h' : Heap} (e : Ext h h') (o : Obj) : h'.refs o = h.refs o := by
  cases o with
  | value a =>
    cases hx : h.value a with
    | none => simp [Heap.refs, hx, e.value_none hx]
    | some x =>
      obtain ⟨x', hx', h1, _, h2, h3, h4⟩ := e.value_eq hx
      simp [Heap.refs, hx, hx', h1, h2, h3, h4]
  | lambda a =>
    cases hx : h.lambda a with
    | none => simp [Heap.refs, hx, e.lambda_none hx]
    | some x =>
      obtain ⟨x', hx', h1, h2, h3, h4⟩ := e.lambda_eq hx
      simp [Heap.refs, hx, hx', h1, h2, h3, h4]
  | env a =>
    cases hx : h.environment a with
    | none => simp [Heap.refs, hx, e.environment_none hx]
    | some x =>
      obtain ⟨x', hx', h1, h2⟩ := e.environment_eq hx
      simp [Heap.refs, hx, hx', h1, h2]

theorem Ext.live_eq {h h' : Heap} (e : Ext h h') (o : Obj) : h'.live o = h.live o := by
  cases o with
  | value a =>
    cases hx : h.value a with
    | none => simp [Heap.live, hx, e.value_none hx]
    | some x =>
      obtain ⟨x', hx', _⟩ := e.value_eq hx
      simp [Heap.live, hx, hx']
  | lambda a =>
    cases hx : h.lambda a with
    | none => simp [Heap.live, hx, e.lambda_none hx]
    | some x =>
      obtain ⟨x', hx', _⟩ := e.lambda_eq hx
      simp [Heap.live, hx, hx']
  | env a =>
    cases hx : h.environment a with
    | none => simp [Heap.live, hx, e.environment_none hx]
    | some x =>
      obtain ⟨x', hx', _⟩ := e.environment_eq hx
      simp [Heap.live, hx, hx']

theorem Ext.objects {h h' : Heap} (e : Ext h h') : h'.objects = h.objects := by
  simp [Heap.objects, e.allocated_values, e.allocated_lambdas, e.allocated_environments]

theorem Reach.mono {h : Heap} {R R' : List Obj} {o : Obj} (hsub : ∀ r ∈ R, Reach h R' r)
    (hr : Reach h R o) : Reach h R' o := by
  induction hr with
  | root hmem => exact hsub _ hmem
  | step _ hedge ih => exact Reach.step ih hedge

theorem Reach.back {h h' : Heap} (e : Ext h h') {R : List Obj} {o : Obj}
    (hr : Reach h' R o) : Reach h R o := by
  induction hr with
  | root hmem => exact Reach.root hmem
  | step _ hedge ih => exact Reach.step ih (by rwa [e.refs] at hedge)

theorem Reach.forth {h h' : Heap} (e : Ext h h') {R : List Obj} {o : Obj}
    (hr : Reach h R o) : Reach h' R o := by
  induction hr with
  | root hmem => exact Reach.root hmem
  | step _ hedge ih => exact Reach.step ih (by rwa [e.refs])

theorem marked_bool_cases (h : Heap) (o : Obj) : h.marked o = true ∨ h.marked o = false := by
  cases h.marked o <;> simp

theorem MarkedBy.of_marked {R : List Obj} {h : Heap} (hR : ∀ r ∈ R, h.marked r = true) :
    MarkedBy R h h :=
  ⟨Ext.refl h, hR, fun o h1 h2 => (by rw [h1] at h2; cases h2),
    fun o h1 h2 => (by rw [h1] at h2; cases h2)⟩

theorem MarkedBy.seq {R1 R2 : List Obj} {h h1 h2 : Heap} (m1 : MarkedBy R1 h h1)
    (m2 : MarkedBy R2 h1 h2) : MarkedBy (R1 ++ R2) h h2 := by
  refine ⟨m1.ext.trans m2.ext, ?_, ?_, ?_⟩
  · intro r hr
    rcases List.mem_append.1 hr with hr | hr
    · exact m2.ext.mono r (m1.roots r hr)
    · exact m2.roots r hr
  · intro o ho2 ho r hr
    rcases marked_bool_cases h1 o with ho1 | ho1
    · obtain ⟨o', e1, e2⟩ := m1.closed o ho1 ho r hr
      exact ⟨o', e1, m2.ext.mono o' e2⟩
    · exact m2.closed o ho2 ho1 r (by rwa [m1.ext.refs])
  · intro o ho2 ho
    rcases marked_bool_cases h1 o with ho1 | ho1
    · exact Reach.mono (fun r hr => Reach.root (List.mem_append_left _ hr)) (m1.reach o ho1 ho)
    · exact Reach.mono (fun r hr => Reach.root (List.mem_append_right _ hr))
        (Reach.back m1.ext (m2.reach o ho2 ho1))

theorem MarkedBy.weaken {R R' : List Obj} {h h' : Heap} (m : MarkedBy R h h')
    (hroots : ∀ r ∈ R', h'.marked r = true) (hreach : ∀ r ∈ R, Reach h R' r) :
    MarkedBy R' h h' :=
  ⟨m.ext, hroots, m.closed, fun o h1 h2 => Reach.mono hreach (m.reach o h1 h2)⟩

/-- Visiting an unmarked object `o`: set its flag, then mark everything it
refers to. -/
theorem MarkedBy.visit {R : List Obj} {h h1 h' : Heap} {o : Obj}
    (e : Ext h h1) (hmark : ∀ o', h1.marked o' = (decide (o' = o) || h.marked o'))
    (m : MarkedBy R h1 h') (hrefs : ∀ r ∈ h.refs o, ∃ o' ∈ R, r = some o')
    (hR : ∀ o' ∈ R, some o' ∈ h.refs o ∨ o' = o) : MarkedBy [o] h h' := by
  refine ⟨e.trans m.ext, ?_, ?_, ?_⟩
  · intro r hr
    simp only [List.mem_singleton] at hr
    subst hr
    exact m.ext.mono _ (by rw [hmark]; simp)
  · intro o' ho' hun r hr
    by_cases heq : o' = o
    · subst heq
      obtain ⟨t, ht, e1⟩ := hrefs r hr
      exact ⟨t, e1, m.roots t ht⟩
    · have h1un : h1.marked o' = false := by rw [hmark]; simp [heq, hun]
      exact m.closed o' ho' h1un r (by rwa [e.refs])
  · intro o' ho' hun
    by_cases heq : o' = o
    · subst heq
      exact Reach.root (List.mem_singleton.2 rfl)
    · have h1un : h1.marked o' = false := by rw [hmark]; simp [heq, hun]
      refine Reach.mono ?_ (Reach.back e (m.reach o' ho' h1un))
      intro r hr
      rcases hR r hr with hedge | heq'
      · exact Reach.step (Reach.root (List.mem_singleton.2 rfl)) hedge
      · subst heq'
        exact Reach.root (List.mem_singleton.2 rfl)

theorem map_some_inj {α : Type} {R R' : List α} (h : R.map some = R'.map some) : R = R' :=
  List.map_injective_iff.2 (Option.some_injective α) h

theorem drop_of_getElem? {α : Type} {l : List α} {i : Nat} {b : α} (h : l[i]? = some b) :
    l.drop i = b :: l.drop (i + 1) := by
  induction l generalizing i with
  | nil => simp at h
  | cons y ys ih =>
    cases i with
    | zero => simp at h; simp [h]
    | succ i => simp at h; simpa using ih h

/-- Visiting an unmarked object whose references are the objects `Q`. -/
theorem MarkedBy.visit_refs {R Q : List Obj} {h h1 h' : Heap} {o : Obj}
    (e : Ext h h1) (hmark : ∀ o', h1.marked o' = (decide (o' = o) || h.marked o'))
    (m : MarkedBy R h1 h') (hrefs : h.refs o = Q.map some)
    (h1R : ∀ p ∈ Q, p ∈ R) (h2R : ∀ p ∈ R, p ∈ Q ∨ p = o) : MarkedBy [o] h h' := by
  refine MarkedBy.visit e hmark m ?_ ?_
  · intro r hr
    rw [hrefs] at hr
    obtain ⟨o', ho', rfl⟩ := List.mem_map.1 hr
    exact ⟨o', h1R o' ho', rfl⟩
  · intro o' ho'
    rcases h2R o' ho' with hm | hm
    · left; rw [hrefs]; exact List.mem_map.2 ⟨o', hm, rfl⟩
    · right; exact hm

theorem marks_spec {t : Task} {h h' : Heap} (m : Marks t h h') :
    ∃ R : List Obj, t.targets h = R.map some ∧ MarkedBy R h h' := by
  induction m with
  | @value_marked h a x hx hm =>
    exact ⟨[Obj.value a], rfl, MarkedBy.of_marked (by simp [Heap.marked, hx, hm])⟩
  | @value_enter h h' a x hx hm _ ih => exact ih
  | @loop_marked h a x hx hm =>
    exact ⟨[Obj.value a], rfl, MarkedBy.of_marked (by simp [Heap.marked, hx, hm])⟩
  | @loop_lambda h h2 h' a x hx hm ht _ _ ih1 ih2 =>
    obtain ⟨R1, e1, m1⟩ := ih1
    obtain ⟨R2, e2, m2⟩ := ih2
    have hR2 : R2 = [Obj.value a] := (map_some_inj (R := [Obj.value a]) e2).symm
    subst hR2
    refine ⟨[Obj.value a], rfl, ?_⟩
    refine MarkedBy.visit_refs (Q := R1) (ext_setValueMark hx hm) (marked_setValueMark hx)
      (m1.seq m2) ?_ ?_ ?_
    · simp only [Task.targets] at e1
      simp [Heap.refs, hx, ht, e1]
    · intro o' ho'; exact List.mem_append_left _ ho'
    · intro o' ho'
      rcases List.mem_append.1 ho' with hm' | hm'
      · exact Or.inl hm'
      · exact Or.inr (List.mem_singleton.1 hm')
  | @loop_cons h h2 h' a x x2 hx hm ht hc _ hx2 _ ih1 ih2 =>
    obtain ⟨R1, e1, m1⟩ := ih1
    obtain ⟨R2, e2, m2⟩ := ih2
    obtain ⟨x', hx', _, _, _, _, hcdr⟩ := ((ext_setValueMark hx hm).trans m1.ext).value_eq hx
    rw [hx2] at hx'
    cases hx'
    refine ⟨[Obj.value a], rfl, ?_⟩
    refine MarkedBy.visit_refs (Q := R1 ++ R2) (ext_setValueMark hx hm)
      (marked_setValueMark hx) (m1.seq m2) ?_ ?_ ?_
    · simp only [Task.targets] at e1 e2
      rw [hcdr] at e2
      have hr : h.refs (Obj.value a)
          = [Option.map Obj.value x.p_car, Option.map Obj.value x.p_cdr] := by
        simp only [Heap.refs, hx, if_neg ht, if_pos hc]
      rw [hr, List.map_append, ← e1, ← e2]
      rfl
    · intro o' ho'; exact ho'
    · intro o' ho'; exact Or.inl ho'
  | @loop_other h h' a x hx hm ht hc _ ih =>
    obtain ⟨R, e, m⟩ := ih
    have hR : R = [Obj.value a] := (map_some_inj (R := [Obj.value a]) e).symm
    subst hR
    refine ⟨[Obj.value a], rfl, ?_⟩
    refine MarkedBy.visit_refs (Q := []) (ext_setValueMark hx hm) (marked_setValueMark hx)
      m ?_ ?_ ?_
    · simp [Heap.refs, hx, ht, hc]
    · intro o' ho'; cases ho'
    · intro o' ho'; exact Or.inr (List.mem_singleton.1 ho')
  | @lambda_marked h a x hx hm =>
    exact ⟨[Obj.lambda a], rfl, MarkedBy.of_marked (by simp [Heap.marked, hx, hm])⟩
  | @lambda_interp h h2 h3 h' a x x2 x3 hx hm hn _ hx2 _ hx3 _ ih1 ih2 ih3 =>
    obtain ⟨R1, e1, m1⟩ := ih1
    obtain ⟨R2, e2, m2⟩ := ih2
    obtain ⟨R3, e3, m3⟩ := ih3
    obtain ⟨x', hx', _, _, hb, _⟩ := ((ext_setLambdaMark hx hm).trans m1.ext).lambda_eq hx
    rw [hx2] at hx'
    cases hx'
    obtain ⟨x', hx', _, _, _, hp⟩ :=
      (((ext_setLambdaMark hx hm).trans m1.ext).trans m2.ext).lambda_eq hx
    rw [hx3] at hx'
    cases hx'
    refine ⟨[Obj.lambda a], rfl, ?_⟩
    refine MarkedBy.visit_refs (Q := (R1 ++ R2) ++ R3) (ext_setLambdaMark hx hm)
      (marked_setLambdaMark hx) ((m1.seq m2).seq m3) ?_ ?_ ?_
    · simp only [Task.targets] at e1 e2 e3
      rw [hb] at e2
      rw [hp] at e3
      have hr : h.refs (Obj.lambda a) = [Option.map Obj.value x.arg_spec,
          Option.map Obj.value x.body, Option.map Obj.env x.parent_env] := by
        simp [Heap.refs, hx, hn]
      rw [hr, List.map_append, List.map_append, ← e1, ← e2, ← e3]
      rfl
    · intro o' ho'; exact ho'
    · intro o' ho'; exact Or.inl ho'
  | @lambda_native h h' a x hx hm hn _ ih =>
    obtain ⟨R, e, m⟩ := ih
    refine ⟨[Obj.lambda a], rfl, ?_⟩
    refine MarkedBy.visit_refs (Q := R) (ext_setLambdaMark hx hm)
      (marked_setLambdaMark hx) m ?_ ?_ ?_
    · simp only [Task.targets] at e
      simp [Heap.refs, hx, hn, e]
    · intro o' ho'; exact ho'
    · intro o' ho'; exact Or.inl ho'
  | env_enter _ ih => exact ih
  | envLoop_null => exact ⟨[], rfl, MarkedBy.of_marked (by simp)⟩
  | @envLoop_marked h a x hx hm =>
    exact ⟨[Obj.env a], rfl, MarkedBy.of_marked (by simp [Heap.marked, hx, hm])⟩
  | @envLoop_step h h2 h' a x x2 hx hm _ hx2 _ ih1 ih2 =>
    obtain ⟨R1, e1, m1⟩ := ih1
    obtain ⟨R2, e2, m2⟩ := ih2
    obtain ⟨x', hx', hp, _⟩ := ((ext_setEnvMark hx hm).trans m1.ext).environment_eq hx
    rw [hx2] at hx'
    cases hx'
    refine ⟨[Obj.env a], rfl, ?_⟩
    refine MarkedBy.visit_refs (Q := R1 ++ R2) (ext_setEnvMark hx hm)
      (marked_setEnvMark hx) (m1.seq m2) ?_ ?_ ?_
    · simp only [Task.targets, environment_setEnvMark hx, if_true, List.drop_zero] at e1 e2
      rw [hp] at e2
      have e2' : List.map (fun p => some (Obj.env p)) x.parent_env.toList = R2.map some := by
        rw [← e2]
      simp only [Heap.refs, hx, e1, e2', List.map_append]
    · intro o' ho'; exact ho'
    · intro o' ho'; exact Or.inl ho'
  | @bindings_done h a i x hx hi =>
    refine ⟨[], ?_, MarkedBy.of_marked (by simp)⟩
    simp only [Task.targets, hx]
    simp [Environment.num_bindings] at hi
    simp [List.drop_eq_nil_of_le hi]
  | @bindings_step h h2 h' a i x b hx hi hb _ _ ih1 ih2 =>
    obtain ⟨R1, e1, m1⟩ := ih1
    obtain ⟨R2, e2, m2⟩ := ih2
    obtain ⟨x', hx', _, hbs⟩ := m1.ext.environment_eq hx
    refine ⟨R1 ++ R2, ?_, m1.seq m2⟩
    simp only [Task.targets, hx', hbs] at e1 e2
    simp only [Task.targets, hx, drop_of_getElem? hb, List.map_cons, List.map_append, ← e2]
    have : [Option.map Obj.value b.value] = R1.map some := e1
    rw [← this]
    rfl

theorem mark_value_spec {n : Nat} {h h' : Heap} {v : Option Nat}
    (hr : mark_value n h v = .ok h') : ∃ a, v = some a ∧ MarkedBy [Obj.value a] h h' := by
  obtain ⟨R, e, m⟩ := marks_spec (marks_of_run n (.value v) h h' hr)
  cases v with
  | none => cases R <;> simp [Task.targets] at e
  | some a =>
    have hR : R = [Obj.value a] := (map_some_inj (R := [Obj.value a]) e).symm
    subst hR
    exact ⟨a, rfl, m⟩

theorem mark_lambda_spec {n : Nat} {h h' : Heap} {f : Option Nat}
    (hr : mark_lambda n h f = .ok h') : ∃ a, f = some a ∧ MarkedBy [Obj.lambda a] h h' := by
  obtain ⟨R, e, m⟩ := marks_spec (marks_of_run n (.lambda f) h h' hr)
  cases f with
  | none => cases R <;> simp [Task.targets] at e
  | some a =>
    have hR : R = [Obj.lambda a] := (map_some_inj (R := [Obj.lambda a]) e).symm
    subst hR
    exact ⟨a, rfl, m⟩

theorem mark_environment_spec {n : Nat} {h h' : Heap} {env : Option Nat}
    (hr : mark_environment n h env = .ok h') :
    ∃ a, env = some a ∧ MarkedBy [Obj.env a] h h' := by
  obtain ⟨R, e, m⟩ := marks_spec (marks_of_run n (.env env) h h' hr)
  cases env with
  | none => cases R <;> simp [Task.targets] at e
  | some a =>
    have hR : R = [Obj.env a] := (map_some_inj (R := [Obj.env a]) e).symm
    subst hR
    exact ⟨a, rfl, m⟩

theorem mark_local_vals_spec {n : Nat} : ∀ {ps : List (Option Nat)} {h h' : Heap},
    mark_local_vals n h ps = .ok h' → MarkedBy (ps.reduceOption.map Obj.value) h h' := by
  intro ps
  induction ps with
  | nil =>
    intro h h' hr
    simp only [mark_local_vals] at hr
    cases hr
    exact MarkedBy.of_marked (by simp)
  | cons p ps ih =>
    intro h h' hr
    simp only [mark_local_vals] at hr
    cases p with
    | none =>
      simp at hr
      simpa [List.reduceOption_cons_of_none] using ih hr
    | some a =>
      simp only [Option.isSome_some, if_true] at hr
      obtain ⟨h2, e1, e2⟩ := bind_eq_ok hr
      obtain ⟨a', ha', m1⟩ := mark_value_spec e1
      cases ha'
      have := m1.seq (ih e2)
      simpa [List.reduceOption_cons_of_some] using this

theorem mark_context_spec {n : Nat} {h h' : Heap} {ctx : EvaluationContext}
    (hr : mark_context n h ctx = .ok h') : MarkedBy ctx.roots h h' := by
  unfold mark_context at hr
  obtain ⟨h1, e1, hr⟩ := bind_eq_ok hr
  obtain ⟨h2, e2, hr⟩ := bind_eq_ok hr
  obtain ⟨h3, e3, hr⟩ := bind_eq_ok hr
  have m1 : MarkedBy (ctx.current_env.toList.map Obj.env) h h1 := by
    cases hc : ctx.current_env with
    | none => simp [hc] at e1; cases e1; exact MarkedBy.of_marked (by simp)
    | some a =>
      simp only [hc, Option.isSome_some, if_true] at e1
      obtain ⟨a', ha', m⟩ := mark_environment_spec e1
      cases ha'
      simpa using m
  have m2 : MarkedBy (ctx.expression.toList.map Obj.value) h1 h2 := by
    cases hc : ctx.expression with
    | none => simp [hc] at e2; cases e2; exact MarkedBy.of_marked (by simp)
    | some a =>
      simp only [hc, Option.isSome_some, if_true] at e2
      obtain ⟨a', ha', m⟩ := mark_value_spec e2
      cases ha'
      simpa using m
  have m3 : MarkedBy (ctx.child_eval_result.toList.map Obj.value) h2 h3 := by
    cases hc : ctx.child_eval_result with
    | none => simp [hc] at e3; cases e3; exact MarkedBy.of_marked (by simp)
    | some a =>
      simp only [hc, Option.isSome_some, if_true] at e3
      obtain ⟨a', ha', m⟩ := mark_value_spec e3
      cases ha'
      simpa using m
  exact ((m1.seq m2).seq m3).seq (mark_local_vals_spec hr)

theorem mark_contexts_spec {n : Nat} : ∀ {frames : List EvaluationContext} {h h' : Heap},
    mark_contexts n h frames = .ok h' →
    MarkedBy (frames.flatMap EvaluationContext.roots) h h' := by
  intro frames
  induction frames with
  | nil =>
    intro h h' hr
    simp only [mark_contexts] at hr
    cases hr
    exact MarkedBy.of_marked (by simp)
  | cons ctx rest ih =>
    intro h h' hr
    simp only [mark_contexts] at hr
    obtain ⟨h1, e1, e2⟩ := bind_eq_ok hr
    simpa using (mark_context_spec e1).seq (ih e2)

theorem mark_phase_spec {n : Nat} {h h1 h2 : Heap} {g : Option Nat}
    {frames : List EvaluationContext} (e1 : mark_environment n h g = .ok h1)
    (e2 : mark_eval_stack n h1 (some frames) = .ok h2) :
    MarkedBy (roots g frames) h h2 := by
  obtain ⟨a, ha, m1⟩ := mark_environment_spec e1
  subst ha
  simp only [mark_eval_stack] at e2
  simpa [roots] using m1.seq (mark_contexts_spec e2)

theorem run_ext {n : Nat} {t : Task} {h h' : Heap} (hr : t.run n h = .ok h') : Ext h h' := by
  obtain ⟨R, _, m⟩ := marks_spec (marks_of_run n t h h' hr)
  exact m.ext

theorem bind_ne_error {α β : Type} {x : Except Fail α} {f : α → Except Fail β} {e : Fail}
    (h1 : x ≠ .error e) (h2 : ∀ a, x = .ok a → f a ≠ .error e) :
    (x >>= f) ≠ .error e := by
  cases x with
  | error e' =>
    intro hc
    apply h1
    simpa [bind, Except.bind] using hc
  | ok a => exact h2 a rfl

theorem run_fuel : ∀ (n : Nat) (t : Task) (h : Heap),
    mark_budget h + t.cost h ≤ n → t.run n h ≠ .error .fuel := by
  intro n
  induction n with
  | zero =>
    intro t h hn
    cases t <;> simp [Task.cost] at hn
    all_goals (split at hn <;> omega)
  | succ n ih =>
    intro t h hn
    cases t with
    | value v =>
      simp only [Task.cost] at hn
      simp only [Task.run, mark_value]
      split
      · simp
      · rename_i a
        split
        · simp
        · rename_i x hx
          split
          · simp
          · exact ih (.valueLoop (some a)) h (by simp only [Task.cost]; omega)
    | valueLoop v =>
      simp only [Task.cost] at hn
      simp only [Task.run, mark_value_loop]
      split
      · simp
      · rename_i a
        split
        · simp
        · rename_i x hx
          split
          · simp
          · rename_i hm
            have hm' : x.marked = false := by simpa using hm
            have hb := budget_setValueMark hx hm'
            split
            · refine bind_ne_error (ih (.lambda _) _ (by simp only [Task.cost]; omega)) ?_
              intro h2 e1
              have := (run_ext (t := .lambda _) e1).budget
              exact ih (.valueLoop _) h2 (by simp only [Task.cost]; omega)
            · split
              · refine bind_ne_error (ih (.value _) _ (by simp only [Task.cost]; omega)) ?_
                intro h2 e1
                have := (run_ext (t := .value _) e1).budget
                split
                · simp
                · exact ih (.valueLoop _) h2 (by simp only [Task.cost]; omega)
              · exact ih (.valueLoop _) _ (by simp only [Task.cost]; omega)
    | lambda f =>
      simp only [Task.cost] at hn
      simp only [Task.run, mark_lambda]
      split
      · simp
      · rename_i a
        split
        · simp
        · rename_i x hx
          split
          · simp
          · rename_i hm
            have hm' : x.marked = false := by simpa using hm
            have hb := budget_setLambdaMark hx hm'
            split
            · refine bind_ne_error (ih (.value _) _ (by simp only [Task.cost]; omega)) ?_
              intro h2 e1
              have b1 := (run_ext (t := .value _) e1).budget
              split
              · simp
              · refine bind_ne_error (ih (.value _) _ (by simp only [Task.cost]; omega)) ?_
                intro h3 e2
                have b2 := (run_ext (t := .value _) e2).budget
                split
                · simp
                · exact ih (.env _) h3 (by simp only [Task.cost]; omega)
            · exact ih (.env _) _ (by simp only [Task.cost]; omega)
    | env e =>
      simp only [Task.cost] at hn
      simp only [Task.run, mark_environment]
      split
      · simp
      · exact ih (.envLoop _) h (by simp only [Task.cost]; omega)
    | envLoop e =>
      simp only [Task.cost] at hn
      simp only [Task.run, mark_environment_loop]
      split
      · simp
      · rename_i a
        split
        · simp
        · rename_i x hx
          split
          · simp
          · rename_i hm
            have hm' : x.marked = false := by simpa using hm
            have hb := budget_setEnvMark hx hm'
            refine bind_ne_error (ih (.bindings a 0) _ ?_) ?_
            · simp only [Task.cost, environment_setEnvMark hx, if_true,
                Environment.num_bindings] at *
              omega
            · intro h2 e1
              have b1 := (run_ext (t := .bindings a 0) e1).budget
              split
              · simp
              · exact ih (.envLoop _) h2 (by simp only [Task.cost]; omega)
    | bindings a i =>
      simp only [Task.run, mark_bindings]
      split
      · simp
      · rename_i x hx
        simp only [Task.cost, hx] at hn
        split
        · rename_i hi
          split
          · simp
          · rename_i b hb
            refine bind_ne_error (ih (.value _) _ (by simp only [Task.cost]; omega)) ?_
            intro h2 e1
            have e := run_ext (t := .value _) e1
            obtain ⟨x', hx', _, hbs⟩ := e.environment_eq hx
            have b1 := e.budget
            refine ih (.bindings a (i + 1)) h2 ?_
            simp only [Task.cost, hx', Environment.num_bindings, hbs] at *
            omega
        · simp

/-- Registered objects are allocated and refer to registered objects only. -/
theorem good_ext {h h' : Heap} (e : Ext h h')
    (hl : ∀ o ∈ h.objects, h.live o = true) (hr : RefsOK h) :
    (∀ o ∈ h'.objects, h'.live o = true) ∧ RefsOK h' := by
  constructor
  · intro o ho
    rw [e.objects] at ho
    rw [e.live_eq]
    exact hl o ho
  · intro o ho r hr'
    rw [e.objects] at ho ⊢
    rw [e.refs] at hr'
    exact hr o ho r hr'

theorem run_safe : ∀ (n : Nat) (t : Task) (h : Heap),
    (∀ o ∈ h.objects, h.live o = true) → RefsOK h →
    (∀ r ∈ t.targets h, ∃ o ∈ h.objects, r = some o) →
    (∀ a i, t = .bindings a i → Obj.env a ∈ h.objects) →
    t.run n h ≠ .error .abort := by
  intro n
  induction n with
  | zero =>
    intro t h _ _ _ _
    cases t <;> simp [Task.run, mark_value, mark_value_loop, mark_lambda, mark_environment,
      mark_environment_loop, mark_bindings]
  | succ n ih =>
    intro t h hl hrefs ht hb
    cases t with
    | value v =>
      obtain ⟨o, ho, hv⟩ := ht (v.map Obj.value) (by simp [Task.targets])
      cases v with
      | none => simp at hv
      | some a =>
        simp at hv
        subst hv
        have hlive := hl _ ho
        simp only [Task.run, mark_value]
        split
        · rename_i hx; simp [Heap.live, hx] at hlive
        · split
          · simp
          · exact ih (.valueLoop (some a)) h hl hrefs ht (by intro a i hc; cases hc)
    | valueLoop v =>
      obtain ⟨o, ho, hv⟩ := ht (v.map Obj.value) (by simp [Task.targets])
      cases v with
      | none => simp at hv
      | some a =>
        simp at hv
        subst hv
        have hlive := hl _ ho
        simp only [Task.run, mark_value_loop]
        split
        · rename_i hx; simp [Heap.live, hx] at hlive
        · rename_i x hx
          split
          · simp
          · rename_i hm
            have hm' : x.marked = false := by simpa using hm
            have e1 := ext_setValueMark hx hm'
            obtain ⟨hl1, hrefs1⟩ := good_ext e1 hl hrefs
            have hro := hrefs _ ho
            split
            · rename_i hty
              have hr1 : ∃ o' ∈ h.objects, x.lambda_val.map Obj.lambda = some o' :=
                hro _ (by simp [Heap.refs, hx, hty])
              refine bind_ne_error (ih (.lambda _) _ hl1 hrefs1 ?_
                (by intro a i hc; cases hc)) ?_
              · intro r hr
                simp only [Task.targets, List.mem_singleton] at hr
                subst hr
                rw [e1.objects]; exact hr1
              · intro h2 e2
                have e12 := e1.trans (run_ext (t := .lambda _) e2)
                obtain ⟨hl2, hrefs2⟩ := good_ext e12 hl hrefs
                refine ih (.valueLoop _) h2 hl2 hrefs2 ?_ (by intro a i hc; cases hc)
                intro r hr
                simp only [Task.targets, List.mem_singleton] at hr
                subst hr
                rw [e12.objects]; exact ⟨_, ho, rfl⟩
            · rename_i hty
              split
              · rename_i hc
                have hr1 : ∃ o' ∈ h.objects, x.p_car.map Obj.value = some o' :=
                  hro _ (by simp only [Heap.refs, hx, if_neg hty, if_pos hc]; simp)
                have hr2 : ∃ o' ∈ h.objects, x.p_cdr.map Obj.value = some o' :=
                  hro _ (by simp only [Heap.refs, hx, if_neg hty, if_pos hc]; simp)
                refine bind_ne_error (ih (.value _) _ hl1 hrefs1 ?_
                  (by intro a i hc; cases hc)) ?_
                · intro r hr
                  simp only [Task.targets, List.mem_singleton] at hr
                  subst hr
                  rw [e1.objects]; exact hr1
                · intro h2 e2
                  have e12 := e1.trans (run_ext (t := .value _) e2)
                  obtain ⟨hl2, hrefs2⟩ := good_ext e12 hl hrefs
                  obtain ⟨x', hx', _, _, _, _, hcdr⟩ := e12.value_eq hx
                  simp only [hx']
                  refine ih (.valueLoop _) h2 hl2 hrefs2 ?_ (by intro a i hc; cases hc)
                  intro r hr
                  simp only [Task.targets, List.mem_singleton] at hr
                  subst hr
                  rw [e12.objects, hcdr]; exact hr2
              · refine ih (.valueLoop _) _ hl1 hrefs1 ?_ (by intro a i hc; cases hc)
                intro r hr
                simp only [Task.targets, List.mem_singleton] at hr
                subst hr
                rw [e1.objects]; exact ⟨_, ho, rfl⟩
    | lambda f =>
      obtain ⟨o, ho, hv⟩ := ht (f.map Obj.lambda) (by simp [Task.targets])
      cases f with
      | none => simp at hv
      | some a =>
        simp at hv
        subst hv
        have hlive := hl _ ho
        simp only [Task.run, mark_lambda]
        split
        · rename_i hx; simp [Heap.live, hx] at hlive
        · rename_i x hx
          split
          · simp
          · rename_i hm
            have hm' : x.marked = false := by simpa using hm
            have e1 := ext_setLambdaMark hx hm'
            obtain ⟨hl1, hrefs1⟩ := good_ext e1 hl hrefs
            have hro := hrefs _ ho
            have hr3 : ∃ o' ∈ h.objects, x.parent_env.map Obj.env = some o' :=
              hro _ (by simp [Heap.refs, hx])
            split
            · rename_i hn
              have hn' : x.native_impl = false := by simpa using hn
              have hr1 : ∃ o' ∈ h.objects, x.arg_spec.map Obj.value = some o' :=
                hro _ (by simp [Heap.refs, hx, hn'])
              have hr2 : ∃ o' ∈ h.objects, x.body.map Obj.value = some o' :=
                hro _ (by simp [Heap.refs, hx, hn'])
              refine bind_ne_error (ih (.value _) _ hl1 hrefs1 ?_
                (by intro a i hc; cases hc)) ?_
              · intro r hr
                simp only [Task.targets, List.mem_singleton] at hr
                subst hr
                rw [e1.objects]; exact hr1
              · intro h2 e2
                have e12 := e1.trans (run_ext (t := .value _) e2)
                obtain ⟨hl2, hrefs2⟩ := good_ext e12 hl hrefs
                obtain ⟨x', hx', _, _, hbody, _⟩ := e12.lambda_eq hx
                simp only [hx']
                refine bind_ne_error (ih (.value _) _ hl2 hrefs2 ?_
                  (by intro a i hc; cases hc)) ?_
                · intro r hr
                  simp only [Task.targets, List.mem_singleton] at hr
                  subst hr
                  rw [e12.objects, hbody]; exact hr2
                · intro h3 e3
                  have e13 := e12.trans (run_ext (t := .value _) e3)
                  obtain ⟨hl3, hrefs3⟩ := good_ext e13 hl hrefs
                  obtain ⟨x'', hx'', _, _, _, hpar⟩ := e13.lambda_eq hx
                  simp only [hx'']
                  refine ih (.env _) h3 hl3 hrefs3 ?_ (by intro a i hc; cases hc)
                  intro r hr
                  simp only [Task.targets, List.mem_singleton] at hr
                  subst hr
                  rw [e13.objects, hpar]; exact hr3
            · refine ih (.env _) _ hl1 hrefs1 ?_ (by intro a i hc; cases hc)
              intro r hr
              simp only [Task.targets, List.mem_singleton] at hr
              subst hr
              rw [e1.objects]; exact hr3
    | env e =>
      obtain ⟨o, ho, hv⟩ := ht (e.map Obj.env) (by simp [Task.targets])
      cases e with
      | none => simp at hv
      | some a =>
        simp at hv
        subst hv
        simp only [Task.run, mark_environment]
        refine ih (.envLoop _) h hl hrefs ?_ (by intro a i hc; cases hc)
        intro r hr
        simp only [Task.targets, Option.toList, List.map_cons, List.map_nil,
          List.mem_singleton] at hr
        subst hr
        exact ⟨_, ho, rfl⟩
    | envLoop e =>
      cases e with
      | none => simp [Task.run, mark_environment_loop]
      | some a =>
        obtain ⟨o, ho, hv⟩ := ht (some (Obj.env a)) (by simp [Task.targets])
        simp at hv
        subst hv
        have hlive := hl _ ho
        simp only [Task.run, mark_environment_loop]
        split
        · rename_i hx; simp [Heap.live, hx] at hlive
        · rename_i x hx
          split
          · simp
          · rename_i hm
            have hm' : x.marked = false := by simpa using hm
            have e1 := ext_setEnvMark hx hm'
            obtain ⟨hl1, hrefs1⟩ := good_ext e1 hl hrefs
            have hro := hrefs _ ho
            refine bind_ne_error (ih (.bindings a 0) _ hl1 hrefs1 ?_ ?_) ?_
            · intro r hr
              simp only [Task.targets, environment_setEnvMark hx, if_true,
                List.drop_zero] at hr
              rw [e1.objects]
              exact hro r (by simp only [Heap.refs, hx]; exact List.mem_append_left _ hr)
            · intro a' i hc
              cases hc
              rw [e1.objects]; exact ho
            · intro h2 e2
              have e12 := e1.trans (run_ext (t := .bindings a 0) e2)
              obtain ⟨hl2, hrefs2⟩ := good_ext e12 hl hrefs
              obtain ⟨x', hx', hpar, _⟩ := e12.environment_eq hx
              simp only [hx']
              refine ih (.envLoop _) h2 hl2 hrefs2 ?_ (by intro a i hc; cases hc)
              intro r hr
              simp only [Task.targets, hpar] at hr
              rw [e12.objects]
              exact hro r (by simp only [Heap.refs, hx]; exact List.mem_append_right _ hr)
    | bindings a i =>
      have ho := hb a i rfl
      have hlive := hl _ ho
      simp only [Task.run, mark_bindings]
      split
      · rename_i hx; simp [Heap.live, hx] at hlive
      · rename_i x hx
        split
        · rename_i hi
          split
          · rename_i hnone
            simp only [Environment.num_bindings] at hi
            rw [List.getElem?_eq_getElem hi] at hnone
            cases hnone
          · rename_i b hbi
            have hmem : b.value.map Obj.value ∈ (Task.bindings a i).targets h := by
              simp only [Task.targets, hx, drop_of_getElem? hbi]
              simp
            refine bind_ne_error (ih (.value _) _ hl hrefs ?_
              (by intro a i hc; cases hc)) ?_
            · intro r hr
              simp only [Task.targets, List.mem_singleton] at hr
              subst hr
              exact ht _ hmem
            · intro h2 e2
              have e12 := run_ext (t := .value _) e2
              obtain ⟨hl2, hrefs2⟩ := good_ext e12 hl hrefs
              obtain ⟨x', hx', _, hbs⟩ := e12.environment_eq hx
              refine ih (.bindings a (i + 1)) h2 hl2 hrefs2 ?_ ?_
              · intro r hr
                simp only [Task.targets, hx', hbs] at hr
                rw [e12.objects]
                refine ht r ?_
                simp only [Task.targets, hx, drop_of_getElem? hbi]
                exact List.mem_cons_of_mem _ hr
              · intro a' i' hc
                cases hc
                rw [e12.objects]; exact ho
        · simp

theorem ok_of_ne_error {α : Type} {x : Except Fail α} (h1 : x ≠ .error .fuel)
    (h2 : x ≠ .error .abort) : ∃ a, x = .ok a := by
  cases x with
  | error e => cases e <;> simp at h1 h2
  | ok a => exact ⟨a, rfl⟩

theorem mark_value_fuel {n : Nat} {h : Heap} (v : Option Nat) (hn : mark_budget h + 2 ≤ n) :
    mark_value n h v ≠ .error .fuel :=
  run_fuel n (.value v) h hn

theorem mark_lambda_fuel {n : Nat} {h : Heap} (f : Option Nat) (hn : mark_budget h + 2 ≤ n) :
    mark_lambda n h f ≠ .error .fuel :=
  run_fuel n (.lambda f) h (by simp only [Task.cost]; omega)

theorem mark_environment_fuel {n : Nat} {h : Heap} (e : Option Nat)
    (hn : mark_budget h + 2 ≤ n) : mark_environment n h e ≠ .error .fuel :=
  run_fuel n (.env e) h hn

theorem mark_value_ext {n : Nat} {h h' : Heap} {v : Option Nat}
    (hr : mark_value n h v = .ok h') : Ext h h' := run_ext (t := .value v) hr

theorem mark_environment_ext {n : Nat} {h h' : Heap} {e : Option Nat}
    (hr : mark_environment n h e = .ok h') : Ext h h' := run_ext (t := .env e) hr

theorem mark_local_vals_fuel {n : Nat} : ∀ (ps : List (Option Nat)) (h : Heap),
    mark_budget h + 2 ≤ n → mark_local_vals n h ps ≠ .error .fuel := by
  intro ps
  induction ps with
  | nil => intro h _; simp [mark_local_vals]
  | cons p ps ih =>
    intro h hn
    simp only [mark_local_vals]
    split
    · refine bind_ne_error (mark_value_fuel p hn) ?_
      intro h2 e
      exact ih h2 (le_trans (Nat.add_le_add_right (mark_value_ext e).budget 2) hn)
    · exact ih h hn

theorem mark_context_fuel {n : Nat} (ctx : EvaluationContext) (h : Heap)
    (hn : mark_budget h + 2 ≤ n) : mark_context n h ctx ≠ .error .fuel := by
  unfold mark_context
  have step_env : ∀ (h : Heap) (p : Option Nat), mark_budget h + 2 ≤ n →
      (if p.isSome then mark_environment n h p else .ok h) ≠ .error .fuel := by
    intro h p hn
    split
    · exact mark_environment_fuel p hn
    · simp
  have step_val : ∀ (h : Heap) (p : Option Nat), mark_budget h + 2 ≤ n →
      (if p.isSome then mark_value n h p else .ok h) ≠ .error .fuel := by
    intro h p hn
    split
    · exact mark_value_fuel p hn
    · simp
  have ext_env : ∀ (h h' : Heap) (p : Option Nat),
      (if p.isSome then mark_environment n h p else .ok h) = .ok h' → Ext h h' := by
    intro h h' p e
    split at e
    · exact mark_environment_ext e
    · cases e; exact Ext.refl h
  have ext_val : ∀ (h h' : Heap) (p : Option Nat),
      (if p.isSome then mark_value n h p else .ok h) = .ok h' → Ext h h' := by
    intro h h' p e
    split at e
    · exact mark_value_ext e
    · cases e; exact Ext.refl h
  refine bind_ne_error (step_env h _ hn) ?_
  intro h1 e1
  have b1 := (ext_env _ _ _ e1).budget
  refine bind_ne_error (step_val h1 _ (by omega)) ?_
  intro h2 e2
  have b2 := (ext_val _ _ _ e2).budget
  refine bind_ne_error (step_val h2 _ (by omega)) ?_
  intro h3 e3
  have b3 := (ext_val _ _ _ e3).budget
  exact mark_local_vals_fuel _ h3 (by omega)

theorem mark_context_ext {n : Nat} {ctx : EvaluationContext} {h h' : Heap}
    (hr : mark_context n h ctx = .ok h') : Ext h h' := (mark_context_spec hr).ext

theorem mark_contexts_fuel {n : Nat} : ∀ (frames : List EvaluationContext) (h : Heap),
    mark_budget h + 2 ≤ n → mark_contexts n h frames ≠ .error .fuel := by
  intro frames
  induction frames with
  | nil => intro h _; simp [mark_contexts]
  | cons ctx rest ih =>
    intro h hn
    simp only [mark_contexts]
    refine bind_ne_error (mark_context_fuel ctx h hn) ?_
    intro h1 e
    exact ih h1 (le_trans (Nat.add_le_add_right (mark_context_ext e).budget 2) hn)

theorem mark_eval_stack_fuel {n : Nat} (s : Option (List EvaluationContext)) (h : Heap)
    (hn : mark_budget h + 2 ≤ n) : mark_eval_stack n h s ≠ .error .fuel := by
  cases s with
  | none => simp [mark_eval_stack]
  | some frames => exact mark_contexts_fuel frames h hn

theorem mark_value_safe {n : Nat} {h : Heap} {a : Nat}
    (hl : ∀ o ∈ h.objects, h.live o = true) (hrefs : RefsOK h)
    (ha : Obj.value a ∈ h.objects) : mark_value n h (some a) ≠ .error .abort := by
  refine run_safe n (.value (some a)) h hl hrefs ?_ (by intro a i hc; cases hc)
  intro r hr
  simp only [Task.targets, List.mem_singleton] at hr
  subst hr
  exact ⟨_, ha, rfl⟩

theorem mark_environment_safe {n : Nat} {h : Heap} {a : Nat}
    (hl : ∀ o ∈ h.objects, h.live o = true) (hrefs : RefsOK h)
    (ha : Obj.env a ∈ h.objects) : mark_environment n h (some a) ≠ .error .abort := by
  refine run_safe n (.env (some a)) h hl hrefs ?_ (by intro a i hc; cases hc)
  intro r hr
  simp only [Task.targets, List.mem_singleton] at hr
  subst hr
  exact ⟨_, ha, rfl⟩

theorem mark_local_vals_safe {n : Nat} : ∀ (ps : List (Option Nat)) (h : Heap),
    (∀ o ∈ h.objects, h.live o = true) → RefsOK h →
    (∀ o ∈ ps.reduceOption.map Obj.value, o ∈ h.objects) →
    mark_local_vals n h ps ≠ .error .abort := by
  intro ps
  induction ps with
  | nil => intro h _ _ _; simp [mark_local_vals]
  | cons p ps ih =>
    intro h hl hrefs hps
    simp only [mark_local_vals]
    cases p with
    | none =>
      simp only [Option.isSome_none, Bool.false_eq_true, if_false]
      exact ih h hl hrefs (by simpa [List.reduceOption_cons_of_none] using hps)
    | some a =>
      simp only [Option.isSome_some, if_true]
      simp only [List.reduceOption_cons_of_some, List.map_cons, List.mem_cons] at hps
      refine bind_ne_error (mark_value_safe hl hrefs (hps _ (Or.inl rfl))) ?_
      intro h2 e
      have e12 := mark_value_ext e
      obtain ⟨hl2, hrefs2⟩ := good_ext e12 hl hrefs
      refine ih h2 hl2 hrefs2 ?_
      intro o ho
      rw [e12.objects]
      exact hps o (Or.inr ho)

theorem mark_context_safe {n : Nat} (ctx : EvaluationContext) (h : Heap)
    (hl : ∀ o ∈ h.objects, h.live o = true) (hrefs : RefsOK h)
    (hroots : ∀ o ∈ ctx.roots, o ∈ h.objects) : mark_context n h ctx ≠ .error .abort := by
  unfold mark_context
  simp only [EvaluationContext.roots, List.mem_append] at hroots
  have step_env : ∀ (h : Heap) (p : Option Nat), (∀ o ∈ h.objects, h.live o = true) →
      RefsOK h → (∀ o ∈ p.toList.map Obj.env, o ∈ h.objects) →
      (if p.isSome then mark_environment n h p else .ok h) ≠ .error .abort := by
    intro h p hl hrefs hp
    cases p with
    | none => simp
    | some a => simpa using mark_environment_safe hl hrefs (hp _ (by simp))
  have step_val : ∀ (h : Heap) (p : Option Nat), (∀ o ∈ h.objects, h.live o = true) →
      RefsOK h → (∀ o ∈ p.toList.map Obj.value, o ∈ h.objects) →
      (if p.isSome then mark_value n h p else .ok h) ≠ .error .abort := by
    intro h p hl hrefs hp
    cases p with
    | none => simp
    | some a => simpa using mark_value_safe hl hrefs (hp _ (by simp))
  have ext_env : ∀ (h h' : Heap) (p : Option Nat),
      (if p.isSome then mark_environment n h p else .ok h) = .ok h' → Ext h h' := by
    intro h h' p e
    split at e
    · exact mark_environment_ext e
    · cases e; exact Ext.refl h
  have ext_val : ∀ (h h' : Heap) (p : Option Nat),
      (if p.isSome then mark_value n h p else .ok h) = .ok h' → Ext h h' := by
    intro h h' p e
    split at e
    · exact mark_value_ext e
    · cases e; exact Ext.refl h
  refine bind_ne_error (step_env h _ hl hrefs (fun o ho => hroots o (by tauto))) ?_
  intro h1 e1
  have x1 := ext_env _ _ _ e1
  obtain ⟨hl1, hrefs1⟩ := good_ext x1 hl hrefs
  refine bind_ne_error (step_val h1 _ hl1 hrefs1
    (fun o ho => by rw [x1.objects]; exact hroots o (by tauto))) ?_
  intro h2 e2
  have x2 := x1.trans (ext_val _ _ _ e2)
  obtain ⟨hl2, hrefs2⟩ := good_ext x2 hl hrefs
  refine bind_ne_error (step_val h2 _ hl2 hrefs2
    (fun o ho => by rw [x2.objects]; exact hroots o (by tauto))) ?_
  intro h3 e3
  have x3 := x2.trans (ext_val _ _ _ e3)
  obtain ⟨hl3, hrefs3⟩ := good_ext x3 hl hrefs
  exact mark_local_vals_safe _ h3 hl3 hrefs3
    (fun o ho => by rw [x3.objects]; exact hroots o (by tauto))

theorem mark_contexts_safe {n : Nat} : ∀ (frames : List EvaluationContext) (h : Heap),
    (∀ o ∈ h.objects, h.live o = true) → RefsOK h →
    (∀ o ∈ frames.flatMap EvaluationContext.roots, o ∈ h.objects) →
    mark_contexts n h frames ≠ .error .abort := by
  intro frames
  induction frames with
  | nil => intro h _ _ _; simp [mark_contexts]
  | cons ctx rest ih =>
    intro h hl hrefs hroots
    simp only [mark_contexts]
    simp only [List.flatMap_cons, List.mem_append] at hroots
    refine bind_ne_error (mark_context_safe ctx h hl hrefs
      (fun o ho => hroots o (Or.inl ho))) ?_
    intro h1 e
    have x1 := mark_context_ext e
    obtain ⟨hl1, hrefs1⟩ := good_ext x1 hl hrefs
    exact ih h1 hl1 hrefs1 (fun o ho => by rw [x1.objects]; exact hroots o (Or.inr ho))

theorem getD_append_length {α : Type} (pre post : List α) (p d : α) :
    (pre ++ p :: post).getD pre.length d = p := by
  induction pre with
  | nil => simp
  | cons y ys ih => simpa using ih

theorem set_append_length {α : Type} (pre post : List α) (p q : α) :
    (pre ++ p :: post).set pre.length q = pre ++ q :: post := by
  induction pre with
  | nil => simp
  | cons y ys ih => simp

theorem sweep_loop_spec {α : Type} (marked : α → Bool) (clear : α → α) :
    ∀ (post pre : List (Option Nat)) (mem : List (Option α)),
    (∀ p ∈ post, ∃ a, p = some a ∧ (rd mem a).isSome = true) → post.Nodup →
    ∃ mem', sweep_loop marked clear post.length pre.length (pre ++ post, mem)
        = .ok (pre ++ post.map (fun p => if slot_marked marked mem p then p else none), mem')
      ∧ ∀ c, rd mem' c = if some c ∈ post then swept marked clear (rd mem c) else rd mem c := by
  intro post
  induction post with
  | nil =>
    intro pre mem _ _
    exact ⟨mem, by simp [sweep_loop], by simp⟩
  | cons p post ih =>
    intro pre mem hlive hnd
    obtain ⟨a, hp, ha⟩ := hlive p (List.mem_cons_self _ _)
    subst hp
    obtain ⟨x, hx⟩ := Option.isSome_iff_exists.1 ha
    have hlt := rd_lt hx
    rw [List.nodup_cons] at hnd
    obtain ⟨hnot, hnd'⟩ := hnd
    have hne : ∀ p' ∈ post, ∀ a', p' = some a' → a ≠ a' := by
      intro p' hp' a' he hc
      subst hc; subst he
      exact hnot hp'
    -- the memory after this iteration
    have step : ∀ (y : Option α) (q : Option Nat),
        (∀ p' ∈ post, ∃ a', p' = some a' ∧ (rd (wr mem a y) a').isSome = true)
        ∧ (∀ p' ∈ post, slot_marked marked (wr mem a y) p' = slot_marked marked mem p') := by
      intro y q
      constructor
      · intro p' hp'
        obtain ⟨a', he, hs⟩ := hlive p' (List.mem_cons_of_mem _ hp')
        refine ⟨a', he, ?_⟩
        rw [rd_wr_ne _ _ _ _ (hne p' hp' a' he)]
        exact hs
      · intro p' hp'
        obtain ⟨a', he, _⟩ := hlive p' (List.mem_cons_of_mem _ hp')
        subst he
        simp only [slot_marked, rd_wr_ne _ _ _ _ (hne _ hp' a' rfl)]
    have hlen : (pre ++ [(none : Option Nat)]).length = pre.length + 1 := by simp
    simp only [List.length_cons, sweep_loop, pv_get_elem, getD_append_length, hx, pv_set_elem,
      set_append_length]
    by_cases hm : marked x = true
    · simp only [hm, Bool.not_true, Bool.false_eq_true, if_false]
      obtain ⟨h1, h2⟩ := step (some (clear x)) none
      obtain ⟨mem', e1, e2⟩ := ih (pre ++ [some a]) (wr mem a (some (clear x))) h1 hnd'
      refine ⟨mem', ?_, ?_⟩
      · have hlen' : (pre ++ [some a]).length = pre.length + 1 := by simp
        rw [hlen'] at e1
        simp only [List.append_assoc, List.singleton_append] at e1
        have hhead : slot_marked marked mem (some a) = true := by
          simp [slot_marked, hx, hm]
        rw [e1, List.map_cons, hhead, List.map_congr_left (fun p' hp' => by rw [h2 p' hp'])]
        simp
      · intro c
        rw [e2 c]
        by_cases hca : a = c
        · subst hca
          simp [hnot, rd_wr_same _ _ _ hlt, hx, swept, hm]
        · have : ¬ c = a := fun e => hca e.symm
          simp [rd_wr_ne _ _ _ _ hca, this]
    · have hm' : marked x = false := by simpa using hm
      simp only [hm', Bool.not_false, if_true]
      obtain ⟨h1, h2⟩ := step none none
      obtain ⟨mem', e1, e2⟩ := ih (pre ++ [none]) (wr mem a none) h1 hnd'
      refine ⟨mem', ?_, ?_⟩
      · rw [hlen] at e1
        simp only [List.append_assoc, List.singleton_append] at e1
        have hhead : slot_marked marked mem (some a) = false := by
          simp [slot_marked, hx, hm']
        rw [e1, List.map_cons, hhead, List.map_congr_left (fun p' hp' => by rw [h2 p' hp'])]
        simp
      · intro c
        rw [e2 c]
        by_cases hca : a = c
        · subst hca
          simp [hnot, rd_wr_same _ _ _ hlt, hx, swept, hm']
        · have : ¬ c = a := fun e => hca e.symm
          simp [rd_wr_ne _ _ _ _ hca, this]

theorem sweep_values_loop_eq : ∀ (k i : Nat) (h : Heap),
    sweep_values_loop k i h
      = (sweep_loop Value.marked Value.clear k i (h.allocated_values, h.values)).map
          (fun s => { h with allocated_values := s.1, values := s.2 }) := by
  intro k
  induction k with
  | zero => intro i h; simp [sweep_values_loop, sweep_loop, Except.map]
  | succ k ih =>
    intro i h
    simp only [sweep_values_loop, sweep_loop]
    cases hp : pv_get_elem h.allocated_values i with
    | none => simp [Except.map]
    | some a =>
      simp only [Heap.value]
      cases hx : rd h.values a with
      | none => simp [Except.map]
      | some x =>
        simp only []
        by_cases hm : x.marked = true
        · simp only [hm, Bool.not_true, Bool.false_eq_true, if_false]
          rw [ih]
          simp [Heap.setValueMark, Heap.value, hx, Value.clear]
        · have hm' : x.marked = false := by simpa using hm
          simp only [hm', Bool.not_false, if_true, free_value, Heap.value, hx]
          simp only [bind, Except.bind]
          rw [ih]


theorem sweep_lambdas_loop_eq : ∀ (k i : Nat) (h : Heap),
    sweep_lambdas_loop k i h
      = (sweep_loop Lambda.marked Lambda.clear k i (h.allocated_lambdas, h.lambdas)).map
          (fun s => { h with allocated_lambdas := s.1, lambdas := s.2 }) := by
  intro k
  induction k with
  | zero => intro i h; simp [sweep_lambdas_loop, sweep_loop, Except.map]
  | succ k ih =>
    intro i h
    simp only [sweep_lambdas_loop, sweep_loop]
    cases hp : pv_get_elem h.allocated_lambdas i with
    | none => simp [Except.map]
    | some a =>
      simp only [Heap.lambda]
      cases hx : rd h.lambdas a with
      | none => simp [Except.map]
      | some x =>
        simp only []
        by_cases hm : x.marked = true
        · simp only [hm, Bool.not_true, Bool.false_eq_true, if_false]
          rw [ih]
          simp [Heap.setLambdaMark, Heap.lambda, hx, Lambda.clear]
        · have hm' : x.marked = false := by simpa using hm
          simp only [hm', Bool.not_false, if_true, free_lambda, Heap.lambda, hx]
          simp only [bind, Except.bind]
          rw [ih]


theorem sweep_environments_loop_eq : ∀ (k i : Nat) (h : Heap),
    sweep_environments_loop k i h
      = (sweep_loop Environment.marked Environment.clear k i (h.allocated_environments, h.environments)).map
          (fun s => { h with allocated_environments := s.1, environments := s.2 }) := by
  intro k
  induction k with
  | zero => intro i h; simp [sweep_environments_loop, sweep_loop, Except.map]
  | succ k ih =>
    intro i h
    simp only [sweep_environments_loop, sweep_loop]
    cases hp : pv_get_elem h.allocated_environments i with
    | none => simp [Except.map]
    | some a =>
      simp only [Heap.environment]
      cases hx : rd h.environments a with
      | none => simp [Except.map]
      | some x =>
        simp only []
        by_cases hm : x.marked = true
        · simp only [hm, Bool.not_true, Bool.false_eq_true, if_false]
          rw [ih]
          simp [Heap.setEnvMark, Heap.environment, hx, Environment.clear]
        · have hm' : x.marked = false := by simpa using hm
          simp only [hm', Bool.not_false, if_true, free_environment, Heap.environment, hx]
          simp only [bind, Except.bind]
          rw [ih]


theorem compact_map_slot {α : Type} (marked : α → Bool) (mem : List (Option α)) :
    ∀ reg : List (Option Nat),
    pv_compact (reg.map (fun p => if slot_marked marked mem p then p else none))
      = reg.filter (slot_marked marked mem) := by
  intro reg
  induction reg with
  | nil => simp [pv_compact]
  | cons p reg ih =>
    simp only [pv_compact] at ih
    simp only [pv_compact, List.map_cons]
    by_cases hm : slot_marked marked mem p = true
    · have hp : p.isSome = true := by
        cases p with
        | none => simp [slot_marked] at hm
        | some a => rfl
      rw [if_pos hm, List.filter_cons_of_pos hp, List.filter_cons_of_pos hm, ih]
    · rw [if_neg hm, List.filter_cons_of_neg (by simp), List.filter_cons_of_neg hm, ih]

theorem sweep_values_spec (h : Heap) (hreg : RegOK h.allocated_values h.values) :
    ∃ h', sweep_values h = .ok h'
      ∧ h'.allocated_values = h.allocated_values.filter (slot_marked Value.marked h.values)
      ∧ (∀ c, h'.value c = if some c ∈ h.allocated_values
          then swept Value.marked Value.clear (h.value c) else h.value c)
      ∧ h'.lambdas = h.lambdas ∧ h'.environments = h.environments
      ∧ h'.allocated_lambdas = h.allocated_lambdas
      ∧ h'.allocated_environments = h.allocated_environments := by
  obtain ⟨mem', e1, e2⟩ := sweep_loop_spec Value.marked Value.clear h.allocated_values []
    h.values hreg.1 hreg.2
  simp only [List.length_nil, List.nil_append] at e1
  refine ⟨{ h with allocated_values := pv_compact (h.allocated_values.map
    (fun p => if slot_marked Value.marked h.values p then p else none)), values := mem' },
    ?_, ?_, ?_, ?_⟩
  · simp only [sweep_values, sweep_values_loop_eq, e1, Except.map, bind, Except.bind]
  · exact compact_map_slot Value.marked h.values h.allocated_values
  · exact e2
  · exact ⟨rfl, rfl, rfl, rfl⟩

theorem sweep_lambdas_spec (h : Heap) (hreg : RegOK h.allocated_lambdas h.lambdas) :
    ∃ h', sweep_lambdas h = .ok h'
      ∧ h'.allocated_lambdas = h.allocated_lambdas.filter (slot_marked Lambda.marked h.lambdas)
      ∧ (∀ c, h'.lambda c = if some c ∈ h.allocated_lambdas
          then swept Lambda.marked Lambda.clear (h.lambda c) else h.lambda c)
      ∧ h'.values = h.values ∧ h'.environments = h.environments
      ∧ h'.allocated_values = h.allocated_values
      ∧ h'.allocated_environments = h.allocated_environments := by
  obtain ⟨mem', e1, e2⟩ := sweep_loop_spec Lambda.marked Lambda.clear h.allocated_lambdas []
    h.lambdas hreg.1 hreg.2
  simp only [List.length_nil, List.nil_append] at e1
  refine ⟨{ h with allocated_lambdas := pv_compact (h.allocated_lambdas.map
    (fun p => if slot_marked Lambda.marked h.lambdas p then p else none)), lambdas := mem' },
    ?_, ?_, ?_, ?_⟩
  · simp only [sweep_lambdas, sweep_lambdas_loop_eq, e1, Except.map, bind, Except.bind]
  · exact compact_map_slot Lambda.marked h.lambdas h.allocated_lambdas
  · exact e2
  · exact ⟨rfl, rfl, rfl, rfl⟩

theorem sweep_environments_spec (h : Heap)
    (hreg : RegOK h.allocated_environments h.environments) :
    ∃ h', sweep_environments h = .ok h'
      ∧ h'.allocated_environments
          = h.allocated_environments.filter (slot_marked Environment.marked h.environments)
      ∧ (∀ c, h'.environment c = if some c ∈ h.allocated_environments
          then swept Environment.marked Environment.clear (h.environment c)
          else h.environment c)
      ∧ h'.values = h.values ∧ h'.lambdas = h.lambdas
      ∧ h'.allocated_values = h.allocated_values
      ∧ h'.allocated_lambdas = h.allocated_lambdas := by
  obtain ⟨mem', e1, e2⟩ := sweep_loop_spec Environment.marked Environment.clear
    h.allocated_environments [] h.environments hreg.1 hreg.2
  simp only [List.length_nil, List.nil_append] at e1
  refine ⟨{ h with allocated_environments := pv_compact (h.allocated_environments.map
    (fun p => if slot_marked Environment.marked h.environments p then p else none)), environments := mem' },
    ?_, ?_, ?_, ?_⟩
  · simp only [sweep_environments, sweep_environments_loop_eq, e1, Except.map, bind,
      Except.bind]
  · exact compact_map_slot Environment.marked h.environments h.allocated_environments
  · exact e2
  · exact ⟨rfl, rfl, rfl, rfl⟩

theorem mem_objects_value (h : Heap) (a : Nat) :
    Obj.value a ∈ h.objects ↔ some a ∈ h.allocated_values := by
  simp [Heap.objects, List.reduceOption_mem_iff]

theorem mem_objects_lambda (h : Heap) (a : Nat) :
    Obj.lambda a ∈ h.objects ↔ some a ∈ h.allocated_lambdas := by
  simp [Heap.objects, List.reduceOption_mem_iff]

theorem mem_objects_env (h : Heap) (a : Nat) :
    Obj.env a ∈ h.objects ↔ some a ∈ h.allocated_environments := by
  simp [Heap.objects, List.reduceOption_mem_iff]

theorem RegistryOK.values {h : Heap} (hr : RegistryOK h) :
    RegOK h.allocated_values h.values := by
  obtain ⟨⟨hn, _, _⟩, ⟨hd, _, _⟩, hl⟩ := hr
  refine ⟨?_, hd⟩
  intro p hp
  cases p with
  | none => exact absurd hp hn
  | some a => exact ⟨a, rfl, hl _ ((mem_objects_value h a).2 hp)⟩

theorem RegistryOK.lambdas {h : Heap} (hr : RegistryOK h) :
    RegOK h.allocated_lambdas h.lambdas := by
  obtain ⟨⟨_, hn, _⟩, ⟨_, hd, _⟩, hl⟩ := hr
  refine ⟨?_, hd⟩
  intro p hp
  cases p with
  | none => exact absurd hp hn
  | some a => exact ⟨a, rfl, hl _ ((mem_objects_lambda h a).2 hp)⟩

theorem RegistryOK.environments {h : Heap} (hr : RegistryOK h) :
    RegOK h.allocated_environments h.environments := by
  obtain ⟨⟨_, _, hn⟩, ⟨_, _, hd⟩, hl⟩ := hr
  refine ⟨?_, hd⟩
  intro p hp
  cases p with
  | none => exact absurd hp hn
  | some a => exact ⟨a, rfl, hl _ ((mem_objects_env h a).2 hp)⟩

theorem RegistryOK.ext {h h' : Heap} (e : Ext h h') (hr : RegistryOK h) : RegistryOK h' := by
  obtain ⟨hn, hd, hl⟩ := hr
  refine ⟨?_, ?_, ?_⟩
  · rw [e.allocated_values, e.allocated_lambdas, e.allocated_environments]; exact hn
  · rw [e.allocated_values, e.allocated_lambdas, e.allocated_environments]; exact hd
  · intro o ho
    rw [e.objects] at ho
    rw [e.live_eq]
    exact hl o ho

/-- The three sweeps in the order of `collect_garbage` succeed on a heap
whose registries are in order. -/
theorem sweep_all_spec (h : Heap) (hr : RegistryOK h) :
    ∃ h', (do
        let h3 ← sweep_values h
        let h4 ← sweep_lambdas h3
        sweep_environments h4) = .ok h' ∧ SweptFrom h h' := by
  obtain ⟨h3, e3, v1, v2, v3, v4, v5, v6⟩ := sweep_values_spec h hr.values
  obtain ⟨h4, e4, l1, l2, l3, l4, l5, l6⟩ := sweep_lambdas_spec h3
    (by rw [v5, v3]; exact hr.lambdas)
  obtain ⟨h5, e5, n1, n2, n3, n4, n5, n6⟩ := sweep_environments_spec h4
    (by rw [l6, l4, v6, v4]; exact hr.environments)
  refine ⟨h5, ?_, ?_⟩
  · simp only [e3, e4, e5, bind, Except.bind]
  · refine ⟨?_, ?_, ?_, ?_, ?_, ?_⟩
    · rw [n5, l5, v1]
    · rw [n6, l1, v5, v3]
    · rw [n1, l6, l4, v6, v4]
    · intro c
      have : h5.value c = h3.value c := by simp only [Heap.value, n3, l3]
      rw [this, v2]
    · intro c
      have : h5.lambda c = h4.lambda c := by simp only [Heap.lambda, n4]
      rw [this, l2, v5]
      simp only [Heap.lambda, v3]
    · intro c
      rw [n2, l6, v6]
      simp only [Heap.environment, l4, v4]

theorem slot_marked_value (h : Heap) (a : Nat) :
    slot_marked Value.marked h.values (some a) = h.marked (Obj.value a) := by
  simp only [slot_marked, Heap.marked, Heap.value]
  cases rd h.values a <;> rfl

theorem slot_marked_lambda (h : Heap) (a : Nat) :
    slot_marked Lambda.marked h.lambdas (some a) = h.marked (Obj.lambda a) := by
  simp only [slot_marked, Heap.marked, Heap.lambda]
  cases rd h.lambdas a <;> rfl

theorem slot_marked_env (h : Heap) (a : Nat) :
    slot_marked Environment.marked h.environments (some a) = h.marked (Obj.env a) := by
  simp only [slot_marked, Heap.marked, Heap.environment]
  cases rd h.environments a <;> rfl

theorem SweptFrom.mem_objects {h h' : Heap} (s : SweptFrom h h') (o : Obj) :
    o ∈ h'.objects ↔ o ∈ h.objects ∧ h.marked o = true := by
  cases o with
  | value a =>
    rw [mem_objects_value, mem_objects_value, s.allocated_values, List.mem_filter,
      slot_marked_value]
  | lambda a =>
    rw [mem_objects_lambda, mem_objects_lambda, s.allocated_lambdas, List.mem_filter,
      slot_marked_lambda]
  | env a =>
    rw [mem_objects_env, mem_objects_env, s.allocated_environments, List.mem_filter,
      slot_marked_env]

/-- A registered and marked object survives the sweep with its flag
cleared and nothing else changed. -/
theorem SweptFrom.value_of_marked {h h' : Heap} (s : SweptFrom h h') {a : Nat}
    (hreg : Obj.value a ∈ h.objects) (hm : h.marked (Obj.value a) = true) :
    ∃ x, h.value a = some x ∧ h'.value a = some x.clear := by
  rw [mem_objects_value] at hreg
  have := s.value a
  rw [if_pos hreg] at this
  cases hx : h.value a with
  | none => simp [Heap.marked, hx] at hm
  | some x =>
    simp only [Heap.marked, hx] at hm
    exact ⟨x, rfl, by rw [this, hx]; simp [swept, hm]⟩

theorem SweptFrom.lambda_of_marked {h h' : Heap} (s : SweptFrom h h') {a : Nat}
    (hreg : Obj.lambda a ∈ h.objects) (hm : h.marked (Obj.lambda a) = true) :
    ∃ x, h.lambda a = some x ∧ h'.lambda a = some x.clear := by
  rw [mem_objects_lambda] at hreg
  have := s.lambda a
  rw [if_pos hreg] at this
  cases hx : h.lambda a with
  | none => simp [Heap.marked, hx] at hm
  | some x =>
    simp only [Heap.marked, hx] at hm
    exact ⟨x, rfl, by rw [this, hx]; simp [swept, hm]⟩

theorem SweptFrom.environment_of_marked {h h' : Heap} (s : SweptFrom h h') {a : Nat}
    (hreg : Obj.env a ∈ h.objects) (hm : h.marked (Obj.env a) = true) :
    ∃ x, h.environment a = some x ∧ h'.environment a = some x.clear := by
  rw [mem_objects_env] at hreg
  have := s.environment a
  rw [if_pos hreg] at this
  cases hx : h.environment a with
  | none => simp [Heap.marked, hx] at hm
  | some x =>
    simp only [Heap.marked, hx] at hm
    exact ⟨x, rfl, by rw [this, hx]; simp [swept, hm]⟩

theorem SweptFrom.unmarked {h h' : Heap} (s : SweptFrom h h') : Unmarked h' := by
  intro o ho
  obtain ⟨hreg, hm⟩ := (s.mem_objects o).1 ho
  cases o with
  | value a =>
    obtain ⟨x, _, hx'⟩ := s.value_of_marked hreg hm
    simp [Heap.marked, hx', Value.clear]
  | lambda a =>
    obtain ⟨x, _, hx'⟩ := s.lambda_of_marked hreg hm
    simp [Heap.marked, hx', Lambda.clear]
  | env a =>
    obtain ⟨x, _, hx'⟩ := s.environment_of_marked hreg hm
    simp [Heap.marked, hx', Environment.clear]

theorem SweptFrom.live {h h' : Heap} (s : SweptFrom h h') :
    ∀ o ∈ h'.objects, h'.live o = true := by
  intro o ho
  obtain ⟨hreg, hm⟩ := (s.mem_objects o).1 ho
  cases o with
  | value a =>
    obtain ⟨x, _, hx'⟩ := s.value_of_marked hreg hm
    simp [Heap.live, hx']
  | lambda a =>
    obtain ⟨x, _, hx'⟩ := s.lambda_of_marked hreg hm
    simp [Heap.live, hx']
  | env a =>
    obtain ⟨x, _, hx'⟩ := s.environment_of_marked hreg hm
    simp [Heap.live, hx']

theorem SweptFrom.registryOK {h h' : Heap} (s : SweptFrom h h') (hr : RegistryOK h) :
    RegistryOK h' := by
  obtain ⟨⟨n1, n2, n3⟩, ⟨d1, d2, d3⟩, _⟩ := hr
  refine ⟨⟨?_, ?_, ?_⟩, ⟨?_, ?_, ?_⟩, s.live⟩
  · rw [s.allocated_values]; exact fun hc => n1 (List.mem_of_mem_filter hc)
  · rw [s.allocated_lambdas]; exact fun hc => n2 (List.mem_of_mem_filter hc)
  · rw [s.allocated_environments]; exact fun hc => n3 (List.mem_of_mem_filter hc)
  · rw [s.allocated_values]; exact d1.filter _
  · rw [s.allocated_lambdas]; exact d2.filter _
  · rw [s.allocated_environments]; exact d3.filter _

theorem collect_steps_of_mark {n : Nat} {h h1 h2 : Heap} {g : Option Nat}
    {frames : List EvaluationContext} (hr : RegistryOK h)
    (e1 : mark_environment n h g = .ok h1)
    (e2 : mark_eval_stack n h1 (some frames) = .ok h2) :
    ∃ h', collect_garbage_steps n h g (some frames) = .ok h' ∧ SweptFrom h2 h' := by
  have m := mark_phase_spec e1 e2
  obtain ⟨h', e3, s⟩ := sweep_all_spec h2 (hr.ext m.ext)
  refine ⟨h', ?_, s⟩
  unfold collect_garbage_steps
  simp only [e1, e2, bind, Except.bind] at e3 ⊢
  exact e3

theorem reach_registered {h : Heap} {R : List Obj} (hrefs : RefsOK h)
    (hroots : ∀ o ∈ R, o ∈ h.objects) {o : Obj} (hr : Reach h R o) : o ∈ h.objects := by
  induction hr with
  | root hmem => exact hroots _ hmem
  | step _ hedge ih =>
    obtain ⟨o'', ho'', e⟩ := hrefs _ ih _ hedge
    cases e
    exact ho''

/-- After a mark phase that started with the reachable objects unmarked,
every reachable object is marked and has all its references present. -/
theorem reach_marked {h h2 : Heap} {R : List Obj} (m : MarkedBy R h h2)
    (hun : ∀ o, Reach h R o → h.marked o = false) {o : Obj} (hr : Reach h R o) :
    h2.marked o = true ∧ ∀ r ∈ h.refs o, ∃ o', r = some o' ∧ h2.marked o' = true := by
  induction hr with
  | root hmem =>
    have hm := m.roots _ hmem
    exact ⟨hm, m.closed _ hm (hun _ (Reach.root hmem))⟩
  | step hprev hedge ih =>
    obtain ⟨o'', e, hm⟩ := ih.2 _ hedge
    cases e
    exact ⟨hm, m.closed _ hm (hun _ (Reach.step hprev hedge))⟩

theorem gc_fuel_ok {h h' : Heap} (e : Ext h h') : mark_budget h' + 2 ≤ gc_fuel h := by
  have := e.budget
  simp only [gc_fuel]
  omega

theorem mark_phase_wf {h : Heap} {g : Option Nat} {frames : List EvaluationContext}
    (hwf : WellFormed h g frames) :
    ∃ h1 h2, mark_environment (gc_fuel h) h g = .ok h1
      ∧ mark_eval_stack (gc_fuel h) h1 (some frames) = .ok h2 := by
  obtain ⟨hreg, _, hrefs, hg, hroots⟩ := hwf
  have hl := hreg.2.2
  cases g with
  | none => exact absurd rfl hg
  | some g0 =>
    have hg0 : Obj.env g0 ∈ h.objects := hroots _ (by simp [roots])
    obtain ⟨h1, e1⟩ := ok_of_ne_error (mark_environment_fuel (some g0) (gc_fuel_ok (Ext.refl h)))
      (mark_environment_safe hl hrefs hg0)
    have x1 := mark_environment_ext e1
    obtain ⟨hl1, hrefs1⟩ := good_ext x1 hl hrefs
    obtain ⟨h2, e2⟩ := ok_of_ne_error (mark_contexts_fuel frames h1 (gc_fuel_ok x1))
      (mark_contexts_safe frames h1 hl1 hrefs1
        (fun o ho => by rw [x1.objects]; exact hroots o (by simp [roots, ho])))
    exact ⟨h1, h2, e1, e2⟩

/-- On a well-formed heap `collect_garbage` returns: the mark phase marks
from the roots, the sweeps keep what is marked. -/
theorem collect_wf {h : Heap} {g : Option Nat} {frames : List EvaluationContext}
    (hwf : WellFormed h g frames) :
    ∃ h2 h', MarkedBy (roots g frames) h h2 ∧ SweptFrom h2 h'
      ∧ collect_garbage h g (some frames) = .ok h' := by
  obtain ⟨h1, h2, e1, e2⟩ := mark_phase_wf hwf
  obtain ⟨h', e3, s⟩ := collect_steps_of_mark hwf.1 e1 e2
  exact ⟨h2, h', mark_phase_spec e1 e2, s, e3⟩

/-- What survives a collection of a well-formed heap: exactly the
registered objects that are reachable from the roots. -/
theorem survivors_iff {h h2 h' : Heap} {g : Option Nat} {frames : List EvaluationContext}
    (hwf : WellFormed h g frames) (m : MarkedBy (roots g frames) h h2)
    (s : SweptFrom h2 h') (o : Obj) :
    o ∈ h'.objects ↔ o ∈ h.objects ∧ Reach h (roots g frames) o := by
  obtain ⟨_, hun, hrefs, _, hroots⟩ := hwf
  rw [s.mem_objects, m.ext.objects]
  constructor
  · rintro ⟨ho, hm⟩
    exact ⟨ho, m.reach o hm (hun o ho)⟩
  · rintro ⟨ho, hr⟩
    refine ⟨ho, (reach_marked m ?_ hr).1⟩
    intro o' hr'
    exact hun o' (reach_registered hrefs hroots hr')

theorem rd_append_lt {α : Type} (m : List (Option α)) (x : Option α) {a : Nat}
    (h : a < m.length) : rd (m ++ [x]) a = rd m a := by
  simp [rd, List.getElem?_append_left h]

theorem rd_append_length {α : Type} (m : List (Option α)) (x : Option α) :
    rd (m ++ [x]) m.length = x := by
  simp [rd]

theorem rd_ge {α : Type} (m : List (Option α)) {a : Nat} (h : m.length ≤ a) :
    rd m a = none := by
  simp [rd, List.getElem?_eq_none h]

theorem rd_append_ne {α : Type} (m : List (Option α)) (x : Option α) {a : Nat}
    (h : a ≠ m.length) : rd (m ++ [x]) a = rd m a := by
  rcases Nat.lt_or_gt_of_ne h with hlt | hgt
  · exact rd_append_lt m x hlt
  · rw [rd_ge m (Nat.le_of_lt hgt), rd_ge]
    simp
    omega

theorem mem_objects_iff (h : Heap) (o : Obj) :
    o ∈ h.objects ↔ match o with
      | .value a => some a ∈ h.allocated_values
      | .lambda a => some a ∈ h.allocated_lambdas
      | .env a => some a ∈ h.allocated_environments := by
  cases o with
  | value a => exact mem_objects_value h a
  | lambda a => exact mem_objects_lambda h a
  | env a => exact mem_objects_env h a

theorem alloc_value_marked (h : Heap) (o : Obj) (hm : (alloc_value h).1.marked o = true) :
    h.marked o = true ∧ o ≠ Obj.value (alloc_value h).2 := by
  cases o with
  | value a =>
    simp only [alloc_value, Heap.marked, Heap.value] at hm ⊢
    by_cases ha : a = h.values.length
    · subst ha
      rw [rd_append_length] at hm
      simp [Value.zero] at hm
    · rw [rd_append_ne _ _ ha] at hm
      exact ⟨hm, by simpa using ha⟩
  | lambda a => exact ⟨hm, by simp⟩
  | env a => exact ⟨hm, by simp⟩

theorem alloc_lambda_marked (h : Heap) (o : Obj) (hm : (alloc_lambda h).1.marked o = true) :
    h.marked o = true ∧ o ≠ Obj.lambda (alloc_lambda h).2 := by
  cases o with
  | value a => exact ⟨hm, by simp⟩
  | lambda a =>
    simp only [alloc_lambda, Heap.marked, Heap.lambda] at hm ⊢
    by_cases ha : a = h.lambdas.length
    · subst ha
      rw [rd_append_length] at hm
      simp [Lambda.zero] at hm
    · rw [rd_append_ne _ _ ha] at hm
      exact ⟨hm, by simpa using ha⟩
  | env a => exact ⟨hm, by simp⟩

theorem alloc_environment_marked (h : Heap) (o : Obj)
    (hm : (alloc_environment h).1.marked o = true) :
    h.marked o = true ∧ o ≠ Obj.env (alloc_environment h).2 := by
  cases o with
  | value a => exact ⟨hm, by simp⟩
  | lambda a => exact ⟨hm, by simp⟩
  | env a =>
    simp only [alloc_environment, Heap.marked, Heap.environment] at hm ⊢
    by_cases ha : a = h.environments.length
    · subst ha
      rw [rd_append_length] at hm
      simp [Environment.zero] at hm
    · rw [rd_append_ne _ _ ha] at hm
      exact ⟨hm, by simpa using ha⟩

theorem alloc_value_objects (h : Heap) (o : Obj) (ho : o ∈ (alloc_value h).1.objects) :
    o ∈ h.objects ∨ o = Obj.value (alloc_value h).2 := by
  rw [mem_objects_iff] at ho
  rw [mem_objects_iff]
  cases o with
  | value a =>
    simp only [alloc_value, pv_add_elem, List.mem_append, List.mem_singleton] at ho ⊢
    rcases ho with ho | ho
    · exact Or.inl ho
    · right; simpa using ho
  | lambda a => exact Or.inl ho
  | env a => exact Or.inl ho

theorem alloc_lambda_objects (h : Heap) (o : Obj) (ho : o ∈ (alloc_lambda h).1.objects) :
    o ∈ h.objects ∨ o = Obj.lambda (alloc_lambda h).2 := by
  rw [mem_objects_iff] at ho
  rw [mem_objects_iff]
  cases o with
  | value a => exact Or.inl ho
  | lambda a =>
    simp only [alloc_lambda, pv_add_elem, List.mem_append, List.mem_singleton] at ho ⊢
    rcases ho with ho | ho
    · exact Or.inl ho
    · right; simpa using ho
  | env a => exact Or.inl ho

theorem alloc_environment_objects (h : Heap) (o : Obj)
    (ho : o ∈ (alloc_environment h).1.objects) :
    o ∈ h.objects ∨ o = Obj.env (alloc_environment h).2 := by
  rw [mem_objects_iff] at ho
  rw [mem_objects_iff]
  cases o with
  | value a => exact Or.inl ho
  | lambda a => exact Or.inl ho
  | env a =>
    simp only [alloc_environment, pv_add_elem, List.mem_append, List.mem_singleton] at ho ⊢
    rcases ho with ho | ho
    · exact Or.inl ho
    · right; simpa using ho

theorem unmarked_of_alloc {h h' : Heap} {new : Obj} (hun : Unmarked h)
    (hobj : ∀ o ∈ h'.objects, o ∈ h.objects ∨ o = new)
    (hmark : ∀ o, h'.marked o = true → h.marked o = true ∧ o ≠ new) : Unmarked h' := by
  intro o ho
  rcases marked_bool_cases h' o with hm | hm
  · obtain ⟨h1, h2⟩ := hmark o hm
    rcases hobj o ho with h3 | h3
    · rw [hun o h3] at h1; cases h1
    · exact absurd h3 h2
  · exact hm

theorem SweptFrom.dead {h h' : Heap} (s : SweptFrom h h') {o : Obj} (ho : o ∈ h.objects)
    (hm : h.marked o = false) : h'.live o = false := by
  rw [mem_objects_iff] at ho
  cases o with
  | value a =>
    have := s.value a
    rw [if_pos ho] at this
    simp only [Heap.marked] at hm
    simp only [Heap.live, this]
    cases hx : h.value a with
    | none => simp [swept]
    | some x =>
      rw [hx] at hm
      have hm' : x.marked = false := hm
      simp [swept, hm']
  | lambda a =>
    have := s.lambda a
    rw [if_pos ho] at this
    simp only [Heap.marked] at hm
    simp only [Heap.live, this]
    cases hx : h.lambda a with
    | none => simp [swept]
    | some x =>
      rw [hx] at hm
      have hm' : x.marked = false := hm
      simp [swept, hm']
  | env a =>
    have := s.environment a
    rw [if_pos ho] at this
    simp only [Heap.marked] at hm
    simp only [Heap.live, this]
    cases hx : h.environment a with
    | none => simp [swept]
    | some x =>
      rw [hx] at hm
      have hm' : x.marked = false := hm
      simp [swept, hm']

theorem bind_mono {α β : Type} {x x' : Except Fail α} {f f' : α → Except Fail β}
    (hne : (x >>= f) ≠ .error .fuel) (hx : x ≠ .error .fuel → x' = x)
    (hf : ∀ a, x = .ok a → f a ≠ .error .fuel → f' a = f a) : (x' >>= f') = (x >>= f) := by
  cases x with
  | error e =>
    have he : (Except.error e : Except Fail α) ≠ .error .fuel := by
      intro hc
      apply hne
      rw [hc]
      rfl
    rw [hx he]
    rfl
  | ok a =>
    rw [hx (by simp)]
    exact hf a rfl hne

/-- More steps do not change the outcome of a run that did not run out of
steps. -/
theorem run_mono : ∀ (n : Nat) (t : Task) (h : Heap),
    t.run n h ≠ .error .fuel → t.run (n + 1) h = t.run n h := by
  intro n
  induction n with
  | zero =>
    intro t h hne
    exfalso
    apply hne
    cases t <;> rfl
  | succ n ih =>
    intro t h hne
    cases t with
    | value v =>
      simp only [Task.run, mark_value] at hne
      simp only [Task.run]
      conv_rhs => simp only [mark_value]
      generalize hm : n + 1 = m
      conv_lhs => simp only [mark_value]
      subst hm
      cases v with
      | none => rfl
      | some a =>
        simp only at hne ⊢
        cases hx : h.value a with
        | none => rfl
        | some x =>
          simp only [hx] at hne ⊢
          by_cases hm : x.marked = true
          · simp only [hm, if_true]
          · simp only [hm, if_false] at hne ⊢
            exact ih (.valueLoop (some a)) h hne
    | valueLoop v =>
      simp only [Task.run, mark_value_loop] at hne
      simp only [Task.run]
      conv_rhs => simp only [mark_value_loop]
      generalize hm : n + 1 = m
      conv_lhs => simp only [mark_value_loop]
      subst hm
      cases v with
      | none => rfl
      | some a =>
        simp only at hne ⊢
        cases hx : h.value a with
        | none => rfl
        | some x =>
          simp only [hx] at hne ⊢
          by_cases hm : x.marked = true
          · simp only [hm, if_true]
          · simp only [hm, if_false] at hne ⊢
            by_cases ht : x.type = T_Lambda
            · simp only [ht, if_true] at hne ⊢
              exact bind_mono hne (ih (.lambda _) _)
                (fun h2 _ hk => ih (.valueLoop _) h2 hk)
            · simp only [ht, if_false] at hne ⊢
              by_cases hc : x.type = T_ConsPair
              · simp only [hc, if_true] at hne ⊢
                refine bind_mono hne (ih (.value _) _) ?_
                intro h2 _ hk
                cases hx2 : h2.value a with
                | none => rfl
                | some x2 =>
                  simp only [hx2] at hk ⊢
                  exact ih (.valueLoop _) h2 hk
              · simp only [hc, if_false] at hne ⊢
                exact ih (.valueLoop _) _ hne
    | lambda f =>
      simp only [Task.run, mark_lambda] at hne
      simp only [Task.run]
      conv_rhs => simp only [mark_lambda]
      generalize hm : n + 1 = m
      conv_lhs => simp only [mark_lambda]
      subst hm
      cases f with
      | none => rfl
      | some a =>
        simp only at hne ⊢
        cases hx : h.lambda a with
        | none => rfl
        | some x =>
          simp only [hx] at hne ⊢
          by_cases hm : x.marked = true
          · simp only [hm, if_true]
          · simp only [hm, if_false] at hne ⊢
            by_cases hn : (!x.native_impl) = true
            · simp only [hn, if_true] at hne ⊢
              refine bind_mono hne (ih (.value _) _) ?_
              intro h2 _ hk
              cases hx2 : h2.lambda a with
              | none => rfl
              | some x2 =>
                simp only [hx2] at hk ⊢
                refine bind_mono hk (ih (.value _) _) ?_
                intro h3 _ hk3
                cases hx3 : h3.lambda a with
                | none => rfl
                | some x3 =>
                  simp only [hx3] at hk3 ⊢
                  exact ih (.env _) h3 hk3
            · simp only [hn, if_false] at hne ⊢
              exact ih (.env _) _ hne
    | env e =>
      simp only [Task.run, mark_environment] at hne
      simp only [Task.run]
      conv_rhs => simp only [mark_environment]
      generalize hm : n + 1 = m
      conv_lhs => simp only [mark_environment]
      subst hm
      cases e with
      | none => rfl
      | some a =>
        simp only at hne ⊢
        exact ih (.envLoop _) h hne
    | envLoop e =>
      simp only [Task.run, mark_environment_loop] at hne
      simp only [Task.run]
      conv_rhs => simp only [mark_environment_loop]
      generalize hm : n + 1 = m
      conv_lhs => simp only [mark_environment_loop]
      subst hm
      cases e with
      | none => rfl
      | some a =>
        simp only at hne ⊢
        cases hx : h.environment a with
        | none => rfl
        | some x =>
          simp only [hx] at hne ⊢
          by_cases hm : x.marked = true
          · simp only [hm, if_true]
          · simp only [hm, if_false] at hne ⊢
            refine bind_mono hne (ih (.bindings a 0) _) ?_
            intro h2 _ hk
            cases hx2 : h2.environment a with
            | none => rfl
            | some x2 =>
              simp only [hx2] at hk ⊢
              exact ih (.envLoop _) h2 hk
    | bindings a i =>
      simp only [Task.run, mark_bindings] at hne
      simp only [Task.run]
      conv_rhs => simp only [mark_bindings]
      generalize hm : n + 1 = m
      conv_lhs => simp only [mark_bindings]
      subst hm
      cases hx : h.environment a with
      | none => rfl
      | some x =>
        simp only [hx] at hne ⊢
        by_cases hi : i < x.num_bindings
        · simp only [hi, if_true] at hne ⊢
          cases hb : x.bindings[i]? with
          | none => rfl
          | some b =>
            simp only [hb] at hne ⊢
            exact bind_mono hne (ih (.value _) _)
              (fun h2 _ hk => ih (.bindings a (i + 1)) h2 hk)
        · simp only [hi, if_false]

theorem run_stable {n m : Nat} {t : Task} {h : Heap} (hnm : n ≤ m)
    (hne : t.run n h ≠ .error .fuel) : t.run m h = t.run n h := by
  induction m with
  | zero =>
    have : n = 0 := by omega
    subst this
    rfl
  | succ m ih =>
    by_cases hm : n ≤ m
    · have e := ih hm
      rw [← e] at hne
      rw [run_mono m t h hne, e]
    · have : n = m + 1 := by omega
      subst this
      rfl

/-- With at least `gc_fuel h` steps a task other than the bindings loop
runs on `h` as it does with exactly `gc_fuel h` steps, and does not run out
of steps. -/
theorem run_gc_fuel {n : Nat} (t : Task) (h : Heap) (hn : gc_fuel h ≤ n)
    (hc : t.cost h ≤ 2) :
    t.run n h = t.run (gc_fuel h) h ∧ t.run n h ≠ .error .fuel := by
  have h0 : t.run (gc_fuel h) h ≠ .error .fuel :=
    run_fuel _ t h (by simp only [gc_fuel]; omega)
  have e := run_stable hn h0
  exact ⟨e, by rw [e]; exact h0⟩

theorem RegOK.filter_swept {α : Type} (marked : α → Bool) (clear : α → α)
    {reg : List (Option Nat)} {mem mem' : List (Option α)} (hr : RegOK reg mem)
    (hmem : ∀ c, rd mem' c = if some c ∈ reg then swept marked clear (rd mem c) else rd mem c) :
    RegOK (reg.filter (slot_marked marked mem)) mem' := by
  refine ⟨?_, hr.2.filter _⟩
  intro p hp
  obtain ⟨h1, h2⟩ := List.mem_filter.1 hp
  obtain ⟨a, ha, _⟩ := hr.1 p h1
  subst ha
  refine ⟨a, rfl, ?_⟩
  rw [hmem a, if_pos h1]
  simp only [slot_marked] at h2
  cases hx : rd mem a with
  | none => rw [hx] at h2; cases h2
  | some x =>
    rw [hx] at h2
    have h2' : marked x = true := h2
    simp [swept, h2']

theorem registryOK_iff (h : Heap) :
    RegistryOK h ↔ RegOK h.allocated_values h.values ∧ RegOK h.allocated_lambdas h.lambdas
      ∧ RegOK h.allocated_environments h.environments := by
  constructor
  · intro hr
    exact ⟨hr.values, hr.lambdas, hr.environments⟩
  · rintro ⟨⟨v1, v2⟩, ⟨l1, l2⟩, ⟨e1, e2⟩⟩
    refine ⟨⟨?_, ?_, ?_⟩, ⟨v2, l2, e2⟩, ?_⟩
    · intro hc; obtain ⟨a, ha, _⟩ := v1 _ hc; cases ha
    · intro hc; obtain ⟨a, ha, _⟩ := l1 _ hc; cases ha
    · intro hc; obtain ⟨a, ha, _⟩ := e1 _ hc; cases ha
    · intro o ho
      rw [mem_objects_iff] at ho
      cases o with
      | value a => obtain ⟨a', ha', hl⟩ := v1 _ ho; cases ha'; exact hl
      | lambda a => obtain ⟨a', ha', hl⟩ := l1 _ ho; cases ha'; exact hl
      | env a => obtain ⟨a', ha', hl⟩ := e1 _ ho; cases ha'; exact hl

theorem RegOK.append_fresh {α : Type} {reg : List (Option Nat)} {mem : List (Option α)}
    (hr : RegOK reg mem) (x : α) :
    RegOK (pv_add_elem reg (some mem.length)) (mem ++ [some x]) := by
  obtain ⟨h1, h2⟩ := hr
  have hlt : ∀ a, some a ∈ reg → a < mem.length := by
    intro a ha
    obtain ⟨a', ha', hl⟩ := h1 _ ha
    cases ha'
    obtain ⟨y, hy⟩ := Option.isSome_iff_exists.1 hl
    exact rd_lt hy
  constructor
  · intro p hp
    simp only [pv_add_elem, List.mem_append, List.mem_singleton] at hp
    rcases hp with hp | hp
    · obtain ⟨a, ha, hl⟩ := h1 p hp
      subst ha
      exact ⟨a, rfl, by rw [rd_append_lt _ _ (hlt a hp)]; exact hl⟩
    · subst hp
      exact ⟨mem.length, rfl, by rw [rd_append_length]; rfl⟩
  · simp only [pv_add_elem]
    rw [List.nodup_append]
    refine ⟨h2, List.nodup_singleton _, ?_⟩
    intro p hp hq
    rw [List.mem_singleton] at hq
    subst hq
    exact absurd (hlt _ hp) (lt_irrefl _)

/-- The registries are in order after `init_alloc`, and the allocation
functions keep them in order. -/
theorem registryOK_alloc (h : Heap) (hr : RegistryOK h) :
    RegistryOK init_alloc ∧ RegistryOK (alloc_value h).1 ∧ RegistryOK (alloc_lambda h).1
      ∧ RegistryOK (alloc_environment h).1 := by
  obtain ⟨hv, hl, he⟩ := (registryOK_iff h).1 hr
  refine ⟨by decide, ?_, ?_, ?_⟩
  · exact (registryOK_iff _).2 ⟨hv.append_fresh Value.zero, hl, he⟩
  · exact (registryOK_iff _).2 ⟨hv, hl.append_fresh Lambda.zero, he⟩
  · exact (registryOK_iff _).2 ⟨hv, hl, he.append_fresh Environment.zero⟩

/-- Each sweep keeps the registries in order. -/
theorem registryOK_sweep (h : Heap) (hr : RegistryOK h) :
    (∀ h', sweep_values h = .ok h' → RegistryOK h')
      ∧ (∀ h', sweep_lambdas h = .ok h' → RegistryOK h')
      ∧ (∀ h', sweep_environments h = .ok h' → RegistryOK h') := by
  obtain ⟨hv, hl, he⟩ := (registryOK_iff h).1 hr
  refine ⟨?_, ?_, ?_⟩
  · intro h' e
    obtain ⟨h'', e', h1, h2, h3, h4, h5, h6⟩ := sweep_values_spec h hv
    rw [e] at e'
    cases e'
    refine (registryOK_iff _).2 ⟨?_, ?_, ?_⟩
    · rw [h1]; exact hv.filter_swept Value.marked Value.clear h2
    · rw [h5, h3]; exact hl
    · rw [h6, h4]; exact he
  · intro h' e
    obtain ⟨h'', e', h1, h2, h3, h4, h5, h6⟩ := sweep_lambdas_spec h hl
    rw [e] at e'
    cases e'
    refine (registryOK_iff _).2 ⟨?_, ?_, ?_⟩
    · rw [h5, h3]; exact hv
    · rw [h1]; exact hl.filter_swept Lambda.marked Lambda.clear h2
    · rw [h6, h4]; exact he
  · intro h' e
    obtain ⟨h'', e', h1, h2, h3, h4, h5, h6⟩ := sweep_environments_spec h he
    rw [e] at e'
    cases e'
    refine (registryOK_iff _).2 ⟨?_, ?_, ?_⟩
    · rw [h5, h3]; exact hv
    · rw [h6, h4]; exact hl
    · rw [h1]; exact he.filter_swept Environment.marked Environment.clear h2

theorem sweep_values_eq (h : Heap) :
    sweep_values h
      = (sweep_registry Value.marked Value.clear (h.allocated_values, h.values)).map
          (fun s => { h with allocated_values := s.1, values := s.2 }) := by
  simp only [sweep_values, sweep_values_loop_eq, sweep_registry]
  cases sweep_loop Value.marked Value.clear h.allocated_values.length 0
    (h.allocated_values, h.values) <;> rfl

theorem sweep_lambdas_eq (h : Heap) :
    sweep_lambdas h
      = (sweep_registry Lambda.marked Lambda.clear (h.allocated_lambdas, h.lambdas)).map
          (fun s => { h with allocated_lambdas := s.1, lambdas := s.2 }) := by
  simp only [sweep_lambdas, sweep_lambdas_loop_eq, sweep_registry]
  cases sweep_loop Lambda.marked Lambda.clear h.allocated_lambdas.length 0
    (h.allocated_lambdas, h.lambdas) <;> rfl

theorem sweep_environments_eq (h : Heap) :
    sweep_environments h
      = (sweep_registry Environment.marked Environment.clear
          (h.allocated_environments, h.environments)).map
          (fun s => { h with allocated_environments := s.1, environments := s.2 }) := by
  simp only [sweep_environments, sweep_environments_loop_eq, sweep_registry]
  cases sweep_loop Environment.marked Environment.clear h.allocated_environments.length 0
    (h.allocated_environments, h.environments) <;> rfl

theorem sweep_loop_error {α : Type} (marked : α → Bool) (clear : α → α) :
    ∀ (k i : Nat) (s : List (Option Nat) × List (Option α)) (e : Fail),
    sweep_loop marked clear k i s = .error e → e = .abort := by
  intro k
  induction k with
  | zero => intro i s e he; simp [sweep_loop] at he
  | succ k ih =>
    intro i s e he
    obtain ⟨reg, mem⟩ := s
    simp only [sweep_loop] at he
    cases hp : pv_get_elem reg i with
    | none => rw [hp] at he; simp at he; exact he.symm
    | some a =>
      rw [hp] at he
      simp only at he
      cases hx : rd mem a with
      | none => rw [hx] at he; simp at he; exact he.symm
      | some x =>
        rw [hx] at he
        simp only at he
        split at he
        · exact ih _ _ _ he
        · exact ih _ _ _ he

theorem sweep_registry_error {α : Type} (marked : α → Bool) (clear : α → α)
    (s : List (Option Nat) × List (Option α)) (e : Fail)
    (he : sweep_registry marked clear s = .error e) : e = .abort := by
  unfold sweep_registry at he
  cases hl : sweep_loop marked clear s.1.length 0 s with
  | error e' =>
    rw [hl] at he
    simp only [Except.map] at he
    cases he
    exact sweep_loop_error marked clear _ _ _ _ hl
  | ok r => rw [hl] at he; simp [Except.map] at he

theorem sweep_comm_vl (h : Heap) :
    (sweep_values h >>= sweep_lambdas) = (sweep_lambdas h >>= sweep_values) := by
  cases hv : sweep_registry Value.marked Value.clear (h.allocated_values, h.values) with
  | error e1 =>
    have h1 := sweep_registry_error _ _ _ _ hv
    subst h1
    cases hl : sweep_registry Lambda.marked Lambda.clear (h.allocated_lambdas, h.lambdas) with
    | error e2 =>
      have h2 := sweep_registry_error _ _ _ _ hl
      subst h2
      simp [sweep_values_eq, sweep_lambdas_eq, hv, hl, Except.map, bind, Except.bind]
    | ok l => simp [sweep_values_eq, sweep_lambdas_eq, hv, hl, Except.map, bind, Except.bind]
  | ok v =>
    cases hl : sweep_registry Lambda.marked Lambda.clear (h.allocated_lambdas, h.lambdas) with
    | error e2 => simp [sweep_values_eq, sweep_lambdas_eq, hv, hl, Except.map, bind, Except.bind]
    | ok l => simp [sweep_values_eq, sweep_lambdas_eq, hv, hl, Except.map, bind, Except.bind]

theorem sweep_comm_ve (h : Heap) :
    (sweep_values h >>= sweep_environments) = (sweep_environments h >>= sweep_values) := by
  cases hv : sweep_registry Value.marked Value.clear (h.allocated_values, h.values) with
  | error e1 =>
    have h1 := sweep_registry_error _ _ _ _ hv
    subst h1
    cases hl : sweep_registry Environment.marked Environment.clear
        (h.allocated_environments, h.environments) with
    | error e2 =>
      have h2 := sweep_registry_error _ _ _ _ hl
      subst h2
      simp [sweep_values_eq, sweep_environments_eq, hv, hl, Except.map, bind, Except.bind]
    | ok l => simp [sweep_values_eq, sweep_environments_eq, hv, hl, Except.map, bind, Except.bind]
  | ok v =>
    cases hl : sweep_registry Environment.marked Environment.clear
        (h.allocated_environments, h.environments) with
    | error e2 =>
      simp [sweep_values_eq, sweep_environments_eq, hv, hl, Except.map, bind, Except.bind]
    | ok l => simp [sweep_values_eq, sweep_environments_eq, hv, hl, Except.map, bind, Except.bind]

theorem sweep_comm_le (h : Heap) :
    (sweep_lambdas h >>= sweep_environments) = (sweep_environments h >>= sweep_lambdas) := by
  cases hv : sweep_registry Lambda.marked Lambda.clear (h.allocated_lambdas, h.lambdas) with
  | error e1 =>
    have h1 := sweep_registry_error _ _ _ _ hv
    subst h1
    cases hl : sweep_registry Environment.marked Environment.clear
        (h.allocated_environments, h.environments) with
    | error e2 =>
      have h2 := sweep_registry_error _ _ _ _ hl
      subst h2
      simp [sweep_lambdas_eq, sweep_environments_eq, hv, hl, Except.map, bind, Except.bind]
    | ok l => simp [sweep_lambdas_eq, sweep_environments_eq, hv, hl, Except.map, bind, Except.bind]
  | ok v =>
    cases hl : sweep_registry Environment.marked Environment.clear
        (h.allocated_environments, h.environments) with
    | error e2 =>
      simp [sweep_lambdas_eq, sweep_environments_eq, hv, hl, Except.map, bind, Except.bind]
    | ok l => simp [sweep_lambdas_eq, sweep_environments_eq, hv, hl, Except.map, bind, Except.bind]

theorem sweep_in_order_eq (a b c : Heap → Except Fail Heap) (h : Heap) :
    sweep_in_order a b c h = (a h >>= b >>= c) := by
  simp only [sweep_in_order, bind_assoc]

theorem sweep_in_order_swap12 {a b : Heap → Except Fail Heap}
    (hab : ∀ h, (a h >>= b) = (b h >>= a)) (c : Heap → Except Fail Heap) (h : Heap) :
    sweep_in_order a b c h = sweep_in_order b a c h := by
  rw [sweep_in_order_eq, sweep_in_order_eq, hab]

theorem sweep_in_order_swap23 (a : Heap → Except Fail Heap) {b c : Heap → Except Fail Heap}
    (hbc : ∀ h, (b h >>= c) = (c h >>= b)) (h : Heap) :
    sweep_in_order a b c h = sweep_in_order a c b h := by
  simp only [sweep_in_order]
  congr 1
  funext h1
  exact hbc h1

theorem sweep_values_frame {h h' : Heap} (e : sweep_values h = .ok h') :
    h'.lambdas = h.lambdas ∧ h'.environments = h.environments
      ∧ h'.allocated_lambdas = h.allocated_lambdas
      ∧ h'.allocated_environments = h.allocated_environments := by
  rw [sweep_values_eq] at e
  cases hs : sweep_registry Value.marked Value.clear (h.allocated_values, h.values) with
  | error x => rw [hs] at e; simp [Except.map] at e
  | ok s =>
    rw [hs] at e
    simp only [Except.map, Except.ok.injEq] at e
    subst e
    exact ⟨rfl, rfl, rfl, rfl⟩

theorem sweep_lambdas_frame {h h' : Heap} (e : sweep_lambdas h = .ok h') :
    h'.values = h.values ∧ h'.environments = h.environments
      ∧ h'.allocated_values = h.allocated_values
      ∧ h'.allocated_environments = h.allocated_environments := by
  rw [sweep_lambdas_eq] at e
  cases hs : sweep_registry Lambda.marked Lambda.clear (h.allocated_lambdas, h.lambdas) with
  | error x => rw [hs] at e; simp [Except.map] at e
  | ok s =>
    rw [hs] at e
    simp only [Except.map, Except.ok.injEq] at e
    subst e
    exact ⟨rfl, rfl, rfl, rfl⟩

theorem sweep_environments_frame {h h' : Heap} (e : sweep_environments h = .ok h') :
    h'.values = h.values ∧ h'.lambdas = h.lambdas
      ∧ h'.allocated_values = h.allocated_values
      ∧ h'.allocated_lambdas = h.allocated_lambdas := by
  rw [sweep_environments_eq] at e
  cases hs : sweep_registry Environment.marked Environment.clear
      (h.allocated_environments, h.environments) with
  | error x => rw [hs] at e; simp [Except.map] at e
  | ok s =>
    rw [hs] at e
    simp only [Except.map, Except.ok.injEq] at e
    subst e
    exact ⟨rfl, rfl, rfl, rfl⟩

theorem flagsOnlySet_of_ext {h h' : Heap} (e : Ext h h') : FlagsOnlySet h h' := by
  refine ⟨e.allocated_values, e.allocated_lambdas, e.allocated_environments, ?_, ?_, ?_,
    fun a => e.value_none, fun a => e.lambda_none, fun a => e.environment_none⟩
  · intro a x hx
    obtain ⟨x', hx', h1, h2, h3, h4, h5⟩ := e.value_eq hx
    refine ⟨x', hx', ⟨h1, h2, h3, h4, h5⟩, ?_⟩
    intro hm
    have := e.mono (Obj.value a) (by simp [Heap.marked, hx, hm])
    simpa [Heap.marked, hx'] using this
  · intro a x hx
    obtain ⟨x', hx', h1, h2, h3, h4⟩ := e.lambda_eq hx
    refine ⟨x', hx', ⟨h1, h2, h3, h4⟩, ?_⟩
    intro hm
    have := e.mono (Obj.lambda a) (by simp [Heap.marked, hx, hm])
    simpa [Heap.marked, hx'] using this
  · intro a x hx
    obtain ⟨x', hx', h1, h2⟩ := e.environment_eq hx
    refine ⟨x', hx', ⟨h1, h2⟩, ?_⟩
    intro hm
    have := e.mono (Obj.env a) (by simp [Heap.marked, hx, hm])
    simpa [Heap.marked, hx'] using this

theorem sweep_loop_kept {α : Type} (marked : α → Bool) (clear : α → α)
    (hclear : ∀ x, clear (clear x) = clear x) :
    ∀ (k i : Nat) (reg reg' : List (Option Nat)) (mem mem' : List (Option α)),
    sweep_loop marked clear k i (reg, mem) = .ok (reg', mem') →
    ∀ c, rd mem' c = none ∨ (rd mem' c).map clear = (rd mem c).map clear := by
  intro k
  induction k with
  | zero =>
    intro i reg reg' mem mem' e c
    simp only [sweep_loop, Except.ok.injEq, Prod.mk.injEq] at e
    rw [e.2]
    exact Or.inr rfl
  | succ k ih =>
    intro i reg reg' mem mem' e c
    simp only [sweep_loop] at e
    cases hp : pv_get_elem reg i with
    | none => rw [hp] at e; simp at e
    | some a =>
      rw [hp] at e
      simp only at e
      cases hx : rd mem a with
      | none => rw [hx] at e; simp at e
      | some x =>
        rw [hx] at e
        simp only at e
        split at e
        · rcases ih _ _ _ _ _ e c with h1 | h1
          · exact Or.inl h1
          · rw [rd_wr] at h1
            by_cases hc : a = c ∧ a < mem.length
            · rw [if_pos hc] at h1
              left
              cases hr : rd mem' c with
              | none => rfl
              | some y => rw [hr] at h1; simp at h1
            · rw [if_neg hc] at h1
              exact Or.inr h1
        · rcases ih _ _ _ _ _ e c with h1 | h1
          · exact Or.inl h1
          · rw [rd_wr] at h1
            by_cases hc : a = c ∧ a < mem.length
            · rw [if_pos hc] at h1
              right
              rw [h1, ← hc.1, hx]
              simp [hclear]
            · rw [if_neg hc] at h1
              exact Or.inr h1

theorem sweep_registry_kept {α : Type} (marked : α → Bool) (clear : α → α)
    (hclear : ∀ x, clear (clear x) = clear x)
    {s s' : List (Option Nat) × List (Option α)}
    (e : sweep_registry marked clear s = .ok s') :
    ∀ c, rd s'.2 c = none ∨ (rd s'.2 c).map clear = (rd s.2 c).map clear := by
  unfold sweep_registry at e
  cases hl : sweep_loop marked clear s.1.length 0 s with
  | error x => rw [hl] at e; simp [Except.map] at e
  | ok r =>
    rw [hl] at e
    simp only [Except.map, Except.ok.injEq] at e
    subst e
    obtain ⟨reg, mem⟩ := s
    obtain ⟨reg', mem'⟩ := r
    exact sweep_loop_kept marked clear hclear _ _ _ _ _ _ hl

theorem fieldsKept_refl (h : Heap) : FieldsKept h h :=
  ⟨fun _ x' hx => ⟨x', hx, rfl, rfl, rfl, rfl, rfl⟩,
    fun _ x' hx => ⟨x', hx, rfl, rfl, rfl, rfl⟩,
    fun _ x' hx => ⟨x', hx, rfl, rfl⟩⟩

theorem fieldsKept_trans {h1 h2 h3 : Heap} (k1 : FieldsKept h1 h2) (k2 : FieldsKept h2 h3) :
    FieldsKept h1 h3 := by
  refine ⟨?_, ?_, ?_⟩
  · intro a x3 hx3
    obtain ⟨x2, hx2, s2⟩ := k2.value a x3 hx3
    obtain ⟨x1, hx1, s1⟩ := k1.value a x2 hx2
    obtain ⟨a1, a2, a3, a4, a5⟩ := s1
    obtain ⟨b1, b2, b3, b4, b5⟩ := s2
    exact ⟨x1, hx1, b1.trans a1, b2.trans a2, b3.trans a3, b4.trans a4, b5.trans a5⟩
  · intro a x3 hx3
    obtain ⟨x2, hx2, s2⟩ := k2.lambda a x3 hx3
    obtain ⟨x1, hx1, s1⟩ := k1.lambda a x2 hx2
    obtain ⟨a1, a2, a3, a4⟩ := s1
    obtain ⟨b1, b2, b3, b4⟩ := s2
    exact ⟨x1, hx1, b1.trans a1, b2.trans a2, b3.trans a3, b4.trans a4⟩
  · intro a x3 hx3
    obtain ⟨x2, hx2, s2⟩ := k2.environment a x3 hx3
    obtain ⟨x1, hx1, s1⟩ := k1.environment a x2 hx2
    obtain ⟨a1, a2⟩ := s1
    obtain ⟨b1, b2⟩ := s2
    exact ⟨x1, hx1, b1.trans a1, b2.trans a2⟩

theorem fieldsKept_of_ext {h h' : Heap} (e : Ext h h') : FieldsKept h h' := by
  refine ⟨?_, ?_, ?_⟩
  · intro a x' hx'
    cases hx : h.value a with
    | none => rw [e.value_none hx] at hx'; cases hx'
    | some x =>
      obtain ⟨y, hy, h1, h2, h3, h4, h5⟩ := e.value_eq hx
      rw [hx'] at hy
      cases hy
      exact ⟨x, rfl, h1, h2, h3, h4, h5⟩
  · intro a x' hx'
    cases hx : h.lambda a with
    | none => rw [e.lambda_none hx] at hx'; cases hx'
    | some x =>
      obtain ⟨y, hy, h1, h2, h3, h4⟩ := e.lambda_eq hx
      rw [hx'] at hy
      cases hy
      exact ⟨x, rfl, h1, h2, h3, h4⟩
  · intro a x' hx'
    cases hx : h.environment a with
    | none => rw [e.environment_none hx] at hx'; cases hx'
    | some x =>
      obtain ⟨y, hy, h1, h2⟩ := e.environment_eq hx
      rw [hx'] at hy
      cases hy
      exact ⟨x, rfl, h1, h2⟩

theorem kept_same {α : Type} {clear : α → α} {m m' : Option α} {x' : α}
    (hk : m' = none ∨ m'.map clear = m.map clear) (hx' : m' = some x') :
    ∃ x, m = some x ∧ clear x' = clear x := by
  subst hx'
  rcases hk with hk | hk
  · cases hk
  · cases m with
    | none => simp at hk
    | some x => exact ⟨x, rfl, by simpa using hk⟩

theorem sweep_values_kept {h h' : Heap} (e : sweep_values h = .ok h') : FieldsKept h h' := by
  obtain ⟨f1, f2, _, _⟩ := sweep_values_frame e
  rw [sweep_values_eq] at e
  cases hs : sweep_registry Value.marked Value.clear (h.allocated_values, h.values) with
  | error x => rw [hs] at e; simp [Except.map] at e
  | ok s =>
    rw [hs] at e
    simp only [Except.map, Except.ok.injEq] at e
    have hk := sweep_registry_kept Value.marked Value.clear (fun _ => rfl) hs
    refine ⟨?_, ?_, ?_⟩
    · intro a x' hx'
      subst e
      obtain ⟨x, hx, hc⟩ := kept_same (hk a) hx'
      refine ⟨x, hx, ?_⟩
      simp only [Value.clear, Value.mk.injEq] at hc
      exact ⟨hc.1, hc.2.2.1, hc.2.2.2.1, hc.2.2.2.2.1, hc.2.2.2.2.2⟩
    · intro a x' hx'
      simp only [Heap.lambda, f1] at hx'
      exact ⟨x', hx', rfl, rfl, rfl, rfl⟩
    · intro a x' hx'
      simp only [Heap.environment, f2] at hx'
      exact ⟨x', hx', rfl, rfl⟩

theorem sweep_lambdas_kept {h h' : Heap} (e : sweep_lambdas h = .ok h') : FieldsKept h h' := by
  obtain ⟨f1, f2, _, _⟩ := sweep_lambdas_frame e
  rw [sweep_lambdas_eq] at e
  cases hs : sweep_registry Lambda.marked Lambda.clear (h.allocated_lambdas, h.lambdas) with
  | error x => rw [hs] at e; simp [Except.map] at e
  | ok s =>
    rw [hs] at e
    simp only [Except.map, Except.ok.injEq] at e
    have hk := sweep_registry_kept Lambda.marked Lambda.clear (fun _ => rfl) hs
    refine ⟨?_, ?_, ?_⟩
    · intro a x' hx'
      simp only [Heap.value, f1] at hx'
      exact ⟨x', hx', rfl, rfl, rfl, rfl, rfl⟩
    · intro a x' hx'
      subst e
      obtain ⟨x, hx, hc⟩ := kept_same (hk a) hx'
      refine ⟨x, hx, ?_⟩
      simp only [Lambda.clear, Lambda.mk.injEq] at hc
      exact ⟨hc.2.1, hc.2.2.1, hc.2.2.2.1, hc.2.2.2.2⟩
    · intro a x' hx'
      simp only [Heap.environment, f2] at hx'
      exact ⟨x', hx', rfl, rfl⟩

theorem sweep_environments_kept {h h' : Heap} (e : sweep_environments h = .ok h') :
    FieldsKept h h' := by
  obtain ⟨f1, f2, _, _⟩ := sweep_environments_frame e
  rw [sweep_environments_eq] at e
  cases hs : sweep_registry Environment.marked Environment.clear
      (h.allocated_environments, h.environments) with
  | error x => rw [hs] at e; simp [Except.map] at e
  | ok s =>
    rw [hs] at e
    simp only [Except.map, Except.ok.injEq] at e
    have hk := sweep_registry_kept Environment.marked Environment.clear (fun _ => rfl) hs
    refine ⟨?_, ?_, ?_⟩
    · intro a x' hx'
      simp only [Heap.value, f1] at hx'
      exact ⟨x', hx', rfl, rfl, rfl, rfl, rfl⟩
    · intro a x' hx'
      simp only [Heap.lambda, f2] at hx'
      exact ⟨x', hx', rfl, rfl, rfl, rfl⟩
    · intro a x' hx'
      subst e
      obtain ⟨x, hx, hc⟩ := kept_same (hk a) hx'
      refine ⟨x, hx, ?_⟩
      simp only [Environment.clear, Environment.mk.injEq] at hc
      exact ⟨hc.2.1, hc.2.2⟩

theorem mark_lambda_ext {n : Nat} {h h' : Heap} {f : Option Nat}
    (hr : mark_lambda n h f = .ok h') : Ext h h' :=
  run_ext (t := .lambda f) hr

theorem mark_eval_stack_ext {n : Nat} {h h' : Heap} {s : Option (List EvaluationContext)}
    (hr : mark_eval_stack n h s = .ok h') : Ext h h' := by
  cases s with
  | none => simp [mark_eval_stack] at hr
  | some frames => exact (mark_contexts_spec hr).ext

theorem collect_steps_kept {n : Nat} {h h' : Heap} {g : Option Nat}
    {s : Option (List EvaluationContext)} (e : collect_garbage_steps n h g s = .ok h') :
    FieldsKept h h' := by
  unfold collect_garbage_steps at e
  obtain ⟨h1, e1, e⟩ := bind_eq_ok e
  obtain ⟨h2, e2, e⟩ := bind_eq_ok e
  obtain ⟨h3, e3, e⟩ := bind_eq_ok e
  obtain ⟨h4, e4, e5⟩ := bind_eq_ok e
  exact fieldsKept_trans (fieldsKept_trans (fieldsKept_trans (fieldsKept_trans
    (fieldsKept_of_ext (mark_environment_ext e1)) (fieldsKept_of_ext (mark_eval_stack_ext e2)))
    (sweep_values_kept e3)) (sweep_lambdas_kept e4)) (sweep_environments_kept e5)

theorem SweptFrom.refs_of_marked {h h' : Heap} (s : SweptFrom h h') {o : Obj}
    (ho : o ∈ h.objects) (hm : h.marked o = true) : h'.refs o = h.refs o := by
  cases o with
  | value a =>
    obtain ⟨x, hx, hx'⟩ := s.value_of_marked ho hm
    simp [Heap.refs, hx, hx', Value.clear]
  | lambda a =>
    obtain ⟨x, hx, hx'⟩ := s.lambda_of_marked ho hm
    simp [Heap.refs, hx, hx', Lambda.clear]
  | env a =>
    obtain ⟨x, hx, hx'⟩ := s.environment_of_marked ho hm
    simp [Heap.refs, hx, hx', Environment.clear]

/-- A collection of a well-formed heap returns a well-formed heap in which
the survivors, which are the registered objects that were reachable, have
the references they had. -/
theorem collect_wf_again {h : Heap} {g : Option Nat} {frames : List EvaluationContext}
    (hwf : WellFormed h g frames) :
    ∃ h', collect_garbage h g (some frames) = .ok h' ∧ WellFormed h' g frames
      ∧ (∀ o, o ∈ h'.objects ↔ o ∈ h.objects ∧ Reach h (roots g frames) o)
      ∧ (∀ o ∈ h'.objects, h'.refs o = h.refs o) := by
  obtain ⟨h2, h', m, s, e⟩ := collect_wf hwf
  have hsurv := survivors_iff hwf m s
  have hrefs : ∀ o ∈ h'.objects, h'.refs o = h.refs o := by
    intro o ho
    obtain ⟨ho2, hm2⟩ := (s.mem_objects o).1 ho
    rw [s.refs_of_marked ho2 hm2, m.ext.refs]
  refine ⟨h', e, ⟨s.registryOK (RegistryOK.ext m.ext hwf.1), s.unmarked, ?_, hwf.2.2.2.1, ?_⟩,
    hsurv, hrefs⟩
  · intro o ho r hr
    rw [hrefs o ho] at hr
    obtain ⟨ho1, hreach⟩ := (hsurv o).1 ho
    obtain ⟨o', ho', e'⟩ := hwf.2.2.1 o ho1 r hr
    subst e'
    exact ⟨o', (hsurv o').2 ⟨ho', Reach.step hreach hr⟩, rfl⟩
  · intro o ho
    exact (hsurv o).2 ⟨hwf.2.2.2.2 o ho, Reach.root ho⟩

theorem reach_survives {h h' : Heap} {R : List Obj}
    (hsurv : ∀ o, o ∈ h'.objects ↔ o ∈ h.objects ∧ Reach h R o)
    (hrefs : ∀ o ∈ h'.objects, h'.refs o = h.refs o)
    (hrefsOK : RefsOK h) (hroots : ∀ o ∈ R, o ∈ h.objects) {o : Obj} (hr : Reach h R o) :
    Reach h' R o := by
  induction hr with
  | root hmem => exact Reach.root hmem
  | @step o o' hro hmem ih =>
    have ho : o ∈ h'.objects := (hsurv o).2 ⟨reach_registered hrefsOK hroots hro, hro⟩
    exact Reach.step ih (by rw [hrefs o ho]; exact hmem)

theorem Ext.value_same {h h' : Heap} (e : Ext h h') {a : Nat}
    (hm : h'.marked (Obj.value a) = h.marked (Obj.value a)) : h'.value a = h.value a := by
  cases hx : h.value a with
  | none => exact e.value_none hx
  | some x =>
    obtain ⟨x', hx', h1, h2, h3, h4, h5⟩ := e.value_eq hx
    simp only [Heap.marked, hx, hx'] at hm
    rw [hx']
    cases x; cases x'
    simp_all

theorem Ext.lambda_same {h h' : Heap} (e : Ext h h') {a : Nat}
    (hm : h'.marked (Obj.lambda a) = h.marked (Obj.lambda a)) : h'.lambda a = h.lambda a := by
  cases hx : h.lambda a with
  | none => exact e.lambda_none hx
  | some x =>
    obtain ⟨x', hx', h1, h2, h3, h4⟩ := e.lambda_eq hx
    simp only [Heap.marked, hx, hx'] at hm
    rw [hx']
    cases x; cases x'
    simp_all

theorem Ext.environment_same {h h' : Heap} (e : Ext h h') {a : Nat}
    (hm : h'.marked (Obj.env a) = h.marked (Obj.env a)) :
    h'.environment a = h.environment a := by
  cases hx : h.environment a with
  | none => exact e.environment_none hx
  | some x =>
    obtain ⟨x', hx', h1, h2⟩ := e.environment_eq hx
    simp only [Heap.marked, hx, hx'] at hm
    rw [hx']
    cases x; cases x'
    simp_all

theorem MarkedBy.marked_same {R : List Obj} {h h' : Heap} (m : MarkedBy R h h')
    (hrefs : RefsOK h) (hroots : ∀ o ∈ R, o ∈ h.objects) {o : Obj} (ho : o ∉ h.objects) :
    h'.marked o = h.marked o := by
  rcases marked_bool_cases h o with h1 | h1
  · rw [h1, m.ext.mono o h1]
  · rcases marked_bool_cases h' o with h2 | h2
    · exact absurd (reach_registered hrefs hroots (m.reach o h2 h1)) ho
    · rw [h1, h2]

theorem filter_slot_marked_self {α : Type} (marked : α → Bool) (mem : List (Option α))
    (reg : List (Option Nat)) (hall : ∀ p ∈ reg, slot_marked marked mem p = true) :
    reg.filter (slot_marked marked mem) = reg :=
  List.filter_eq_self.2 hall

/-- On a heap in which every registered object is reachable from the roots,
a collection returns and changes nothing. -/
theorem collect_all_reachable {h : Heap} {g : Option Nat} {frames : List EvaluationContext}
    (hwf : WellFormed h g frames) (hall : ∀ o ∈ h.objects, Reach h (roots g frames) o) :
    ∃ h', collect_garbage h g (some frames) = .ok h'
      ∧ h'.allocated_values = h.allocated_values
      ∧ h'.allocated_lambdas = h.allocated_lambdas
      ∧ h'.allocated_environments = h.allocated_environments
      ∧ (∀ a, h'.value a = h.value a) ∧ (∀ a, h'.lambda a = h.lambda a)
      ∧ (∀ a, h'.environment a = h.environment a) := by
  obtain ⟨h2, h', m, s, e⟩ := collect_wf hwf
  obtain ⟨hreg, hun, hrefs, _, hroots⟩ := hwf
  have hmk : ∀ o ∈ h.objects, h2.marked o = true := by
    intro o ho
    refine (reach_marked m ?_ (hall o ho)).1
    intro o' hr'
    exact hun o' (reach_registered hrefs hroots hr')
  have hobj2 : h2.objects = h.objects := m.ext.objects
  refine ⟨h', e, ?_, ?_, ?_, ?_, ?_, ?_⟩
  · rw [s.allocated_values, m.ext.allocated_values]
    apply filter_slot_marked_self
    intro p hp
    obtain ⟨a, ha, _⟩ := hreg.values.1 p hp
    subst ha
    rw [← m.ext.allocated_values] at hp
    rw [slot_marked_value]
    exact hmk _ ((mem_objects_value h a).2 (by rw [← m.ext.allocated_values]; exact hp))
  · rw [s.allocated_lambdas, m.ext.allocated_lambdas]
    apply filter_slot_marked_self
    intro p hp
    obtain ⟨a, ha, _⟩ := hreg.lambdas.1 p hp
    subst ha
    rw [slot_marked_lambda]
    exact hmk _ ((mem_objects_lambda h a).2 hp)
  · rw [s.allocated_environments, m.ext.allocated_environments]
    apply filter_slot_marked_self
    intro p hp
    obtain ⟨a, ha, _⟩ := hreg.environments.1 p hp
    subst ha
    rw [slot_marked_env]
    exact hmk _ ((mem_objects_env h a).2 hp)
  · intro a
    by_cases ha : Obj.value a ∈ h.objects
    · obtain ⟨x2, hx2, hx'⟩ := s.value_of_marked (by rw [hobj2]; exact ha) (hmk _ ha)
      rw [hx']
      have hc := m.ext.value a
      rw [hx2] at hc
      cases hx : h.value a with
      | none => rw [hx] at hc; simp at hc
      | some x =>
        rw [hx] at hc
        have hmx : x.marked = false := by
          have := hun _ ha
          simpa [Heap.marked, hx] using this
        simp only [Option.map_some', Option.some.injEq] at hc
        rw [hc]
        cases x
        simp_all [Value.clear]
    · have hn : some a ∉ h2.allocated_values := by
        rw [m.ext.allocated_values]
        exact fun hc => ha ((mem_objects_value h a).2 hc)
      rw [s.value a, if_neg hn]
      exact m.ext.value_same (m.marked_same hrefs hroots ha)
  · intro a
    by_cases ha : Obj.lambda a ∈ h.objects
    · obtain ⟨x2, hx2, hx'⟩ := s.lambda_of_marked (by rw [hobj2]; exact ha) (hmk _ ha)
      rw [hx']
      have hc := m.ext.lambda a
      rw [hx2] at hc
      cases hx : h.lambda a with
      | none => rw [hx] at hc; simp at hc
      | some x =>
        rw [hx] at hc
        have hmx : x.marked = false := by
          have := hun _ ha
          simpa [Heap.marked, hx] using this
        simp only [Option.map_some', Option.some.injEq] at hc
        rw [hc]
        cases x
        simp_all [Lambda.clear]
    · have hn : some a ∉ h2.allocated_lambdas := by
        rw [m.ext.allocated_lambdas]
        exact fun hc => ha ((mem_objects_lambda h a).2 hc)
      rw [s.lambda a, if_neg hn]
      exact m.ext.lambda_same (m.marked_same hrefs hroots ha)
  · intro a
    by_cases ha : Obj.env a ∈ h.objects
    · obtain ⟨x2, hx2, hx'⟩ := s.environment_of_marked (by rw [hobj2]; exact ha) (hmk _ ha)
      rw [hx']
      have hc := m.ext.environment a
      rw [hx2] at hc
      cases hx : h.environment a with
      | none => rw [hx] at hc; simp at hc
      | some x =>
        rw [hx] at hc
        have hmx : x.marked = false := by
          have := hun _ ha
          simpa [Heap.marked, hx] using this
        simp only [Option.map_some', Option.some.injEq] at hc
        rw [hc]
        cases x
        simp_all [Environment.clear]
    · have hn : some a ∉ h2.allocated_environments := by
        rw [m.ext.allocated_environments]
        exact fun hc => ha ((mem_objects_env h a).2 hc)
      rw [s.environment a, if_neg hn]
      exact m.ext.environment_same (m.marked_same hrefs hroots ha)

theorem within_ext {W : Obj → Prop} {h h2 : Heap} (e : Ext h h2)
    (hW1 : ∀ o o', W o → h.marked o = false → some o' ∈ h.refs o → W o') :
    ∀ o o', W o → h2.marked o = false → some o' ∈ h2.refs o → W o' := by
  intro o o' hw hm hr
  rw [e.refs] at hr
  refine hW1 o o' hw ?_ hr
  rcases marked_bool_cases h o with h1 | h1
  · rw [e.mono o h1] at hm; cases hm
  · exact h1

theorem marks_ext {t : Task} {h h' : Heap} (m : Marks t h h') : Ext h h' := by
  obtain ⟨R, _, mb⟩ := marks_spec m
  exact mb.ext

/-- Every object a mark run marks lies in any set that holds the marked
objects and the targets of the run and is closed under the references of
its unmarked members. -/
theorem marks_within {t : Task} {h h' : Heap} (m : Marks t h h') :
    ∀ (W : Obj → Prop), (∀ o, h.marked o = true → W o) →
      (∀ o o', W o → h.marked o = false → some o' ∈ h.refs o → W o') →
      (∀ o, some o ∈ t.targets h → W o) → ∀ o, h'.marked o = true → W o := by
  induction m with
  | @value_marked h a x hx hm => intro W h0 _ _; exact h0
  | @value_enter h h' a x hx hm _ ih => intro W h0 h1 ht; exact ih W h0 h1 ht
  | @loop_marked h a x hx hm => intro W h0 _ _; exact h0
  | @loop_lambda h h2 h' a x hx hm ht m1 _ ih1 ih2 =>
    intro W h0 h1 htg
    have hma : h.marked (Obj.value a) = false := by simp [Heap.marked, hx, hm]
    have hWa : W (Obj.value a) := htg _ (by simp [Task.targets])
    have e1 := ext_setValueMark hx hm
    have c1 := ih1 W
      (by
        intro o ho
        rw [marked_setValueMark hx] at ho
        simp only [Bool.or_eq_true, decide_eq_true_eq] at ho
        rcases ho with ho | ho
        · rw [ho]; exact hWa
        · exact h0 o ho)
      (within_ext e1 h1)
      (by
        intro o ho
        refine h1 _ o hWa hma ?_
        simp only [Task.targets] at ho
        simpa [Heap.refs, hx, ht] using ho)
    exact ih2 W c1 (within_ext (e1.trans (marks_ext m1)) h1)
      (by intro o ho; simp only [Task.targets, List.mem_singleton, Option.map_some',
            Option.some.injEq] at ho; rw [ho]; exact hWa)
  | @loop_cons h h2 h' a x x2 hx hm ht hc m1 hx2 _ ih1 ih2 =>
    intro W h0 h1 htg
    have hma : h.marked (Obj.value a) = false := by simp [Heap.marked, hx, hm]
    have hWa : W (Obj.value a) := htg _ (by simp [Task.targets])
    have e1 := ext_setValueMark hx hm
    have hr : h.refs (Obj.value a)
        = [Option.map Obj.value x.p_car, Option.map Obj.value x.p_cdr] := by
      simp only [Heap.refs, hx, if_neg ht, if_pos hc]
    obtain ⟨x', hx', _, _, _, _, hcdr⟩ := (e1.trans (marks_ext m1)).value_eq hx
    rw [hx2] at hx'
    cases hx'
    have c1 := ih1 W
      (by
        intro o ho
        rw [marked_setValueMark hx] at ho
        simp only [Bool.or_eq_true, decide_eq_true_eq] at ho
        rcases ho with ho | ho
        · rw [ho]; exact hWa
        · exact h0 o ho)
      (within_ext e1 h1)
      (by
        intro o ho
        refine h1 _ o hWa hma ?_
        simp only [Task.targets, List.mem_singleton] at ho
        rw [hr, ← ho]
        simp)
    exact ih2 W c1 (within_ext (e1.trans (marks_ext m1)) h1)
      (by
        intro o ho
        refine h1 _ o hWa hma ?_
        simp only [Task.targets, List.mem_singleton] at ho
        rw [hr, ho, hcdr]
        simp)
  | @loop_other h h' a x hx hm ht hc _ ih =>
    intro W h0 h1 htg
    have hWa : W (Obj.value a) := htg _ (by simp [Task.targets])
    have e1 := ext_setValueMark hx hm
    exact ih W
      (by
        intro o ho
        rw [marked_setValueMark hx] at ho
        simp only [Bool.or_eq_true, decide_eq_true_eq] at ho
        rcases ho with ho | ho
        · rw [ho]; exact hWa
        · exact h0 o ho)
      (within_ext e1 h1)
      (by intro o ho; simp only [Task.targets, List.mem_singleton, Option.map_some',
            Option.some.injEq] at ho; rw [ho]; exact hWa)
  | @lambda_marked h a x hx hm => intro W h0 _ _; exact h0
  | @lambda_interp h h2 h3 h' a x x2 x3 hx hm hn m1 hx2 m2 hx3 _ ih1 ih2 ih3 =>
    intro W h0 h1 htg
    have hma : h.marked (Obj.lambda a) = false := by simp [Heap.marked, hx, hm]
    have hWa : W (Obj.lambda a) := htg _ (by simp [Task.targets])
    have e1 := ext_setLambdaMark hx hm
    have e2 := e1.trans (marks_ext m1)
    have e3 := e2.trans (marks_ext m2)
    have hr : h.refs (Obj.lambda a) = [Option.map Obj.value x.arg_spec,
        Option.map Obj.value x.body, Option.map Obj.env x.parent_env] := by
      simp [Heap.refs, hx, hn]
    obtain ⟨x', hx', _, _, hb, _⟩ := e2.lambda_eq hx
    rw [hx2] at hx'
    cases hx'
    obtain ⟨x', hx', _, _, _, hp⟩ := e3.lambda_eq hx
    rw [hx3] at hx'
    cases hx'
    have c1 := ih1 W
      (by
        intro o ho
        rw [marked_setLambdaMark hx] at ho
        simp only [Bool.or_eq_true, decide_eq_true_eq] at ho
        rcases ho with ho | ho
        · rw [ho]; exact hWa
        · exact h0 o ho)
      (within_ext e1 h1)
      (by
        intro o ho
        refine h1 _ o hWa hma ?_
        simp only [Task.targets, List.mem_singleton] at ho
        rw [hr, ← ho]
        simp)
    have c2 := ih2 W c1 (within_ext e2 h1)
      (by
        intro o ho
        refine h1 _ o hWa hma ?_
        simp only [Task.targets, List.mem_singleton] at ho
        rw [hr, ho, hb]
        simp)
    exact ih3 W c2 (within_ext e3 h1)
      (by
        intro o ho
        refine h1 _ o hWa hma ?_
        simp only [Task.targets, List.mem_singleton] at ho
        rw [hr, ho, hp]
        simp)
  | @lambda_native h h' a x hx hm hn _ ih =>
    intro W h0 h1 htg
    have hma : h.marked (Obj.lambda a) = false := by simp [Heap.marked, hx, hm]
    have hWa : W (Obj.lambda a) := htg _ (by simp [Task.targets])
    have e1 := ext_setLambdaMark hx hm
    exact ih W
      (by
        intro o ho
        rw [marked_setLambdaMark hx] at ho
        simp only [Bool.or_eq_true, decide_eq_true_eq] at ho
        rcases ho with ho | ho
        · rw [ho]; exact hWa
        · exact h0 o ho)
      (within_ext e1 h1)
      (by
        intro o ho
        refine h1 _ o hWa hma ?_
        simp only [Task.targets, List.mem_singleton] at ho
        simp [Heap.refs, hx, hn, ho])
  | env_enter _ ih =>
    intro W h0 h1 htg
    exact ih W h0 h1 (by intro o ho; exact htg o (by simpa [Task.targets] using ho))
  | envLoop_null => intro W h0 _ _; exact h0
  | @envLoop_marked h a x hx hm => intro W h0 _ _; exact h0
  | @envLoop_step h h2 h' a x x2 hx hm m1 hx2 _ ih1 ih2 =>
    intro W h0 h1 htg
    have hma : h.marked (Obj.env a) = false := by simp [Heap.marked, hx, hm]
    have hWa : W (Obj.env a) := htg _ (by simp [Task.targets])
    have e1 := ext_setEnvMark hx hm
    have e2 := e1.trans (marks_ext m1)
    obtain ⟨x', hx', hp, _⟩ := e2.environment_eq hx
    rw [hx2] at hx'
    cases hx'
    have c1 := ih1 W
      (by
        intro o ho
        rw [marked_setEnvMark hx] at ho
        simp only [Bool.or_eq_true, decide_eq_true_eq] at ho
        rcases ho with ho | ho
        · rw [ho]; exact hWa
        · exact h0 o ho)
      (within_ext e1 h1)
      (by
        intro o ho
        refine h1 _ o hWa hma ?_
        simp only [Task.targets, environment_setEnvMark hx, if_true, List.drop_zero] at ho
        simp only [Heap.refs, hx, List.mem_append]
        exact Or.inl ho)
    exact ih2 W c1 (within_ext e2 h1)
      (by
        intro o ho
        refine h1 _ o hWa hma ?_
        simp only [Task.targets] at ho
        rw [hp] at ho
        simp only [Heap.refs, hx, List.mem_append]
        exact Or.inr ho)
  | @bindings_done h a i x hx hi => intro W h0 _ _; exact h0
  | @bindings_step h h2 h' a i x b hx hi hb m1 _ ih1 ih2 =>
    intro W h0 h1 htg
    obtain ⟨x', hx', _, hbs⟩ := (marks_ext m1).environment_eq hx
    have hd := drop_of_getElem? hb
    have c1 := ih1 W h0 h1
      (by
        intro o ho
        refine htg o ?_
        simp only [Task.targets, List.mem_singleton] at ho
        simp only [Task.targets, hx, hd, List.map_cons, List.mem_cons]
        exact Or.inl ho)
    exact ih2 W c1 (within_ext (marks_ext m1) h1)
      (by
        intro o ho
        refine htg o ?_
        simp only [Task.targets, hx', hbs] at ho
        simp only [Task.targets, hx, hd, List.map_cons, List.mem_cons]
        exact Or.inr ho)

theorem mark_roots_append (n : Nat) : ∀ (A B : List Obj) (h : Heap),
    mark_roots n h (A ++ B) = (mark_roots n h A >>= fun h1 => mark_roots n h1 B) := by
  intro A
  induction A with
  | nil => intro B h; rfl
  | cons r A ih =>
    intro B h
    simp only [List.cons_append, mark_roots, bind_assoc]
    congr 1
    funext h1
    exact ih B h1

theorem mark_local_vals_eq (n : Nat) : ∀ (ps : List (Option Nat)) (h : Heap),
    mark_local_vals n h ps = mark_roots n h (ps.reduceOption.map Obj.value) := by
  intro ps
  induction ps with
  | nil => intro h; rfl
  | cons p ps ih =>
    intro h
    cases p with
    | none =>
      simp only [mark_local_vals, Option.isSome_none, Bool.false_eq_true, if_false,
        List.reduceOption_cons_of_none]
      exact ih h
    | some a =>
      simp only [mark_local_vals, Option.isSome_some, if_true,
        List.reduceOption_cons_of_some, List.map_cons, mark_roots, mark_root]
      congr 1
      funext h1
      exact ih h1

theorem mark_env_field_eq (n : Nat) (h : Heap) (p : Option Nat) :
    (if p.isSome then mark_environment n h p else .ok h)
      = mark_roots n h (p.toList.map Obj.env) := by
  cases p with
  | none => rfl
  | some a =>
    simp only [Option.isSome_some, if_true, Option.toList, List.map_cons, List.map_nil,
      mark_roots, mark_root]
    cases mark_environment n h (some a) <;> rfl

theorem mark_value_field_eq (n : Nat) (h : Heap) (p : Option Nat) :
    (if p.isSome then mark_value n h p else .ok h)
      = mark_roots n h (p.toList.map Obj.value) := by
  cases p with
  | none => rfl
  | some a =>
    simp only [Option.isSome_some, if_true, Option.toList, List.map_cons, List.map_nil,
      mark_roots, mark_root]
    cases mark_value n h (some a) <;> rfl

theorem mark_context_eq (n : Nat) (h : Heap) (ctx : EvaluationContext) :
    mark_context n h ctx = mark_roots n h ctx.roots := by
  unfold mark_context EvaluationContext.roots
  simp only [mark_roots_append, mark_env_field_eq, mark_value_field_eq, mark_local_vals_eq,
    bind_assoc]

theorem mark_contexts_eq (n : Nat) : ∀ (frames : List EvaluationContext) (h : Heap),
    mark_contexts n h frames = mark_roots n h (frames.flatMap EvaluationContext.roots) := by
  intro frames
  induction frames with
  | nil => intro h; rfl
  | cons ctx rest ih =>
    intro h
    simp only [mark_contexts, List.flatMap_cons, mark_roots_append, mark_context_eq]
    congr 1
    funext h1
    exact ih h1

theorem mark_root_spec {n : Nat} {h h' : Heap} {r : Obj} (e : mark_root n h r = .ok h') :
    MarkedBy [r] h h'
      ∧ ∀ (W : Obj → Prop), (∀ o, h.marked o = true → W o) →
          (∀ o o', W o → h.marked o = false → some o' ∈ h.refs o → W o') →
          W r → ∀ o, h'.marked o = true → W o := by
  cases r with
  | value a =>
    simp only [mark_root] at e
    obtain ⟨a', ha', m⟩ := mark_value_spec e
    cases ha'
    refine ⟨m, fun W h0 h1 hr => ?_⟩
    exact marks_within (marks_of_run n (.value (some a)) h h' e) W h0 h1
      (by intro o ho; simp only [Task.targets, List.mem_singleton, Option.map_some',
            Option.some.injEq] at ho; rw [ho]; exact hr)
  | lambda a =>
    simp only [mark_root] at e
    obtain ⟨a', ha', m⟩ := mark_lambda_spec e
    cases ha'
    refine ⟨m, fun W h0 h1 hr => ?_⟩
    exact marks_within (marks_of_run n (.lambda (some a)) h h' e) W h0 h1
      (by intro o ho; simp only [Task.targets, List.mem_singleton, Option.map_some',
            Option.some.injEq] at ho; rw [ho]; exact hr)
  | env a =>
    simp only [mark_root] at e
    obtain ⟨a', ha', m⟩ := mark_environment_spec e
    cases ha'
    refine ⟨m, fun W h0 h1 hr => ?_⟩
    exact marks_within (marks_of_run n (.env (some a)) h h' e) W h0 h1
      (by intro o ho; simp only [Task.targets, List.mem_singleton, Option.map_some',
            Option.some.injEq] at ho; rw [ho]; exact hr)

theorem mark_roots_spec {n : Nat} : ∀ {R : List Obj} {h h' : Heap},
    mark_roots n h R = .ok h' →
    MarkedBy R h h'
      ∧ ∀ (W : Obj → Prop), (∀ o, h.marked o = true → W o) →
          (∀ o o', W o → h.marked o = false → some o' ∈ h.refs o → W o') →
          (∀ r ∈ R, W r) → ∀ o, h'.marked o = true → W o := by
  intro R
  induction R with
  | nil =>
    intro h h' e
    simp only [mark_roots, Except.ok.injEq] at e
    subst e
    exact ⟨MarkedBy.of_marked (by simp), fun W h0 _ _ => h0⟩
  | cons r R ih =>
    intro h h' e
    simp only [mark_roots] at e
    obtain ⟨h1, e1, e2⟩ := bind_eq_ok e
    obtain ⟨m1, w1⟩ := mark_root_spec e1
    obtain ⟨m2, w2⟩ := ih e2
    refine ⟨m1.seq m2, fun W h0 hc hr => ?_⟩
    exact w2 W (w1 W h0 hc (hr r (List.mem_cons_self _ _))) (within_ext m1.ext hc)
      (fun r' hr' => hr r' (List.mem_cons_of_mem _ hr'))

theorem ReachUnmarked.flag_clear {h : Heap} {R : List Obj} {o : Obj}
    (hr : ReachUnmarked h R o) : h.marked o = false := by
  cases hr with
  | root _ hm => exact hm
  | step _ _ hm => exact hm

theorem ReachUnmarked.of_subset {h : Heap} {R R' : List Obj} (hsub : ∀ r ∈ R, r ∈ R')
    {o : Obj} (hr : ReachUnmarked h R o) : ReachUnmarked h R' o := by
  induction hr with
  | root hmem hm => exact ReachUnmarked.root (hsub _ hmem) hm
  | step _ hmem hm ih => exact ReachUnmarked.step ih hmem hm

/-- What a run of the mark functions from the roots `R` marks: the objects
that were marked before, and the objects that can be reached from `R`
through objects that were not. -/
theorem mark_roots_marked_iff {n : Nat} {R : List Obj} {h h' : Heap}
    (e : mark_roots n h R = .ok h') (o : Obj) :
    h'.marked o = true ↔ h.marked o = true ∨ ReachUnmarked h R o := by
  obtain ⟨m, w⟩ := mark_roots_spec e
  constructor
  · refine w (fun o => h.marked o = true ∨ ReachUnmarked h R o) (fun o ho => Or.inl ho) ?_ ?_ o
    · intro o o' hw hm href
      rcases hw with hw | hw
      · rw [hw] at hm; cases hm
      · rcases marked_bool_cases h o' with h1 | h1
        · exact Or.inl h1
        · exact Or.inr (ReachUnmarked.step hw href h1)
    · intro r hr
      rcases marked_bool_cases h r with h1 | h1
      · exact Or.inl h1
      · exact Or.inr (ReachUnmarked.root hr h1)
  · rintro (hm | hr)
    · exact m.ext.mono o hm
    · induction hr with
      | root hmem _ => exact m.roots _ hmem
      | @step o o' hro hmem hm ih =>
        obtain ⟨o'', e'', hm''⟩ := m.closed o ih hro.flag_clear _ hmem
        cases e''
        exact hm''

theorem mark_roots_same_marks {n m : Nat} {R R' : List Obj} {h h1 h2 : Heap}
    (hR : ∀ r, r ∈ R ↔ r ∈ R') (e1 : mark_roots n h R = .ok h1)
    (e2 : mark_roots m h R' = .ok h2) (o : Obj) : h1.marked o = h2.marked o := by
  rw [Bool.eq_iff_iff, mark_roots_marked_iff e1, mark_roots_marked_iff e2]
  constructor
  · rintro (h0 | hr)
    · exact Or.inl h0
    · exact Or.inr (hr.of_subset (fun r hr => (hR r).1 hr))
  · rintro (h0 | hr)
    · exact Or.inl h0
    · exact Or.inr (hr.of_subset (fun r hr => (hR r).2 hr))

theorem erase_bind {x' : Except Fail (Heap × Nat)} {x : Except Fail Heap}
    {f' : Heap × Nat → Except Fail (Heap × Nat)} {f : Heap → Except Fail Heap}
    (hx : x'.map Prod.fst = x) (hf : ∀ r, (f' r).map Prod.fst = f r.1) :
    (x' >>= f').map Prod.fst = (x >>= f) := by
  subst hx
  cases x' with
  | error e => rfl
  | ok r => exact hf r

theorem erase_ret {x' : Except Fail (Heap × Nat)} {x : Except Fail Heap}
    (g : Heap × Nat → Nat) (hx : x'.map Prod.fst = x) :
    (x' >>= fun r => .ok (r.1, g r)).map Prod.fst = x := by
  subst hx
  cases x' with
  | error e => rfl
  | ok r => rfl

/-- Dropping the depth from a run with depth gives the run. -/
theorem runDepth_erase : ∀ (n : Nat) (t : Task) (h : Heap),
    (t.runDepth n h).map Prod.fst = t.run n h := by
  intro n
  induction n with
  | zero => intro t h; cases t <;> rfl
  | succ n ih =>
    intro t h
    cases t with
    | value v =>
      simp only [Task.runDepth, Task.run, mark_value_depth, mark_value]
      cases v with
      | none => rfl
      | some a =>
        simp only
        cases hx : h.value a with
        | none => rfl
        | some x =>
          simp only
          by_cases hm : x.marked = true
          · simp only [hm, if_true]; rfl
          · simp only [hm, if_false]
            exact erase_ret _ (ih (.valueLoop (some a)) h)
    | valueLoop v =>
      simp only [Task.runDepth, Task.run, mark_value_loop_depth, mark_value_loop]
      cases v with
      | none => rfl
      | some a =>
        simp only
        cases hx : h.value a with
        | none => rfl
        | some x =>
          simp only
          by_cases hm : x.marked = true
          · simp only [hm, if_true]; rfl
          · simp only [hm, if_false]
            by_cases ht : x.type = T_Lambda
            · simp only [ht, if_true]
              refine erase_bind (ih (.lambda _) _) ?_
              intro r1
              exact erase_ret _ (ih (.valueLoop _) _)
            · simp only [ht, if_false]
              by_cases hc : x.type = T_ConsPair
              · simp only [hc, if_true]
                refine erase_bind (ih (.value _) _) ?_
                intro r1
                cases hx2 : r1.1.value a with
                | none => rfl
                | some x2 =>
                  simp only
                  exact erase_ret _ (ih (.valueLoop _) _)
              · simp only [hc, if_false]
                exact ih (.valueLoop _) _
    | lambda f =>
      simp only [Task.runDepth, Task.run, mark_lambda_depth, mark_lambda]
      cases f with
      | none => rfl
      | some a =>
        simp only
        cases hx : h.lambda a with
        | none => rfl
        | some x =>
          simp only
          by_cases hm : x.marked = true
          · simp only [hm, if_true]; rfl
          · simp only [hm, if_false]
            by_cases hn : x.native_impl = true
            · simp only [hn, Bool.not_true, Bool.false_eq_true, if_false]
              exact erase_ret _ (ih (.env _) _)
            · have hn' : x.native_impl = false := by simpa using hn
              simp only [hn', Bool.not_false, if_true]
              refine erase_bind (ih (.value _) _) ?_
              intro r1
              cases hx2 : r1.1.lambda a with
              | none => rfl
              | some x2 =>
                simp only
                refine erase_bind (ih (.value _) _) ?_
                intro r2
                cases hx3 : r2.1.lambda a with
                | none => rfl
                | some x3 =>
                  simp only
                  exact erase_ret _ (ih (.env _) _)
    | env e =>
      simp only [Task.runDepth, Task.run, mark_environment_depth, mark_environment]
      cases e with
      | none => rfl
      | some a =>
        simp only
        exact erase_ret _ (ih (.envLoop _) _)
    | envLoop e =>
      simp only [Task.runDepth, Task.run, mark_environment_loop_depth, mark_environment_loop]
      cases e with
      | none => rfl
      | some a =>
        simp only
        cases hx : h.environment a with
        | none => rfl
        | some x =>
          simp only
          by_cases hm : x.marked = true
          · simp only [hm, if_true]; rfl
          · simp only [hm, if_false]
            refine erase_bind (ih (.bindings _ _) _) ?_
            intro r1
            cases hx2 : r1.1.environment a with
            | none => rfl
            | some x2 =>
              simp only
              exact erase_ret _ (ih (.envLoop _) _)
    | bindings a i =>
      simp only [Task.runDepth, Task.run, mark_bindings_depth, mark_bindings]
      cases hx : h.environment a with
      | none => rfl
      | some x =>
        simp only
        by_cases hi : i < x.num_bindings
        · simp only [hi, if_true]
          cases hb : x.bindings[i]? with
          | none => rfl
          | some b =>
            simp only
            refine erase_bind (ih (.value _) _) ?_
            intro r1
            exact erase_ret _ (ih (.bindings _ _) _)
        · simp only [hi, if_false]; rfl

theorem runDepth_ok {n : Nat} {t : Task} {h : Heap} {r : Heap × Nat}
    (e : t.runDepth n h = .ok r) : t.run n h = .ok r.1 := by
  rw [← runDepth_erase, e]
  rfl

theorem runDepth_of_run {n : Nat} {t : Task} {h h' : Heap} (e : t.run n h = .ok h') :
    ∃ d, t.runDepth n h = .ok (h', d) := by
  rw [← runDepth_erase] at e
  cases hr : t.runDepth n h with
  | error x => rw [hr] at e; simp [Except.map] at e
  | ok r =>
    rw [hr] at e
    simp only [Except.map, Except.ok.injEq] at e
    subst e
    exact ⟨r.2, rfl⟩

theorem isLeaf_of_ext {h h' : Heap} (e : Ext h h') {v : Option Nat} (hl : IsLeaf h v) :
    IsLeaf h' v := by
  intro a y' hv hy'
  obtain ⟨y, hy, hs⟩ := (fieldsKept_of_ext e).value a y' hy'
  rw [hs.1]
  exact hl a y hv hy

theorem flatLists_of_ext {h h' : Heap} (e : Ext h h') (hf : FlatLists h) : FlatLists h' := by
  intro a x' hx'
  obtain ⟨x, hx, hs⟩ := (fieldsKept_of_ext e).value a x' hx'
  obtain ⟨h1, h2⟩ := hf a x hx
  rw [hs.1, hs.2.2.2.1]
  exact ⟨h1, fun hc => isLeaf_of_ext e (h2 hc)⟩

theorem bind_ok_pair {x : Except Fail (Heap × Nat)} {f : Heap × Nat → Except Fail (Heap × Nat)}
    {r : Heap × Nat} (h : (x >>= f) = .ok r) : ∃ r1, x = .ok r1 ∧ f r1 = .ok r := by
  cases x with
  | error e => cases h
  | ok r1 => exact ⟨r1, rfl, h⟩

/-- On a heap of flat lists the call depth of a run is bounded whatever the
length of the lists and of the parent chains is; on a pointer that is not a
pair `mark_value` makes no call. -/
theorem runDepth_bound : ∀ (n : Nat) (t : Task) (h : Heap) (r : Heap × Nat),
    FlatLists h → t.runDepth n h = .ok r →
    (∀ f, t ≠ .lambda f) →
    r.2 ≤ t.depthBound
      ∧ (∀ v, t = .value v → IsLeaf h v → r.2 ≤ 1)
      ∧ (∀ v, t = .valueLoop v → IsLeaf h v → r.2 = 0) := by
  intro n
  induction n with
  | zero => intro t h r _ e; cases t <;> cases e
  | succ n ih =>
    intro t h r hf e hnl
    cases t with
    | value v =>
      simp only [Task.runDepth, mark_value_depth] at e
      cases v with
      | none => cases e
      | some a =>
        simp only at e
        cases hx : h.value a with
        | none => rw [hx] at e; cases e
        | some x =>
          rw [hx] at e
          simp only at e
          by_cases hm : x.marked = true
          · simp only [hm, if_true, Except.ok.injEq] at e
            subst e
            exact ⟨(by simp [Task.depthBound]), fun _ _ _ => le_refl _, (fun _ hc => nomatch hc)⟩
          · simp only [hm, if_false] at e
            obtain ⟨r1, e1, e2⟩ := bind_ok_pair e
            simp only [Except.ok.injEq] at e2
            subst e2
            obtain ⟨b1, _, b3⟩ := ih (.valueLoop (some a)) h r1 hf e1 (fun f hc => nomatch hc)
            simp only [Task.depthBound] at b1 ⊢
            refine ⟨(by show r1.2 + 1 ≤ 2; omega), ?_, (fun _ hc => nomatch hc)⟩
            intro v hv hl
            cases hv
            have := b3 _ rfl hl
            show r1.2 + 1 ≤ 1
            omega
    | valueLoop v =>
      simp only [Task.runDepth, mark_value_loop_depth] at e
      cases v with
      | none => cases e
      | some a =>
        simp only at e
        cases hx : h.value a with
        | none => rw [hx] at e; cases e
        | some x =>
          rw [hx] at e
          simp only at e
          by_cases hm : x.marked = true
          · simp only [hm, if_true, Except.ok.injEq] at e
            subst e
            exact ⟨(by simp [Task.depthBound]), (fun _ hc => nomatch hc), fun _ _ _ => rfl⟩
          · simp only [hm, if_false] at e
            have hm' : x.marked = false := by simpa using hm
            have e0 := ext_setValueMark hx hm'
            obtain ⟨hnt, hcar⟩ := hf a x hx
            simp only [if_neg hnt] at e
            by_cases hc : x.type = T_ConsPair
            · simp only [hc, if_true] at e
              obtain ⟨r1, e1, e2⟩ := bind_ok_pair e
              have x1 : Ext (h.setValueMark a true) r1.1 := run_ext (t := .value _) (runDepth_ok e1)
              cases hx2 : r1.1.value a with
              | none => rw [hx2] at e2; cases e2
              | some x2 =>
                rw [hx2] at e2
                simp only at e2
                obtain ⟨r2, e3, e4⟩ := bind_ok_pair e2
                simp only [Except.ok.injEq] at e4
                subst e4
                obtain ⟨_, b2, _⟩ := ih (.value x.p_car) _ r1 (flatLists_of_ext e0 hf) e1
                  (fun f hc => nomatch hc)
                have c1 := b2 _ rfl (isLeaf_of_ext e0 (hcar hc))
                obtain ⟨c2, _, _⟩ := ih (.valueLoop x2.p_cdr) _ r2 (flatLists_of_ext (e0.trans x1) hf) e3
                  (fun f hc => nomatch hc)
                simp only [Task.depthBound] at c2 ⊢
                refine ⟨(by show max r1.2 r2.2 ≤ 1; omega), (fun _ hc => nomatch hc), ?_⟩
                intro v hv hl
                cases hv
                exact absurd hc (hl a x rfl hx)
            · simp only [hc, if_false] at e
              obtain ⟨b1, _, b3⟩ := ih (.valueLoop (some a)) _ r (flatLists_of_ext e0 hf) e
                (fun f hc => nomatch hc)
              refine ⟨b1, (fun _ hc => nomatch hc), ?_⟩
              intro v hv hl
              cases hv
              exact b3 _ rfl (isLeaf_of_ext e0 hl)
    | lambda f => exact absurd rfl (hnl f)
    | env v =>
      simp only [Task.runDepth, mark_environment_depth] at e
      cases v with
      | none => cases e
      | some a =>
        simp only at e
        obtain ⟨r1, e1, e2⟩ := bind_ok_pair e
        simp only [Except.ok.injEq] at e2
        subst e2
        obtain ⟨b1, _, _⟩ := ih (.envLoop (some a)) h r1 hf e1 (fun f hc => nomatch hc)
        simp only [Task.depthBound] at b1 ⊢
        exact ⟨(by show r1.2 + 1 ≤ 3; omega), (fun _ hc => nomatch hc),
          (fun _ hc => nomatch hc)⟩
    | envLoop v =>
      simp only [Task.runDepth, mark_environment_loop_depth] at e
      cases v with
      | none =>
        simp only [Except.ok.injEq] at e
        subst e
        exact ⟨(by simp [Task.depthBound]), (fun _ hc => nomatch hc), (fun _ hc => nomatch hc)⟩
      | some a =>
        simp only at e
        cases hx : h.environment a with
        | none => rw [hx] at e; cases e
        | some x =>
          rw [hx] at e
          simp only at e
          by_cases hm : x.marked = true
          · simp only [hm, if_true, Except.ok.injEq] at e
            subst e
            exact ⟨(by simp [Task.depthBound]), (fun _ hc => nomatch hc), (fun _ hc => nomatch hc)⟩
          · simp only [hm, if_false] at e
            have hm' : x.marked = false := by simpa using hm
            have e0 := ext_setEnvMark hx hm'
            obtain ⟨r1, e1, e2⟩ := bind_ok_pair e
            have x1 : Ext (h.setEnvMark a true) r1.1 :=
              run_ext (t := .bindings _ _) (runDepth_ok e1)
            cases hx2 : r1.1.environment a with
            | none => rw [hx2] at e2; cases e2
            | some x2 =>
              rw [hx2] at e2
              simp only at e2
              obtain ⟨r2, e3, e4⟩ := bind_ok_pair e2
              simp only [Except.ok.injEq] at e4
              subst e4
              obtain ⟨c1, _, _⟩ := ih (.bindings a 0) _ r1 (flatLists_of_ext e0 hf) e1
                (fun f hc => nomatch hc)
              obtain ⟨c2, _, _⟩ := ih (.envLoop x2.parent_env) _ r2 (flatLists_of_ext (e0.trans x1) hf) e3
                (fun f hc => nomatch hc)
              simp only [Task.depthBound] at c1 c2 ⊢
              exact ⟨(by show max r1.2 r2.2 ≤ 2; omega), (fun _ hc => nomatch hc),
                (fun _ hc => nomatch hc)⟩
    | bindings a i =>
      simp only [Task.runDepth, mark_bindings_depth] at e
      cases hx : h.environment a with
      | none => rw [hx] at e; cases e
      | some x =>
        rw [hx] at e
        simp only at e
        by_cases hi : i < x.num_bindings
        · simp only [hi, if_true] at e
          cases hb : x.bindings[i]? with
          | none => rw [hb] at e; cases e
          | some b =>
            rw [hb] at e
            simp only at e
            obtain ⟨r1, e1, e2⟩ := bind_ok_pair e
            obtain ⟨r2, e3, e4⟩ := bind_ok_pair e2
            simp only [Except.ok.injEq] at e4
            subst e4
            have x1 : Ext h r1.1 := run_ext (t := .value _) (runDepth_ok e1)
            obtain ⟨c1, _, _⟩ := ih (.value b.value) _ r1 hf e1 (fun f hc => nomatch hc)
            obtain ⟨c2, _, _⟩ := ih (.bindings a (i + 1)) _ r2 (flatLists_of_ext x1 hf) e3
              (fun f hc => nomatch hc)
            simp only [Task.depthBound] at c1 c2 ⊢
            exact ⟨(by show max r1.2 r2.2 ≤ 2; omega), (fun _ hc => nomatch hc),
              (fun _ hc => nomatch hc)⟩
        · simp only [hi, if_false, Except.ok.injEq] at e
          subst e
          exact ⟨(by simp [Task.depthBound]), (fun _ hc => nomatch hc), (fun _ hc => nomatch hc)⟩

theorem rd_range_map {α : Type} (f : Nat → α) (m a : Nat) :
    rd ((List.range m).map (fun i => some (f i))) a = if a < m then some (f a) else none := by
  unfold rd
  by_cases h : a < m
  · simp [h, List.getD_eq_getElem?_getD, List.getElem?_map, List.getElem?_range h]
  · have hn : (List.range m)[a]? = none :=
      List.getElem?_eq_none (by simp only [List.length_range]; omega)
    simp [h, List.getD_eq_getElem?_getD, List.getElem?_map, hn]

theorem deepHeap_value (n k a : Nat) :
    (deepHeap n k).value a = if a < 2 * n + 1 then some (deepValue n a) else none :=
  rd_range_map (deepValue n) (2 * n + 1) a

theorem deepHeap_environment (n k j : Nat) :
    (deepHeap n k).environment j = if j < k + 1 then some (deepEnvironment j) else none :=
  rd_range_map deepEnvironment (k + 1) j

theorem deepHeap_lambda (n k a : Nat) : (deepHeap n k).lambda a = none := rfl

theorem deepHeap_objects (n k : Nat) (o : Obj) :
    o ∈ (deepHeap n k).objects ↔ match o with
      | .value a => a < 2 * n + 1
      | .lambda _ => False
      | .env j => j < k + 1 := by
  rw [mem_objects_iff]
  cases o with
  | value a => simp [deepHeap]
  | lambda a => simp [deepHeap]
  | env j => simp [deepHeap]

theorem deepValue_marked (n a : Nat) : (deepValue n a).marked = false := by
  unfold deepValue
  split
  · rfl
  · split <;> rfl

theorem deepEnvironment_marked (j : Nat) : (deepEnvironment j).marked = false := by
  unfold deepEnvironment
  split <;> rfl

theorem deepHeap_refs_value (n k a : Nat) (ha : a < 2 * n + 1) :
    (deepHeap n k).refs (Obj.value a)
      = if a < n then [some (Obj.value (n + 1 + a)), some (Obj.value (a + 1))] else [] := by
  simp only [Heap.refs, deepHeap_value, if_pos ha, deepValue]
  by_cases h1 : a < n
  · simp [h1, Value.cons, T_ConsPair, T_Lambda]
  · by_cases h2 : a = n
    · simp [h1, h2, Value.ofType, Value.zero, T_ConsPair, T_Lambda, T_Nil]
    · simp [h1, h2, Value.ofType, Value.zero, T_ConsPair, T_Lambda, T_Integer]

theorem deepHeap_refs_env (n k j : Nat) (hj : j < k + 1) :
    (deepHeap n k).refs (Obj.env j)
      = if j = 0 then [some (Obj.value 0)] else [some (Obj.env (j - 1))] := by
  simp only [Heap.refs, deepHeap_environment, if_pos hj, deepEnvironment]
  by_cases h1 : j = 0
  · simp [h1, Environment.zero]
  · simp [h1, Environment.zero]

theorem regOK_range {α : Type} (f : Nat → α) (m : Nat) :
    RegOK ((List.range m).map some) ((List.range m).map (fun i => some (f i))) := by
  constructor
  · intro p hp
    obtain ⟨a, ha, rfl⟩ := List.mem_map.1 hp
    refine ⟨a, rfl, ?_⟩
    rw [rd_range_map, if_pos (List.mem_range.1 ha)]
    rfl
  · exact (List.nodup_range m).map (fun _ _ hab => Option.some.inj hab)

theorem deepHeap_roots (k : Nat) :
    roots (some 0) (deepFrames k) = [Obj.env 0, Obj.env k] := rfl

theorem deepHeap_wf (n k : Nat) : WellFormed (deepHeap n k) (some 0) (deepFrames k) := by
  refine ⟨?_, ?_, ?_, (by simp), ?_⟩
  · rw [registryOK_iff]
    refine ⟨regOK_range _ _, ?_, regOK_range _ _⟩
    exact ⟨(fun p hp => nomatch hp), List.nodup_nil⟩
  · intro o ho
    rw [deepHeap_objects] at ho
    cases o with
    | value a =>
      simp only at ho
      simp [Heap.marked, deepHeap_value, ho, deepValue_marked]
    | lambda a => exact absurd ho id
    | env j =>
      simp only at ho
      simp [Heap.marked, deepHeap_environment, ho, deepEnvironment_marked]
  · intro o ho r hr
    rw [deepHeap_objects] at ho
    cases o with
    | value a =>
      simp only at ho
      rw [deepHeap_refs_value n k a ho] at hr
      by_cases h1 : a < n
      · rw [if_pos h1] at hr
        simp only [List.mem_cons, List.mem_singleton, List.not_mem_nil, or_false] at hr
        rcases hr with hr | hr
        · exact ⟨_, (deepHeap_objects n k _).2 (by show n + 1 + a < 2 * n + 1; omega), hr⟩
        · exact ⟨_, (deepHeap_objects n k _).2 (by show a + 1 < 2 * n + 1; omega), hr⟩
      · rw [if_neg h1] at hr
        cases hr
    | lambda a => exact absurd ho id
    | env j =>
      simp only at ho
      rw [deepHeap_refs_env n k j ho] at hr
      by_cases h1 : j = 0
      · rw [if_pos h1, List.mem_singleton] at hr
        exact ⟨_, (deepHeap_objects n k _).2 (by show 0 < 2 * n + 1; omega), hr⟩
      · rw [if_neg h1, List.mem_singleton] at hr
        exact ⟨_, (deepHeap_objects n k _).2 (by show j - 1 < k + 1; omega), hr⟩
  · intro o ho
    rw [deepHeap_roots] at ho
    simp only [List.mem_cons, List.mem_singleton, List.not_mem_nil, or_false] at ho
    rcases ho with ho | ho
    · rw [ho]; exact (deepHeap_objects n k _).2 (by show 0 < k + 1; omega)
    · rw [ho]; exact (deepHeap_objects n k _).2 (by show k < k + 1; omega)

theorem deepHeap_reach_env (n k : Nat) : ∀ d, d ≤ k →
    Reach (deepHeap n k) (roots (some 0) (deepFrames k)) (Obj.env (k - d)) := by
  intro d
  induction d with
  | zero => intro _; exact Reach.root (by rw [deepHeap_roots]; simp)
  | succ d ih =>
    intro hd
    refine Reach.step (ih (by omega)) ?_
    rw [deepHeap_refs_env n k (k - d) (by omega), if_neg (by omega), List.mem_singleton]
    have : k - d - 1 = k - (d + 1) := by omega
    rw [this]

theorem deepHeap_reach_pair (n k : Nat) : ∀ a, a ≤ n →
    Reach (deepHeap n k) (roots (some 0) (deepFrames k)) (Obj.value a) := by
  intro a
  induction a with
  | zero =>
    intro _
    refine Reach.step (o := Obj.env 0) (Reach.root (by rw [deepHeap_roots]; simp)) ?_
    rw [deepHeap_refs_env n k 0 (by omega), if_pos rfl, List.mem_singleton]
  | succ a ih =>
    intro ha
    refine Reach.step (ih (by omega)) ?_
    rw [deepHeap_refs_value n k a (by omega), if_pos (by omega)]
    simp

theorem deepHeap_reach (n k : Nat) (o : Obj) (ho : o ∈ (deepHeap n k).objects) :
    Reach (deepHeap n k) (roots (some 0) (deepFrames k)) o := by
  rw [deepHeap_objects] at ho
  cases o with
  | value a =>
    simp only at ho
    by_cases h1 : a ≤ n
    · exact deepHeap_reach_pair n k a h1
    · refine Reach.step (deepHeap_reach_pair n k (a - (n + 1)) (by omega)) ?_
      rw [deepHeap_refs_value n k _ (by omega), if_pos (by omega)]
      have : n + 1 + (a - (n + 1)) = a := by omega
      rw [this]
      simp
  | lambda a => exact absurd ho id
  | env j =>
    simp only at ho
    have := deepHeap_reach_env n k (k - j) (by omega)
    have e : k - (k - j) = j := by omega
    rwa [e] at this

theorem deepHeap_flat (n k : Nat) : FlatLists (deepHeap n k) := by
  intro a x hx
  rw [deepHeap_value] at hx
  by_cases ha : a < 2 * n + 1
  · rw [if_pos ha] at hx
    cases hx
    constructor
    · unfold deepValue
      split
      · simp [Value.cons, T_ConsPair, T_Lambda]
      · split <;> simp [Value.ofType, Value.zero, T_Nil, T_Integer, T_Lambda]
    · intro hc c y hcar hy
      unfold deepValue at hc hcar
      by_cases h1 : a < n
      · rw [if_pos h1] at hcar
        simp only [Value.cons, Option.some.injEq] at hcar
        subst hcar
        rw [deepHeap_value] at hy
        by_cases h2 : n + 1 + a < 2 * n + 1
        · rw [if_pos h2] at hy
          cases hy
          unfold deepValue
          rw [if_neg (by omega), if_neg (by omega)]
          simp [Value.ofType, Value.zero, T_Integer, T_ConsPair]
        · rw [if_neg h2] at hy; cases hy
      · rw [if_neg h1] at hc
        split at hc <;> simp [Value.ofType, Value.zero, T_Nil, T_Integer, T_ConsPair] at hc
  · rw [if_neg ha] at hx; cases hx

/-! ## The claims -/

/-- C1, reachability soundness of `collect_garbage`: on a well-formed heap
(registries in order, all mark flags clear, every reference of a registered
object present and registered, the roots registered) the collection
returns, and every object reachable from the global environment or from a
frame of the evaluation stack is still in its registry, and still
allocated, afterwards; in particular the global environment is. -/
theorem collect_garbage_sound (h : Heap) (global_env : Option Nat)
    (frames : List EvaluationContext) (hwf : WellFormed h global_env frames) :
    ∃ h', collect_garbage h global_env (some frames) = .ok h'
      ∧ (∀ o, Reach h (roots global_env frames) o → o ∈ h'.objects ∧ h'.live o = true)
      ∧ ∃ a, global_env = some a ∧ Obj.env a ∈ h'.objects := by
  obtain ⟨h2, h', m, s, e⟩ := collect_wf hwf
  have key : ∀ o, Reach h (roots global_env frames) o → o ∈ h'.objects := fun o hr =>
    (survivors_iff hwf m s o).2 ⟨reach_registered hwf.2.2.1 hwf.2.2.2.2 hr, hr⟩
  refine ⟨h', e, fun o hr => ⟨key o hr, s.live o (key o hr)⟩, ?_⟩
  cases hg : global_env with
  | none => exact absurd hg hwf.2.2.2.1
  | some a => exact ⟨a, rfl, key _ (Reach.root (by simp [roots, hg]))⟩

/-- Witness of C1 on the example heap. -/
theorem collect_garbage_sound_witness :
    WellFormed exampleHeap (some 0) exampleFrames
      ∧ ∃ h', collect_garbage exampleHeap (some 0) (some exampleFrames) = .ok h'
        ∧ (∀ o, Reach exampleHeap (roots (some 0) exampleFrames) o →
            o ∈ h'.objects ∧ h'.live o = true)
        ∧ ∃ a, some 0 = some a ∧ Obj.env a ∈ h'.objects :=
  ⟨by decide, collect_garbage_sound exampleHeap (some 0) exampleFrames (by decide)⟩

/-- C2, reachability completeness of `collect_garbage`: on a well-formed
heap the collection returns, and every registered object that is not
reachable from the global environment or from a frame is out of its
registry, and released, afterwards; nothing new is registered. -/
theorem collect_garbage_complete (h : Heap) (global_env : Option Nat)
    (frames : List EvaluationContext) (hwf : WellFormed h global_env frames) :
    ∃ h', collect_garbage h global_env (some frames) = .ok h'
      ∧ (∀ o ∈ h.objects, ¬ Reach h (roots global_env frames) o →
          o ∉ h'.objects ∧ h'.live o = false)
      ∧ ∀ o ∈ h'.objects, o ∈ h.objects := by
  obtain ⟨h2, h', m, s, e⟩ := collect_wf hwf
  refine ⟨h', e, ?_, fun o ho => ((survivors_iff hwf m s o).1 ho).1⟩
  intro o ho hnr
  refine ⟨fun hc => hnr ((survivors_iff hwf m s o).1 hc).2, ?_⟩
  have ho2 : o ∈ h2.objects := by rw [m.ext.objects]; exact ho
  refine s.dead ho2 ?_
  rcases marked_bool_cases h2 o with hm | hm
  · exact absurd (m.reach o hm (hwf.2.1 o ho)) hnr
  · exact hm

/-- Witness of C2 on the example heap. -/
theorem collect_garbage_complete_witness :
    WellFormed exampleHeap (some 0) exampleFrames
      ∧ ∃ h', collect_garbage exampleHeap (some 0) (some exampleFrames) = .ok h'
        ∧ (∀ o ∈ exampleHeap.objects, ¬ Reach exampleHeap (roots (some 0) exampleFrames) o →
            o ∉ h'.objects ∧ h'.live o = false)
        ∧ ∀ o ∈ h'.objects, o ∈ exampleHeap.objects :=
  ⟨by decide, collect_garbage_complete exampleHeap (some 0) exampleFrames (by decide)⟩

/-- C3, mark flags are clear outside a collection: the property that every
registered object has its mark flag clear holds after `init_alloc`, is kept
by `alloc_value`, `alloc_lambda` and `alloc_environment`, and holds again
after `collect_garbage` on a well-formed heap. -/
theorem unmarked_between_collections (h : Heap) (global_env : Option Nat)
    (frames : List EvaluationContext) (hun : Unmarked h) :
    Unmarked init_alloc
      ∧ Unmarked (alloc_value h).1 ∧ Unmarked (alloc_lambda h).1
      ∧ Unmarked (alloc_environment h).1
      ∧ (WellFormed h global_env frames →
          ∃ h', collect_garbage h global_env (some frames) = .ok h' ∧ Unmarked h') := by
  refine ⟨by decide, ?_, ?_, ?_, ?_⟩
  · exact unmarked_of_alloc hun (alloc_value_objects h) (alloc_value_marked h)
  · exact unmarked_of_alloc hun (alloc_lambda_objects h) (alloc_lambda_marked h)
  · exact unmarked_of_alloc hun (alloc_environment_objects h) (alloc_environment_marked h)
  · intro hwf
    obtain ⟨h2, h', m, s, e⟩ := collect_wf hwf
    exact ⟨h', e, s.unmarked⟩

/-- Witness of C3 on the example heap, whose global environment binds `x`
to the pair `(1 . 2)`. -/
theorem unmarked_between_collections_witness :
    Unmarked exampleHeap ∧ WellFormed exampleHeap (some 0) exampleFrames
      ∧ Unmarked (alloc_value exampleHeap).1
      ∧ ∃ h', collect_garbage exampleHeap (some 0) (some exampleFrames) = .ok h'
          ∧ Unmarked h' :=
  ⟨by decide, by decide,
    (unmarked_between_collections exampleHeap (some 0) exampleFrames (by decide)).2.1,
    (unmarked_between_collections exampleHeap (some 0) exampleFrames (by decide)).2.2.2.2
      (by decide)⟩

theorem registrySwept_of {α : Type} (marked : α → Bool) (clear : α → α)
    (hclear : ∀ x, marked (clear x) = false)
    {reg reg' : List (Option Nat)} {mem mem' : List (Option α)}
    (hn : none ∉ reg)
    (hreg : reg' = reg.filter (slot_marked marked mem))
    (hmem : ∀ c, rd mem' c = if some c ∈ reg then swept marked clear (rd mem c) else rd mem c) :
    RegistrySwept reg reg' (fun a => slot_marked marked mem (some a))
      (fun a => slot_marked marked mem' (some a)) := by
  subst hreg
  refine ⟨?_, ?_, ?_, ?_⟩
  · intro a
    rw [List.mem_filter]
  · rw [List.countP_eq_length_filter]
    exact congrArg List.length (List.filter_congr (fun p _ => by cases p <;> rfl))
  · exact fun hc => hn (List.mem_of_mem_filter hc)
  · intro a ha
    obtain ⟨h1, h2⟩ := List.mem_filter.1 ha
    simp only [slot_marked] at h2 ⊢
    rw [hmem a, if_pos h1]
    cases hx : rd mem a with
    | none => simp [swept]
    | some x =>
      rw [hx] at h2
      have h2' : marked x = true := h2
      simp [swept, h2', hclear]

/-- C4, registry invariant of the sweeps: the registries are in order (no
`NULL`, no pointer twice, every pointer allocated) after `init_alloc`, and
the allocation functions and the sweeps keep them so; on such registries
each of `sweep_values`, `sweep_lambdas` and `sweep_environments` returns,
and afterwards its registry holds exactly the objects that were registered
and marked before, has as many slots as there were such objects, holds no
`NULL`, and every object in it has its mark flag clear. -/
theorem sweep_registry_invariant (h : Heap) (hr : RegistryOK h) :
    (RegistryOK init_alloc ∧ RegistryOK (alloc_value h).1 ∧ RegistryOK (alloc_lambda h).1
        ∧ RegistryOK (alloc_environment h).1)
      ∧ (∃ h', sweep_values h = .ok h' ∧ RegistryOK h'
        ∧ RegistrySwept h.allocated_values h'.allocated_values
            (fun a => h.marked (Obj.value a)) (fun a => h'.marked (Obj.value a)))
      ∧ (∃ h', sweep_lambdas h = .ok h' ∧ RegistryOK h'
        ∧ RegistrySwept h.allocated_lambdas h'.allocated_lambdas
            (fun a => h.marked (Obj.lambda a)) (fun a => h'.marked (Obj.lambda a)))
      ∧ (∃ h', sweep_environments h = .ok h' ∧ RegistryOK h'
        ∧ RegistrySwept h.allocated_environments h'.allocated_environments
            (fun a => h.marked (Obj.env a)) (fun a => h'.marked (Obj.env a))) := by
  refine ⟨registryOK_alloc h hr, ?_, ?_, ?_⟩
  · obtain ⟨h', e, h1, h2, _⟩ := sweep_values_spec h hr.values
    refine ⟨h', e, (registryOK_sweep h hr).1 h' e, ?_⟩
    have := registrySwept_of Value.marked Value.clear (fun _ => rfl) hr.1.1 h1 h2
    simpa only [slot_marked_value] using this
  · obtain ⟨h', e, h1, h2, _⟩ := sweep_lambdas_spec h hr.lambdas
    refine ⟨h', e, (registryOK_sweep h hr).2.1 h' e, ?_⟩
    have := registrySwept_of Lambda.marked Lambda.clear (fun _ => rfl) hr.1.2.1 h1 h2
    simpa only [slot_marked_lambda] using this
  · obtain ⟨h', e, h1, h2, _⟩ := sweep_environments_spec h hr.environments
    refine ⟨h', e, (registryOK_sweep h hr).2.2 h' e, ?_⟩
    have := registrySwept_of Environment.marked Environment.clear (fun _ => rfl) hr.1.2.2 h1 h2
    simpa only [slot_marked_env] using this

/-- Witness of C4 on a heap with marked and unmarked objects. -/
theorem sweep_registry_invariant_witness :
    RegistryOK markedHeap
      ∧ (∃ h', sweep_values markedHeap = .ok h' ∧ RegistryOK h'
        ∧ RegistrySwept markedHeap.allocated_values h'.allocated_values
            (fun a => markedHeap.marked (Obj.value a)) (fun a => h'.marked (Obj.value a))) :=
  ⟨by decide, (sweep_registry_invariant markedHeap (by decide)).2.1⟩

/-- C5, allocation contract: `alloc_value`, `alloc_lambda` and
`alloc_environment` each return a pointer at which nothing was allocated
before and at which a zeroed object (mark flag clear, every pointer absent,
no bindings) now is, append that pointer to the registry of their kind,
which grows by one slot, and leave the other registries and every other
cell as they were. -/
theorem alloc_contract (h : Heap) :
    (h.value (alloc_value h).2 = none
        ∧ (alloc_value h).1.value (alloc_value h).2 = some Value.zero
        ∧ Value.zero = ⟨0, false, none, none, none, none⟩
        ∧ (alloc_value h).1.allocated_values
            = h.allocated_values ++ [some (alloc_value h).2]
        ∧ (alloc_value h).1.allocated_values.length = h.allocated_values.length + 1
        ∧ (alloc_value h).1.allocated_lambdas = h.allocated_lambdas
        ∧ (alloc_value h).1.allocated_environments = h.allocated_environments
        ∧ (∀ c, c ≠ (alloc_value h).2 → (alloc_value h).1.value c = h.value c)
        ∧ (alloc_value h).1.lambdas = h.lambdas
        ∧ (alloc_value h).1.environments = h.environments)
      ∧ (h.lambda (alloc_lambda h).2 = none
        ∧ (alloc_lambda h).1.lambda (alloc_lambda h).2 = some Lambda.zero
        ∧ Lambda.zero = ⟨false, false, none, none, none⟩
        ∧ (alloc_lambda h).1.allocated_lambdas
            = h.allocated_lambdas ++ [some (alloc_lambda h).2]
        ∧ (alloc_lambda h).1.allocated_lambdas.length = h.allocated_lambdas.length + 1
        ∧ (alloc_lambda h).1.allocated_values = h.allocated_values
        ∧ (alloc_lambda h).1.allocated_environments = h.allocated_environments
        ∧ (∀ c, c ≠ (alloc_lambda h).2 → (alloc_lambda h).1.lambda c = h.lambda c)
        ∧ (alloc_lambda h).1.values = h.values
        ∧ (alloc_lambda h).1.environments = h.environments)
      ∧ (h.environment (alloc_environment h).2 = none
        ∧ (alloc_environment h).1.environment (alloc_environment h).2
            = some Environment.zero
        ∧ Environment.zero = ⟨false, none, []⟩
        ∧ Environment.zero.num_bindings = 0
        ∧ (alloc_environment h).1.allocated_environments
            = h.allocated_environments ++ [some (alloc_environment h).2]
        ∧ (alloc_environment h).1.allocated_environments.length
            = h.allocated_environments.length + 1
        ∧ (alloc_environment h).1.allocated_values = h.allocated_values
        ∧ (alloc_environment h).1.allocated_lambdas = h.allocated_lambdas
        ∧ (∀ c, c ≠ (alloc_environment h).2 →
            (alloc_environment h).1.environment c = h.environment c)
        ∧ (alloc_environment h).1.values = h.values
        ∧ (alloc_environment h).1.lambdas = h.lambdas) := by
  refine ⟨⟨?_, ?_, rfl, rfl, ?_, rfl, rfl, ?_, rfl, rfl⟩,
    ⟨?_, ?_, rfl, rfl, ?_, rfl, rfl, ?_, rfl, rfl⟩,
    ⟨?_, ?_, rfl, rfl, rfl, ?_, rfl, rfl, ?_, rfl, rfl⟩⟩
  · exact rd_ge _ (le_refl _)
  · exact rd_append_length _ _
  · simp [alloc_value, pv_add_elem]
  · intro c hc; exact rd_append_ne _ _ hc
  · exact rd_ge _ (le_refl _)
  · exact rd_append_length _ _
  · simp [alloc_lambda, pv_add_elem]
  · intro c hc; exact rd_append_ne _ _ hc
  · exact rd_ge _ (le_refl _)
  · exact rd_append_length _ _
  · simp [alloc_environment, pv_add_elem]
  · intro c hc; exact rd_append_ne _ _ hc

theorem mark_value_returns {n : Nat} {h : Heap} {a : Nat} (hn : gc_fuel h ≤ n)
    (hl : ∀ o ∈ h.objects, h.live o = true) (hrefs : RefsOK h)
    (ha : Obj.value a ∈ h.objects) : ∃ h', mark_value n h (some a) = .ok h' :=
  ok_of_ne_error (mark_value_fuel _ hn) (mark_value_safe hl hrefs ha)

theorem mark_environment_returns {n : Nat} {h : Heap} {a : Nat} (hn : gc_fuel h ≤ n)
    (hl : ∀ o ∈ h.objects, h.live o = true) (hrefs : RefsOK h)
    (ha : Obj.env a ∈ h.objects) : ∃ h', mark_environment n h (some a) = .ok h' :=
  ok_of_ne_error (mark_environment_fuel _ hn) (mark_environment_safe hl hrefs ha)

theorem mark_lambda_returns {n : Nat} {h : Heap} {a : Nat} (hn : gc_fuel h ≤ n)
    (hl : ∀ o ∈ h.objects, h.live o = true) (hrefs : RefsOK h)
    (ha : Obj.lambda a ∈ h.objects) : ∃ h', mark_lambda n h (some a) = .ok h' := by
  refine ok_of_ne_error (mark_lambda_fuel _ hn) ?_
  refine run_safe n (.lambda (some a)) h hl hrefs ?_ (by intro a i hc; cases hc)
  intro r hr
  simp only [Task.targets, List.mem_singleton] at hr
  subst hr
  exact ⟨_, ha, rfl⟩

/-- C6, the mark functions terminate on every heap, cyclic or not: with
`gc_fuel h` steps or more, `mark_value`, `mark_lambda` and
`mark_environment` never run out of steps on `h`, and more steps do not
change their outcome; on a heap whose registered objects are allocated and
have every reference present and registered, they return when called on a
registered object. -/
theorem mark_terminates (h : Heap) (v f e : Option Nat) (n : Nat) (hn : gc_fuel h ≤ n) :
    (mark_value n h v ≠ .error .fuel ∧ mark_value n h v = mark_value (gc_fuel h) h v)
      ∧ (mark_lambda n h f ≠ .error .fuel
        ∧ mark_lambda n h f = mark_lambda (gc_fuel h) h f)
      ∧ (mark_environment n h e ≠ .error .fuel
        ∧ mark_environment n h e = mark_environment (gc_fuel h) h e)
      ∧ ((∀ o ∈ h.objects, h.live o = true) → RefsOK h →
          (∀ a, v = some a → Obj.value a ∈ h.objects →
            ∃ h', mark_value n h v = .ok h')
          ∧ (∀ a, f = some a → Obj.lambda a ∈ h.objects →
            ∃ h', mark_lambda n h f = .ok h')
          ∧ (∀ a, e = some a → Obj.env a ∈ h.objects →
            ∃ h', mark_environment n h e = .ok h')) := by
  have h1 := run_gc_fuel (.value v) h hn (by simp [Task.cost])
  have h2 := run_gc_fuel (.lambda f) h hn (by simp [Task.cost])
  have h3 := run_gc_fuel (.env e) h hn (by simp [Task.cost])
  refine ⟨⟨h1.2, h1.1⟩, ⟨h2.2, h2.1⟩, ⟨h3.2, h3.1⟩, ?_⟩
  intro hl hrefs
  refine ⟨?_, ?_, ?_⟩
  · intro a ha hreg; subst ha; exact mark_value_returns hn hl hrefs hreg
  · intro a ha hreg; subst ha; exact mark_lambda_returns hn hl hrefs hreg
  · intro a ha hreg; subst ha; exact mark_environment_returns hn hl hrefs hreg

/-- Witness of C6 on a heap with a self-referential pair, a closure whose
lambda leads back to it, and two environments that are each other's
parent. -/
theorem mark_terminates_witness :
    gc_fuel cyclicHeap ≤ 13
      ∧ (mark_value 13 cyclicHeap (some 0) ≠ .error .fuel
        ∧ mark_value 13 cyclicHeap (some 0) = mark_value (gc_fuel cyclicHeap) cyclicHeap (some 0))
      ∧ (mark_lambda 13 cyclicHeap (some 0) ≠ .error .fuel
        ∧ mark_lambda 13 cyclicHeap (some 0)
            = mark_lambda (gc_fuel cyclicHeap) cyclicHeap (some 0))
      ∧ (mark_environment 13 cyclicHeap (some 0) ≠ .error .fuel
        ∧ mark_environment 13 cyclicHeap (some 0)
            = mark_environment (gc_fuel cyclicHeap) cyclicHeap (some 0)) :=
  ⟨by decide,
    (mark_terminates cyclicHeap (some 0) (some 0) (some 0) 13 (by decide)).1,
    (mark_terminates cyclicHeap (some 0) (some 0) (some 0) 13 (by decide)).2.1,
    (mark_terminates cyclicHeap (some 0) (some 0) (some 0) 13 (by decide)).2.2.1⟩

/-- C7, idempotent marks: called on an object that is already marked,
`mark_value`, `mark_lambda` and `mark_environment` return the state
unchanged; so marking the same root again right after it was marked leaves
the state as the first call left it. -/
theorem mark_idempotent (n : Nat) (h : Heap) (a : Nat) :
    (h.marked (Obj.value a) = true → mark_value (n + 2) h (some a) = .ok h)
      ∧ (h.marked (Obj.lambda a) = true → mark_lambda (n + 2) h (some a) = .ok h)
      ∧ (h.marked (Obj.env a) = true → mark_environment (n + 2) h (some a) = .ok h)
      ∧ (∀ v h', mark_value (n + 2) h v = .ok h' → mark_value (n + 2) h' v = .ok h')
      ∧ (∀ f h', mark_lambda (n + 2) h f = .ok h' → mark_lambda (n + 2) h' f = .ok h')
      ∧ (∀ e h', mark_environment (n + 2) h e = .ok h' →
          mark_environment (n + 2) h' e = .ok h') := by
  have hv : ∀ (h : Heap) (a : Nat), h.marked (Obj.value a) = true →
      mark_value (n + 2) h (some a) = .ok h := by
    intro h a hm
    simp only [Heap.marked] at hm
    cases hx : h.value a with
    | none => simp [hx] at hm
    | some x =>
      rw [hx] at hm
      have hm' : x.marked = true := hm
      simp [mark_value, hx, hm']
  have hf : ∀ (h : Heap) (a : Nat), h.marked (Obj.lambda a) = true →
      mark_lambda (n + 2) h (some a) = .ok h := by
    intro h a hm
    simp only [Heap.marked] at hm
    cases hx : h.lambda a with
    | none => simp [hx] at hm
    | some x =>
      rw [hx] at hm
      have hm' : x.marked = true := hm
      simp [mark_lambda, hx, hm']
  have he : ∀ (h : Heap) (a : Nat), h.marked (Obj.env a) = true →
      mark_environment (n + 2) h (some a) = .ok h := by
    intro h a hm
    simp only [Heap.marked] at hm
    cases hx : h.environment a with
    | none => simp [hx] at hm
    | some x =>
      rw [hx] at hm
      have hm' : x.marked = true := hm
      simp [mark_environment, mark_environment_loop, hx, hm']
  refine ⟨hv h a, hf h a, he h a, ?_, ?_, ?_⟩
  · intro v h' hr
    obtain ⟨a', ha', m⟩ := mark_value_spec hr
    subst ha'
    exact hv h' a' (m.roots _ (List.mem_singleton.2 rfl))
  · intro f h' hr
    obtain ⟨a', ha', m⟩ := mark_lambda_spec hr
    subst ha'
    exact hf h' a' (m.roots _ (List.mem_singleton.2 rfl))
  · intro e h' hr
    obtain ⟨a', ha', m⟩ := mark_environment_spec hr
    subst ha'
    exact he h' a' (m.roots _ (List.mem_singleton.2 rfl))

/-- Witness of C7: value 0 of the marked heap is marked, and marking it
again changes nothing. -/
theorem mark_idempotent_witness :
    markedHeap.marked (Obj.value 0) = true ∧ mark_value 2 markedHeap (some 0) = .ok markedHeap :=
  ⟨by decide, (mark_idempotent 0 markedHeap 0).1 (by decide)⟩

theorem reach_ancestor {h : Heap} {R : List Obj} {a b : Nat} (hanc : Ancestor h a b)
    (hr : Reach h R (Obj.env a)) : Reach h R (Obj.env b) := by
  induction hanc with
  | self => exact hr
  | parent _ hx hp ih =>
    refine Reach.step ih ?_
    simp only [Heap.refs, hx, hp]
    exact List.mem_append_right _ (by simp)

/-- C8, a live lambda keeps its captured environment alive: on a
well-formed heap, when the expression of a frame is a closure value of an
interpreted lambda whose captured environment is `E`, then after
`collect_garbage` the environment `E`, every environment on its parent
chain, the lambda, its argument list and its body are still registered,
whether or not `E` is a root itself. -/
theorem closure_keeps_environment (h : Heap) (global_env : Option Nat)
    (frames : List EvaluationContext) (ctx : EvaluationContext) (v f E : Nat)
    (x : Value) (l : Lambda) (hwf : WellFormed h global_env frames)
    (hctx : ctx ∈ frames) (hexpr : ctx.expression = some v)
    (hx : h.value v = some x) (hty : x.type = T_Lambda) (hlam : x.lambda_val = some f)
    (hl : h.lambda f = some l) (hnat : l.native_impl = false)
    (hE : l.parent_env = some E) :
    ∃ h', collect_garbage h global_env (some frames) = .ok h'
      ∧ Obj.env E ∈ h'.objects
      ∧ (∀ A, Ancestor h E A → Obj.env A ∈ h'.objects)
      ∧ Obj.lambda f ∈ h'.objects
      ∧ (∃ a, l.arg_spec = some a ∧ Obj.value a ∈ h'.objects)
      ∧ (∃ b, l.body = some b ∧ Obj.value b ∈ h'.objects) := by
  obtain ⟨h2, h', m, s, e⟩ := collect_wf hwf
  have key : ∀ o, Reach h (roots global_env frames) o → o ∈ h'.objects := fun o hr =>
    (survivors_iff hwf m s o).2 ⟨reach_registered hwf.2.2.1 hwf.2.2.2.2 hr, hr⟩
  have rv : Reach h (roots global_env frames) (Obj.value v) := by
    refine Reach.root ?_
    simp only [roots, List.mem_append, List.mem_flatMap]
    right
    exact ⟨ctx, hctx, by simp [EvaluationContext.roots, hexpr]⟩
  have rf : Reach h (roots global_env frames) (Obj.lambda f) :=
    Reach.step rv (by simp [Heap.refs, hx, hty, hlam])
  have rE : Reach h (roots global_env frames) (Obj.env E) :=
    Reach.step rf (by simp [Heap.refs, hl, hE])
  have hrefs := hwf.2.2.1 _ (reach_registered hwf.2.2.1 hwf.2.2.2.2 rf)
  obtain ⟨oa, _, ea⟩ := hrefs (l.arg_spec.map Obj.value) (by simp [Heap.refs, hl, hnat])
  obtain ⟨ob, _, eb⟩ := hrefs (l.body.map Obj.value) (by simp [Heap.refs, hl, hnat])
  refine ⟨h', e, key _ rE, fun A hA => key _ (reach_ancestor hA rE), key _ rf, ?_, ?_⟩
  · cases ha : l.arg_spec with
    | none => simp [ha] at ea
    | some a =>
      exact ⟨a, rfl, key _ (Reach.step rf (by simp [Heap.refs, hl, hnat, ha]))⟩
  · cases hb : l.body with
    | none => simp [hb] at eb
    | some b =>
      exact ⟨b, rfl, key _ (Reach.step rf (by simp [Heap.refs, hl, hnat, hb]))⟩

/-- Witness of C8 on the example heap: the frame's expression is the
closure (value 4) of lambda 0, which captured environment 1. -/
theorem closure_keeps_environment_witness :
    WellFormed exampleHeap (some 0) exampleFrames
      ∧ ∃ h', collect_garbage exampleHeap (some 0) (some exampleFrames) = .ok h'
        ∧ Obj.env 1 ∈ h'.objects
        ∧ (∀ A, Ancestor exampleHeap 1 A → Obj.env A ∈ h'.objects)
        ∧ Obj.lambda 0 ∈ h'.objects
        ∧ (∃ a, (Lambda.interpreted (some 5) (some 6) (some 1)).arg_spec = some a
            ∧ Obj.value a ∈ h'.objects)
        ∧ (∃ b, (Lambda.interpreted (some 5) (some 6) (some 1)).body = some b
            ∧ Obj.value b ∈ h'.objects) :=
  ⟨by decide,
    closure_keeps_environment exampleHeap (some 0) exampleFrames
      ⟨some 0, some 4, none, [none, some 1]⟩ 4 0 1 (Value.closure (some 0))
      (Lambda.interpreted (some 5) (some 6) (some 1)) (by decide) (by decide) rfl rfl rfl rfl
      rfl rfl rfl⟩

theorem roots_of_allAbsent {ctx : EvaluationContext} (ha : ctx.allAbsent) : ctx.roots = [] := by
  obtain ⟨h1, h2, h3, h4⟩ := ha
  have : ctx.local_vals.reduceOption = [] := by
    apply List.eq_nil_iff_forall_not_mem.2
    intro a hmem
    have := h4 (some a) (List.reduceOption_mem_iff.1 hmem)
    cases this
  simp [EvaluationContext.roots, h1, h2, h3, this]

/-- C9, absent frame fields are not errors: `mark_eval_stack` does to the
state exactly what marking, in order, the fields that are present does
(current scope, expression, child result and present locals of each frame),
so an absent field or an absent local is passed over; and on a stack all of
whose frames have every field absent, the empty stack included, it returns
the state unchanged. -/
theorem absent_fields_skipped (n : Nat) (h : Heap) (frames : List EvaluationContext) :
    mark_eval_stack n h (some frames)
        = mark_roots n h (frames.flatMap EvaluationContext.roots)
      ∧ ((∀ ctx ∈ frames, ctx.allAbsent) → mark_eval_stack n h (some frames) = .ok h) := by
  have e : mark_eval_stack n h (some frames)
      = mark_roots n h (frames.flatMap EvaluationContext.roots) := mark_contexts_eq n frames h
  refine ⟨e, ?_⟩
  intro hall
  have : frames.flatMap EvaluationContext.roots = [] := by
    apply List.eq_nil_iff_forall_not_mem.2
    intro o ho
    obtain ⟨ctx, hctx, hmem⟩ := List.mem_flatMap.1 ho
    rw [roots_of_allAbsent (hall ctx hctx)] at hmem
    cases hmem
  rw [e, this]
  rfl

/-- Witness of C9: two frames with nothing in them. -/
theorem absent_fields_skipped_witness :
    (∀ ctx ∈ [(⟨none, none, none, []⟩ : EvaluationContext), ⟨none, none, none, [none, none]⟩],
        ctx.allAbsent)
      ∧ mark_eval_stack 0 exampleHeap
          (some [⟨none, none, none, []⟩, ⟨none, none, none, [none, none]⟩]) = .ok exampleHeap :=
  ⟨by simp [EvaluationContext.allAbsent],
    (absent_fields_skipped 0 exampleHeap
      [⟨none, none, none, []⟩, ⟨none, none, none, [none, none]⟩]).2
      (by simp [EvaluationContext.allAbsent])⟩

theorem none_mem_refs_of_absent {h : Heap} {o : Obj} (ha : AbsentRef h o) :
    none ∈ h.refs o := by
  cases o with
  | value a =>
    obtain ⟨x, hx, hcase⟩ := ha
    rcases hcase with ⟨ht, hl⟩ | ⟨ht, hc, hp⟩
    · simp [Heap.refs, hx, ht, hl]
    · simp only [Heap.refs, hx, if_neg ht, if_pos hc]
      rcases hp with hp | hp <;> simp [hp]
  | lambda a =>
    obtain ⟨x, hx, hcase⟩ := ha
    rcases hcase with ⟨hn, hp⟩ | hp
    · rcases hp with hp | hp <;> simp [Heap.refs, hx, hn, hp]
    · simp [Heap.refs, hx, hp]
  | env a =>
    obtain ⟨x, hx, b, hb, hv⟩ := ha
    simp only [Heap.refs, hx]
    exact List.mem_append_left _ (List.mem_map.2 ⟨b, hb, by simp [hv]⟩)

theorem collect_steps_mark_error {n : Nat} {h : Heap} {g : Option Nat}
    {s : Option (List EvaluationContext)} (hn : gc_fuel h ≤ n)
    (hbad : ∀ h1 h2, mark_environment n h g = .ok h1 → mark_eval_stack n h1 s = .ok h2 → False) :
    collect_garbage_steps n h g s = .error .abort := by
  unfold collect_garbage_steps
  have f1 : mark_environment n h g ≠ .error .fuel := mark_environment_fuel g hn
  cases e1 : mark_environment n h g with
  | error e =>
    cases e with
    | abort => rfl
    | fuel => exact absurd e1 f1
  | ok h1 =>
    have f2 : mark_eval_stack n h1 s ≠ .error .fuel :=
      mark_eval_stack_fuel s h1 (le_trans (gc_fuel_ok (mark_environment_ext e1)) hn)
    cases e2 : mark_eval_stack n h1 s with
    | error e =>
      cases e with
      | abort => simp only [e2, bind, Except.bind]
      | fuel => exact absurd e2 f2
    | ok h2 => exact absurd (hbad h1 h2 e1 e2) id

/-- C10, an absent required reference met during mark halts the cycle:
each mark function fails on an absent pointer; `collect_garbage` fails when
the global environment or the evaluation stack is absent, and when some
object reachable from the roots (all of them unmarked, as between two
collections) has an absent required reference; an absent parent of an
environment stops the walk up the chain without failure. -/
theorem absent_reference_aborts (n : Nat) (h : Heap) :
    (mark_value (n + 1) h none = .error .abort
        ∧ mark_lambda (n + 1) h none = .error .abort
        ∧ mark_environment (n + 1) h none = .error .abort)
      ∧ (∀ s, collect_garbage h none s = .error .abort)
      ∧ (∀ g, collect_garbage h g none = .error .abort)
      ∧ (∀ g frames o, (∀ o', Reach h (roots g frames) o' → h.marked o' = false) →
          Reach h (roots g frames) o → AbsentRef h o →
          collect_garbage h g (some frames) = .error .abort)
      ∧ mark_environment_loop (n + 1) h none = .ok h
      ∧ (∀ a x frames, WellFormed h (some a) frames → h.environment a = some x →
          x.parent_env = none →
          ∃ h', collect_garbage h (some a) (some frames) = .ok h') := by
  refine ⟨⟨rfl, rfl, rfl⟩, ?_, ?_, ?_, rfl, ?_⟩
  · intro s
    refine collect_steps_mark_error (le_refl _) ?_
    intro h1 h2 e1 _
    obtain ⟨a, ha, _⟩ := mark_environment_spec e1
    cases ha
  · intro g
    refine collect_steps_mark_error (le_refl _) ?_
    intro h1 h2 _ e2
    simp [mark_eval_stack] at e2
  · intro g frames o hun hr habs
    refine collect_steps_mark_error (le_refl _) ?_
    intro h1 h2 e1 e2
    have m := mark_phase_spec e1 e2
    obtain ⟨o', hc, _⟩ := (reach_marked m hun hr).2 none (none_mem_refs_of_absent habs)
    cases hc
  · intro a x frames hwf _ _
    obtain ⟨h2, h', _, _, e⟩ := collect_wf hwf
    exact ⟨h', e⟩

/-- Witness of C10: the global environment binds `x` to a pair whose cdr
is absent, and the collection fails. -/
theorem absent_reference_aborts_witness :
    AbsentRef brokenHeap (Obj.value 0)
      ∧ collect_garbage brokenHeap (some 0) (some []) = .error .abort := by
  have habs : AbsentRef brokenHeap (Obj.value 0) :=
    ⟨Value.cons (some 1) none, rfl, Or.inr ⟨by decide, rfl, Or.inr rfl⟩⟩
  refine ⟨habs, (absent_reference_aborts 0 brokenHeap).2.2.2.1 (some 0) [] (Obj.value 0)
    ?_ ?_ habs⟩
  · intro o' _
    cases o' with
    | value a =>
      match a with
      | 0 => rfl
      | 1 => rfl
      | (k + 2) => rfl
    | lambda a => rfl
    | env a =>
      match a with
      | 0 => rfl
      | (k + 1) => rfl
  · exact Reach.step (o := Obj.env 0) (Reach.root (by simp [roots])) (by decide)

/-- C11, deep-chain safety: for every `n` and `k`, on the heap whose global
environment binds a name to a proper list of `n` cons pairs with integer
elements and in which a frame's scope is the head of a parent chain of
depth `k` ending at the global environment, `collect_garbage` returns, the
three registries are what they were and every registered object is still
allocated; `mark_value` on the list returns with at most two nested calls
(itself and the call for a car) and `mark_environment` on the head of the
chain with at most three (itself, the call for a bound value, the call for
a car), whatever `n` and `k` are; the runs with depth are the runs of the
collector. -/
theorem deep_chain_safe (n k : Nat) :
    (∃ h', collect_garbage (deepHeap n k) (some 0) (some (deepFrames k)) = .ok h'
        ∧ h'.allocated_values = (deepHeap n k).allocated_values
        ∧ h'.allocated_lambdas = (deepHeap n k).allocated_lambdas
        ∧ h'.allocated_environments = (deepHeap n k).allocated_environments
        ∧ (∀ a, h'.value a = (deepHeap n k).value a)
        ∧ (∀ a, h'.environment a = (deepHeap n k).environment a))
      ∧ ((deepHeap n k).allocated_values.length = 2 * n + 1
        ∧ (deepHeap n k).allocated_environments.length = k + 1
        ∧ (∀ a, a < n → (deepHeap n k).value a
            = some (Value.cons (some (n + 1 + a)) (some (a + 1))))
        ∧ (∀ j, 0 < j → j ≤ k → (deepHeap n k).environment j
            = some { Environment.zero with parent_env := some (j - 1) }))
      ∧ (∃ h1 d, mark_value_depth (gc_fuel (deepHeap n k)) (deepHeap n k) (some 0)
            = .ok (h1, d) ∧ d ≤ 2)
      ∧ (∃ h1 d, mark_environment_depth (gc_fuel (deepHeap n k)) (deepHeap n k) (some k)
            = .ok (h1, d) ∧ d ≤ 3)
      ∧ (∀ m h v, (mark_value_depth m h v).map Prod.fst = mark_value m h v)
      ∧ (∀ m h e, (mark_environment_depth m h e).map Prod.fst = mark_environment m h e) := by
  have hwf := deepHeap_wf n k
  refine ⟨?_, ?_, ?_, ?_, fun m h v => runDepth_erase m (.value v) h,
    fun m h e => runDepth_erase m (.env e) h⟩
  · obtain ⟨h', e, r1, r2, r3, r4, _, r6⟩ := collect_all_reachable hwf (deepHeap_reach n k)
    exact ⟨h', e, r1, r2, r3, r4, r6⟩
  · refine ⟨by simp [deepHeap], by simp [deepHeap], ?_, ?_⟩
    · intro a ha
      rw [deepHeap_value, if_pos (by omega)]
      simp [deepValue, ha]
    · intro j h0 hj
      rw [deepHeap_environment, if_pos (by omega)]
      simp [deepEnvironment, Nat.ne_of_gt h0]
  · have h0 : Obj.value 0 ∈ (deepHeap n k).objects :=
      (deepHeap_objects n k _).2 (by show 0 < 2 * n + 1; omega)
    obtain ⟨h1, e1⟩ := ok_of_ne_error
      (mark_value_fuel (some 0) (gc_fuel_ok (Ext.refl (deepHeap n k))))
      (mark_value_safe hwf.1.2.2 hwf.2.2.1 h0)
    have e1' : (Task.value (some 0)).run (gc_fuel (deepHeap n k)) (deepHeap n k) = .ok h1 := e1
    obtain ⟨d, ed⟩ := runDepth_of_run e1'
    exact ⟨h1, d, ed, (runDepth_bound _ _ _ _ (deepHeap_flat n k) ed
      (fun f hc => nomatch hc)).1⟩
  · have h0 : Obj.env k ∈ (deepHeap n k).objects :=
      (deepHeap_objects n k _).2 (by show k < k + 1; omega)
    obtain ⟨h1, e1⟩ := ok_of_ne_error
      (mark_environment_fuel (some k) (gc_fuel_ok (Ext.refl (deepHeap n k))))
      (mark_environment_safe hwf.1.2.2 hwf.2.2.1 h0)
    have e1' : (Task.env (some k)).run (gc_fuel (deepHeap n k)) (deepHeap n k) = .ok h1 := e1
    obtain ⟨d, ed⟩ := runDepth_of_run e1'
    exact ⟨h1, d, ed, (runDepth_bound _ _ _ _ (deepHeap_flat n k) ed
      (fun f hc => nomatch hc)).1⟩

/-- Witness of C11 at a list of 100000 pairs and a parent chain of depth
100000. -/
theorem deep_chain_safe_witness :
    (0 : Nat) < 100000
      ∧ (deepHeap 100000 100000).value 0 = some (Value.cons (some (100000 + 1 + 0)) (some (0 + 1)))
      ∧ (∃ h', collect_garbage (deepHeap 100000 100000) (some 0) (some (deepFrames 100000))
            = .ok h'
          ∧ h'.allocated_values = (deepHeap 100000 100000).allocated_values
          ∧ h'.allocated_lambdas = (deepHeap 100000 100000).allocated_lambdas
          ∧ h'.allocated_environments = (deepHeap 100000 100000).allocated_environments
          ∧ (∀ a, h'.value a = (deepHeap 100000 100000).value a)
          ∧ (∀ a, h'.environment a = (deepHeap 100000 100000).environment a))
      ∧ (∃ h1 d, mark_value_depth (gc_fuel (deepHeap 100000 100000)) (deepHeap 100000 100000)
            (some 0) = .ok (h1, d) ∧ d ≤ 2) :=
  ⟨by decide, (deep_chain_safe 100000 100000).2.1.2.2.1 0 (by decide),
    (deep_chain_safe 100000 100000).1, (deep_chain_safe 100000 100000).2.2.1⟩

theorem wrap_long_of_range {x : Int} (h1 : -2 ^ 63 ≤ x) (h2 : x < 2 ^ 63) : wrap_long x = x := by
  unfold wrap_long
  rw [Int.emod_eq_of_lt (by omega) (by omega)]
  omega

theorem allocation_size_eq (sv sl : Nat) (h : Heap)
    (hr : sv * h.allocated_values.length + sl * h.allocated_lambdas.length
      + sv * h.allocated_environments.length < 2 ^ 63) :
    allocation_size sv sl h
      = ((sv * h.allocated_values.length + sl * h.allocated_lambdas.length
          + sv * h.allocated_environments.length : Nat) : Int) := by
  unfold allocation_size
  generalize sv * h.allocated_values.length = a at hr ⊢
  generalize sl * h.allocated_lambdas.length = b at hr ⊢
  generalize sv * h.allocated_environments.length = c at hr ⊢
  have ha : a % 2 ^ 64 = a := Nat.mod_eq_of_lt (by omega)
  have hb : b % 2 ^ 64 = b := Nat.mod_eq_of_lt (by omega)
  have hc : c % 2 ^ 64 = c := Nat.mod_eq_of_lt (by omega)
  simp only [ha, hb, hc, zero_add]
  rw [wrap_long_of_range (x := (a : Int)) (by omega) (by omega)]
  rw [wrap_long_of_range (x := (a : Int) + b) (by omega) (by omega)]
  rw [wrap_long_of_range (x := (a : Int) + b + c) (by omega) (by omega)]
  push_cast
  ring

/-- C12, estimated heap size: below `2 ^ 63`, `allocation_size` returns
`sizeof(Value)` times the number of registered values, plus
`sizeof(Lambda)` times the number of registered lambdas, plus
`sizeof(Value)` (not `sizeof(Environment)`) times the number of registered
environments; it differs from the sum of the specification by the
difference of the two sizes for every registered environment, and after
`init_alloc` and one `alloc_environment` it returns `sizeof(Value)` where
the specification has `sizeof(Environment)`. -/
theorem allocation_size_counts_environments_as_values (sv sl se : Nat) (h : Heap)
    (hr : sv * h.allocated_values.length + sl * h.allocated_lambdas.length
      + sv * h.allocated_environments.length < 2 ^ 63) :
    allocation_size sv sl h
        = (sv : Int) * h.allocated_values.length + (sl : Int) * h.allocated_lambdas.length
          + (sv : Int) * h.allocated_environments.length
      ∧ allocation_size_spec sv sl se h - allocation_size sv sl h
        = ((se : Int) - sv) * h.allocated_environments.length
      ∧ (sv < 2 ^ 63 → allocation_size sv sl (alloc_environment init_alloc).1 = sv
          ∧ allocation_size_spec sv sl se (alloc_environment init_alloc).1 = se) := by
  have e := allocation_size_eq sv sl h hr
  refine ⟨?_, ?_, ?_⟩
  · rw [e]; push_cast; ring
  · rw [e]; unfold allocation_size_spec; push_cast; ring
  · intro hsv
    constructor
    · rw [allocation_size_eq sv sl _ (by simp [alloc_environment, init_alloc, pv_init, pv_add_elem]; omega)]
      simp [alloc_environment, init_alloc, pv_init, pv_add_elem]
    · simp [allocation_size_spec, alloc_environment, init_alloc, pv_init, pv_add_elem]

/-- Witness of C12: with 24-byte values, 40-byte lambdas and 32-byte
environments, one registered environment is estimated at 24 bytes, not 32. -/
theorem allocation_size_counts_environments_as_values_witness :
    (24 : Nat) < 2 ^ 63
      ∧ allocation_size 24 40 (alloc_environment init_alloc).1 = 24
      ∧ allocation_size_spec 24 40 32 (alloc_environment init_alloc).1 = 32 :=
  ⟨by decide,
    (allocation_size_counts_environments_as_values 24 40 32 init_alloc (by decide)).2.2
      (by decide)⟩

/-- C13, counterexample: value 3, lambda 0 and environment 2 of the
example heap are in their registries, and `free_value`, `free_lambda` and
`free_environment` release them and return; the registries still hold the
pointers afterwards. -/
theorem free_registered_returns :
    (some 3 ∈ exampleHeap.allocated_values
        ∧ free_value exampleHeap (some 3)
          = .ok { exampleHeap with values := wr exampleHeap.values 3 none })
      ∧ (some 0 ∈ exampleHeap.allocated_lambdas
        ∧ free_lambda exampleHeap (some 0)
          = .ok { exampleHeap with lambdas := wr exampleHeap.lambdas 0 none })
      ∧ (some 2 ∈ exampleHeap.allocated_environments
        ∧ free_environment exampleHeap (some 2)
          = .ok { exampleHeap with environments := wr exampleHeap.environments 2 none }) :=
  ⟨⟨by decide, rfl⟩, ⟨by decide, rfl⟩, ⟨by decide, rfl⟩⟩

/-- C13 as amended: `free_value`, `free_lambda` and `free_environment` do
not look at the registries.  Called on an allocated object, registered or
not, each returns, after which nothing is allocated at the address, every
other cell and all three registries are as before; called on `NULL` each
fails. -/
theorem free_ignores_registry (h : Heap) (a : Nat) :
    (∀ x, h.value a = some x →
        ∃ h', free_value h (some a) = .ok h' ∧ h'.value a = none
          ∧ (∀ c, c ≠ a → h'.value c = h.value c)
          ∧ h'.lambdas = h.lambdas ∧ h'.environments = h.environments
          ∧ h'.allocated_values = h.allocated_values
          ∧ h'.allocated_lambdas = h.allocated_lambdas
          ∧ h'.allocated_environments = h.allocated_environments)
      ∧ (∀ x, h.lambda a = some x →
        ∃ h', free_lambda h (some a) = .ok h' ∧ h'.lambda a = none
          ∧ (∀ c, c ≠ a → h'.lambda c = h.lambda c)
          ∧ h'.values = h.values ∧ h'.environments = h.environments
          ∧ h'.allocated_values = h.allocated_values
          ∧ h'.allocated_lambdas = h.allocated_lambdas
          ∧ h'.allocated_environments = h.allocated_environments)
      ∧ (∀ x, h.environment a = some x →
        ∃ h', free_environment h (some a) = .ok h' ∧ h'.environment a = none
          ∧ (∀ c, c ≠ a → h'.environment c = h.environment c)
          ∧ h'.values = h.values ∧ h'.lambdas = h.lambdas
          ∧ h'.allocated_values = h.allocated_values
          ∧ h'.allocated_lambdas = h.allocated_lambdas
          ∧ h'.allocated_environments = h.allocated_environments)
      ∧ free_value h none = .error .abort ∧ free_lambda h none = .error .abort
      ∧ free_environment h none = .error .abort := by
  refine ⟨?_, ?_, ?_, rfl, rfl, rfl⟩
  · intro x hx
    refine ⟨{ h with values := wr h.values a none }, by simp [free_value, hx], ?_, ?_,
      rfl, rfl, rfl, rfl, rfl⟩
    · simp only [Heap.value] at hx ⊢
      rw [rd_wr_same _ _ _ (rd_lt hx)]
    · intro c hc
      simp only [Heap.value]
      exact rd_wr_ne _ _ _ _ (Ne.symm hc)
  · intro x hx
    refine ⟨{ h with lambdas := wr h.lambdas a none }, by simp [free_lambda, hx], ?_, ?_,
      rfl, rfl, rfl, rfl, rfl⟩
    · simp only [Heap.lambda] at hx ⊢
      rw [rd_wr_same _ _ _ (rd_lt hx)]
    · intro c hc
      simp only [Heap.lambda]
      exact rd_wr_ne _ _ _ _ (Ne.symm hc)
  · intro x hx
    refine ⟨{ h with environments := wr h.environments a none },
      by simp [free_environment, hx], ?_, ?_, rfl, rfl, rfl, rfl, rfl⟩
    · simp only [Heap.environment] at hx ⊢
      rw [rd_wr_same _ _ _ (rd_lt hx)]
    · intro c hc
      simp only [Heap.environment]
      exact rd_wr_ne _ _ _ _ (Ne.symm hc)

/-- Witness of C13 as amended: value 3 of the example heap is registered,
and `free_value` releases it and leaves the registry as it was. -/
theorem free_ignores_registry_witness :
    exampleHeap.value 3 = some (Value.cons (some 1) (some 2))
      ∧ some 3 ∈ exampleHeap.allocated_values
      ∧ ∃ h', free_value exampleHeap (some 3) = .ok h' ∧ h'.value 3 = none
          ∧ (∀ c, c ≠ 3 → h'.value c = exampleHeap.value c)
          ∧ h'.lambdas = exampleHeap.lambdas ∧ h'.environments = exampleHeap.environments
          ∧ h'.allocated_values = exampleHeap.allocated_values
          ∧ h'.allocated_lambdas = exampleHeap.allocated_lambdas
          ∧ h'.allocated_environments = exampleHeap.allocated_environments :=
  ⟨rfl, by decide, (free_ignores_registry exampleHeap 3).1 _ rfl⟩

theorem wrap_long_double {c : Int} (h1 : -2 ^ 62 ≤ c) (h2 : c < 2 ^ 62) :
    wrap_long (c * 2) = 2 * c := by
  unfold wrap_long
  rw [Int.emod_eq_of_lt (by omega) (by omega)]
  omega

theorem threshold_steps_of_full {sv sl n : Nat} {h : Heap} {c : Int} {g : Option Nat}
    {s : Option (List EvaluationContext)} (hc : ¬ allocation_size sv sl h < c) :
    collect_garbage_threshold_steps sv sl n h c g s
      = (collect_garbage_steps n h g s).map (fun h' =>
          (h', if allocation_size sv sl h' > c then wrap_long (c * 2) else c)) := by
  unfold collect_garbage_threshold_steps collect_garbage_steps
  rw [if_neg hc]
  cases e1 : mark_environment n h g with
  | error e => rfl
  | ok h1 =>
    cases e2 : mark_eval_stack n h1 s with
    | error e => simp only [bind, Except.bind, Except.map, e2]
    | ok h2 =>
      cases e3 : sweep_values h2 with
      | error e => simp only [bind, Except.bind, Except.map, e2, e3]
      | ok h3 =>
        cases e4 : sweep_lambdas h3 with
        | error e => simp only [bind, Except.bind, Except.map, e2, e3, e4]
        | ok h4 =>
          cases e5 : sweep_environments h4 with
          | error e => simp only [bind, Except.bind, Except.map, e2, e3, e4, e5]
          | ok h5 =>
            simp only [bind, Except.bind, Except.map, e2, e3, e4, e5]
            split <;> rfl

/-- C14, threshold collection policy: the ceiling starts at 1048576; in the
build with `ALWAYS_GC` undefined, `collect_garbage` returns the state and
the ceiling as they were when `allocation_size()` is below the ceiling;
otherwise it does what the shipped build does (the full mark-and-sweep
cycle), and afterwards the ceiling is doubled if `allocation_size()` is
above it and unchanged if not; doubling is exact as long as it fits a
`long`; on a well-formed heap the call returns in either case; and the
shipped build performs the cycle whatever the size is. -/
theorem threshold_policy (sv sl n : Nat) (h : Heap) (c : Int) (g : Option Nat)
    (s : Option (List EvaluationContext)) :
    max_allocation_size_init = 1048576
      ∧ (allocation_size sv sl h < c →
          collect_garbage_threshold_steps sv sl n h c g s = .ok (h, c))
      ∧ (¬ allocation_size sv sl h < c →
          (∀ h', collect_garbage_steps n h g s = .ok h' →
              collect_garbage_threshold_steps sv sl n h c g s
                = .ok (h', if allocation_size sv sl h' > c then wrap_long (c * 2) else c))
            ∧ (∀ e, collect_garbage_steps n h g s = .error e →
              collect_garbage_threshold_steps sv sl n h c g s = .error e))
      ∧ (-2 ^ 62 ≤ c → c < 2 ^ 62 → wrap_long (c * 2) = 2 * c)
      ∧ (∀ frames, s = some frames → WellFormed h g frames →
          ∃ h' c', collect_garbage_threshold sv sl h c g s = .ok (h', c')
            ∧ (c' = c ∨ c' = wrap_long (c * 2)))
      ∧ collect_garbage_steps n h g s = (do
          let h1 ← mark_environment n h g
          let h2 ← mark_eval_stack n h1 s
          let h3 ← sweep_values h2
          let h4 ← sweep_lambdas h3
          sweep_environments h4) := by
  refine ⟨rfl, ?_, ?_, wrap_long_double, ?_, rfl⟩
  · intro hc
    unfold collect_garbage_threshold_steps
    rw [if_pos hc]
  · intro hc
    rw [threshold_steps_of_full hc]
    constructor
    · intro h' e; rw [e]; rfl
    · intro e he; rw [he]; rfl
  · intro frames hs hwf
    subst hs
    by_cases hc : allocation_size sv sl h < c
    · refine ⟨h, c, ?_, Or.inl rfl⟩
      unfold collect_garbage_threshold collect_garbage_threshold_steps
      rw [if_pos hc]
    · obtain ⟨h2, h', _, _, e⟩ := collect_wf hwf
      unfold collect_garbage at e
      refine ⟨h', if allocation_size sv sl h' > c then wrap_long (c * 2) else c, ?_, ?_⟩
      · unfold collect_garbage_threshold
        rw [threshold_steps_of_full hc, e]
        rfl
      · by_cases hc' : allocation_size sv sl h' > c
        · right; rw [if_pos hc']
        · left; rw [if_neg hc']

/-- Witness of C14: on the example heap with 24-byte values and 40-byte
lambdas the estimate is 280; with a ceiling of 281 nothing happens, with a
ceiling of 100 the cycle runs and the ceiling is doubled if the estimate is
still above it. -/
theorem threshold_policy_witness :
    allocation_size 24 40 exampleHeap = 280
      ∧ collect_garbage_threshold_steps 24 40 (gc_fuel exampleHeap) exampleHeap 281 (some 0)
          (some exampleFrames) = .ok (exampleHeap, 281)
      ∧ (∀ h', collect_garbage_steps (gc_fuel exampleHeap) exampleHeap (some 0)
            (some exampleFrames) = .ok h' →
          collect_garbage_threshold_steps 24 40 (gc_fuel exampleHeap) exampleHeap 100 (some 0)
              (some exampleFrames)
            = .ok (h', if allocation_size 24 40 h' > 100 then wrap_long (100 * 2) else 100)) :=
  ⟨by decide,
    (threshold_policy 24 40 (gc_fuel exampleHeap) exampleHeap 281 (some 0)
      (some exampleFrames)).2.1 (by decide),
    ((threshold_policy 24 40 (gc_fuel exampleHeap) exampleHeap 100 (some 0)
      (some exampleFrames)).2.2.1 (by decide)).1⟩

theorem roots_sameUpToLocals {c d : EvaluationContext} (hcd : c.sameUpToLocals d) (o : Obj) :
    o ∈ c.roots ↔ o ∈ d.roots := by
  obtain ⟨h1, h2, h3, h4⟩ := hcd
  have hl : ∀ a, a ∈ c.local_vals.reduceOption ↔ a ∈ d.local_vals.reduceOption := by
    intro a
    rw [List.reduceOption_mem_iff, List.reduceOption_mem_iff]
    exact h4.mem_iff
  simp only [EvaluationContext.roots, List.mem_append, List.mem_map, h1, h2, h3, hl]

theorem roots_reordered {s t : List EvaluationContext} (hst : Reordered s t) (o : Obj) :
    o ∈ s.flatMap EvaluationContext.roots ↔ o ∈ t.flatMap EvaluationContext.roots := by
  obtain ⟨mid, hf, hp⟩ := hst
  have h1 : o ∈ s.flatMap EvaluationContext.roots
      ↔ o ∈ mid.flatMap EvaluationContext.roots := by
    clear hp
    induction hf with
    | nil => exact Iff.rfl
    | cons hcd _ ih =>
      simp only [List.flatMap_cons, List.mem_append, roots_sameUpToLocals hcd o, ih]
  rw [h1]
  simp only [List.mem_flatMap]
  constructor
  · rintro ⟨c, hc, ho⟩; exact ⟨c, hp.mem_iff.1 hc, ho⟩
  · rintro ⟨c, hc, ho⟩; exact ⟨c, hp.mem_iff.2 hc, ho⟩

theorem mark_environment_as_roots {n : Nat} {h h' : Heap} {g : Option Nat}
    (e : mark_environment n h g = .ok h') :
    ∃ a, g = some a ∧ mark_roots n h [Obj.env a] = .ok h' := by
  obtain ⟨a, ha, _⟩ := mark_environment_spec e
  subst ha
  refine ⟨a, rfl, ?_⟩
  simp only [mark_roots, mark_root, e]
  rfl

/-- C15, frame order is irrelevant to marking: on every heap, with any mark
flags set at the start, `mark_eval_stack` run on a stack and run on the
stack with its frames, and the `local_vals` within its frames, in another
order, leave the same objects marked whenever both return; marking the
global environment before the stack and marking it after the stack leave
the same objects marked; and on a heap whose registered objects are
allocated and have all their references present and registered, with
registered roots, all these runs return. -/
theorem frame_order_irrelevant (n m : Nat) (h : Heap) (g : Option Nat)
    (s t : List EvaluationContext) (hst : Reordered s t) :
    (∀ h1 h2, mark_eval_stack n h (some s) = .ok h1 →
        mark_eval_stack m h (some t) = .ok h2 → ∀ o, h1.marked o = h2.marked o)
      ∧ (∀ h1 h2 k1 k2, mark_environment n h g = .ok h1 →
        mark_eval_stack n h1 (some s) = .ok h2 →
        mark_eval_stack m h (some t) = .ok k1 → mark_environment m k1 g = .ok k2 →
        ∀ o, h2.marked o = k2.marked o)
      ∧ ((∀ o ∈ h.objects, h.live o = true) → RefsOK h → RootsOK h g s →
        ∃ h1 h2 k1 k2, mark_environment (gc_fuel h) h g = .ok h1
          ∧ mark_eval_stack (gc_fuel h) h1 (some s) = .ok h2
          ∧ mark_eval_stack (gc_fuel h) h (some t) = .ok k1
          ∧ mark_environment (gc_fuel h) k1 g = .ok k2
          ∧ ∃ k0, mark_eval_stack (gc_fuel h) h (some s) = .ok k0) := by
  refine ⟨?_, ?_, ?_⟩
  · intro h1 h2 e1 e2
    simp only [mark_eval_stack, mark_contexts_eq] at e1 e2
    exact mark_roots_same_marks (roots_reordered hst) e1 e2
  · intro h1 h2 k1 k2 e1 e2 e3 e4
    obtain ⟨a, ha, r1⟩ := mark_environment_as_roots e1
    obtain ⟨a', ha', r4⟩ := mark_environment_as_roots e4
    subst ha
    cases ha'
    simp only [mark_eval_stack, mark_contexts_eq] at e2 e3
    have f1 : mark_roots n h ([Obj.env a] ++ s.flatMap EvaluationContext.roots) = .ok h2 := by
      rw [mark_roots_append, r1]; exact e2
    have f2 : mark_roots m h (t.flatMap EvaluationContext.roots ++ [Obj.env a]) = .ok k2 := by
      rw [mark_roots_append, e3]; exact r4
    refine mark_roots_same_marks ?_ f1 f2
    intro r
    simp only [List.mem_append, List.mem_singleton, roots_reordered hst r]
    exact Or.comm
  · intro hl hrefs hroots
    obtain ⟨hg, hroots⟩ := hroots
    cases g with
    | none => exact absurd rfl hg
    | some g0 =>
      have hg0 : Obj.env g0 ∈ h.objects := hroots _ (by simp [roots])
      have hs : ∀ o ∈ s.flatMap EvaluationContext.roots, o ∈ h.objects :=
        fun o ho => hroots o (by simp only [roots, List.mem_append]; exact Or.inr ho)
      have ht : ∀ o ∈ t.flatMap EvaluationContext.roots, o ∈ h.objects :=
        fun o ho => hs o ((roots_reordered hst o).2 ho)
      obtain ⟨h1, e1⟩ := ok_of_ne_error
        (mark_environment_fuel (some g0) (gc_fuel_ok (Ext.refl h)))
        (mark_environment_safe hl hrefs hg0)
      have x1 := mark_environment_ext e1
      obtain ⟨hl1, hrefs1⟩ := good_ext x1 hl hrefs
      obtain ⟨h2, e2⟩ := ok_of_ne_error (mark_contexts_fuel s h1 (gc_fuel_ok x1))
        (mark_contexts_safe s h1 hl1 hrefs1 (fun o ho => by rw [x1.objects]; exact hs o ho))
      obtain ⟨k1, e3⟩ := ok_of_ne_error (mark_contexts_fuel t h (gc_fuel_ok (Ext.refl h)))
        (mark_contexts_safe t h hl hrefs ht)
      have x3 : Ext h k1 := (mark_contexts_spec e3).ext
      obtain ⟨hl3, hrefs3⟩ := good_ext x3 hl hrefs
      obtain ⟨k2, e4⟩ := ok_of_ne_error (mark_environment_fuel (some g0) (gc_fuel_ok x3))
        (mark_environment_safe hl3 hrefs3 (by rw [x3.objects]; exact hg0))
      obtain ⟨k0, e5⟩ := ok_of_ne_error (mark_contexts_fuel s h (gc_fuel_ok (Ext.refl h)))
        (mark_contexts_safe s h hl hrefs hs)
      exact ⟨h1, h2, k1, k2, e1, e2, e3, e4, k0, e5⟩

/-- Witness of C15 on a heap in which some flags are set at the start: the
two orders of the two frames return and leave the same objects marked. -/
theorem frame_order_irrelevant_witness :
    Reordered twoFrames twoFramesSwapped
      ∧ ∃ h1 h2, mark_eval_stack (gc_fuel markedHeap) markedHeap (some twoFrames) = .ok h1
        ∧ mark_eval_stack (gc_fuel markedHeap) markedHeap (some twoFramesSwapped) = .ok h2
        ∧ ∀ o, h1.marked o = h2.marked o :=
  have hre : Reordered twoFrames twoFramesSwapped :=
    ⟨[{ current_env := some 1, expression := some 0, child_eval_result := none,
        local_vals := [none, some 1] },
      { current_env := some 0, expression := none, child_eval_result := some 1,
        local_vals := [] }],
      List.Forall₂.cons ⟨rfl, rfl, rfl, List.Perm.swap _ _ _⟩
        (List.Forall₂.cons ⟨rfl, rfl, rfl, List.Perm.refl _⟩ List.Forall₂.nil),
      List.Perm.swap _ _ _⟩
  ⟨hre, _, _, rfl, rfl,
    (frame_order_irrelevant (gc_fuel markedHeap) (gc_fuel markedHeap) markedHeap (some 0)
      twoFrames twoFramesSwapped hre).1 _ _ rfl rfl⟩

/-- C16, sweep order: on every heap state each of the five other orders of
`sweep_values`, `sweep_lambdas` and `sweep_environments` gives the same
result (the same whole state, or the same failure) as the order values,
lambdas, environments, which is the order `collect_garbage` uses; on
registries that are in order the sweeps return. -/
theorem sweep_order_irrelevant (h : Heap) :
    sweep_in_order sweep_values sweep_environments sweep_lambdas h
        = sweep_in_order sweep_values sweep_lambdas sweep_environments h
      ∧ sweep_in_order sweep_lambdas sweep_values sweep_environments h
        = sweep_in_order sweep_values sweep_lambdas sweep_environments h
      ∧ sweep_in_order sweep_lambdas sweep_environments sweep_values h
        = sweep_in_order sweep_values sweep_lambdas sweep_environments h
      ∧ sweep_in_order sweep_environments sweep_values sweep_lambdas h
        = sweep_in_order sweep_values sweep_lambdas sweep_environments h
      ∧ sweep_in_order sweep_environments sweep_lambdas sweep_values h
        = sweep_in_order sweep_values sweep_lambdas sweep_environments h
      ∧ (∀ n g s, collect_garbage_steps n h g s = (do
          let h1 ← mark_environment n h g
          let h2 ← mark_eval_stack n h1 s
          sweep_in_order sweep_values sweep_lambdas sweep_environments h2))
      ∧ (RegistryOK h →
          ∃ h', sweep_in_order sweep_values sweep_lambdas sweep_environments h = .ok h') := by
  have vel := sweep_in_order_swap23 sweep_values sweep_comm_le h
  have lve := sweep_in_order_swap12 sweep_comm_vl sweep_environments h
  have lev := sweep_in_order_swap23 sweep_lambdas sweep_comm_ve h
  have evl := sweep_in_order_swap12 sweep_comm_ve sweep_lambdas h
  have elv := sweep_in_order_swap12 sweep_comm_le sweep_values h
  refine ⟨vel.symm, lve.symm, ?_, ?_, ?_, ?_, ?_⟩
  · rw [← lev, ← lve]
  · rw [← evl, ← vel]
  · rw [← elv, ← lev, ← lve]
  · intro n g s; rfl
  · intro hr
    obtain ⟨h', e, _⟩ := sweep_all_spec h hr
    exact ⟨h', e⟩

/-- Witness of C16 on a heap with marked and unmarked objects. -/
theorem sweep_order_irrelevant_witness :
    RegistryOK markedHeap
      ∧ ∃ h', sweep_in_order sweep_values sweep_lambdas sweep_environments markedHeap
          = .ok h' :=
  ⟨by decide, (sweep_order_irrelevant markedHeap).2.2.2.2.2.2 (by decide)⟩

/-- C17, each sweep touches its own kind only: on every heap state, when
`sweep_values` returns, the lambda and environment memories (so every
lambda and environment, the lambda of a released closure included) and the
lambda and environment registries are as before; likewise `sweep_lambdas`
leaves the value and environment memories and registries as they were (the
argument list and body of a released lambda stay registered), and
`sweep_environments` the value and lambda memories and registries (the
values bound in a released environment stay registered); on registries that
are in order each sweep returns. -/
theorem sweep_touches_own_kind (h : Heap) :
    (∀ h', sweep_values h = .ok h' →
        h'.lambdas = h.lambdas ∧ h'.environments = h.environments
          ∧ h'.allocated_lambdas = h.allocated_lambdas
          ∧ h'.allocated_environments = h.allocated_environments)
      ∧ (∀ h', sweep_lambdas h = .ok h' →
        h'.values = h.values ∧ h'.environments = h.environments
          ∧ h'.allocated_values = h.allocated_values
          ∧ h'.allocated_environments = h.allocated_environments)
      ∧ (∀ h', sweep_environments h = .ok h' →
        h'.values = h.values ∧ h'.lambdas = h.lambdas
          ∧ h'.allocated_values = h.allocated_values
          ∧ h'.allocated_lambdas = h.allocated_lambdas)
      ∧ (RegistryOK h → (∃ h', sweep_values h = .ok h') ∧ (∃ h', sweep_lambdas h = .ok h')
          ∧ (∃ h', sweep_environments h = .ok h')) := by
  refine ⟨fun h' e => sweep_values_frame e, fun h' e => sweep_lambdas_frame e,
    fun h' e => sweep_environments_frame e, ?_⟩
  intro hr
  obtain ⟨h1, e1, _⟩ := sweep_values_spec h hr.values
  obtain ⟨h2, e2, _⟩ := sweep_lambdas_spec h hr.lambdas
  obtain ⟨h3, e3, _⟩ := sweep_environments_spec h hr.environments
  exact ⟨⟨h1, e1⟩, ⟨h2, e2⟩, ⟨h3, e3⟩⟩

/-- Witness of C17 on the example heap, where nothing is marked:
`sweep_values` releases the closure (value 4) and leaves its lambda
(lambda 0) allocated and registered. -/
theorem sweep_touches_own_kind_witness :
    ∃ h', sweep_values exampleHeap = .ok h' ∧ h'.value 4 = none
      ∧ exampleHeap.value 4 = some (Value.closure (some 0))
      ∧ (h'.lambdas = exampleHeap.lambdas ∧ h'.environments = exampleHeap.environments
          ∧ h'.allocated_lambdas = exampleHeap.allocated_lambdas
          ∧ h'.allocated_environments = exampleHeap.allocated_environments) :=
  ⟨_, rfl, rfl, rfl, (sweep_touches_own_kind exampleHeap).1 _ rfl⟩

/-- C18, no dangling references after a collection: on a well-formed heap
`collect_garbage` returns a state in which every reference held by a
registered object (car and cdr of a pair, lambda of a closure, arg_spec and
body of an interpreted lambda, captured environment of a lambda, parent and
bound values of an environment) is present and points to an object that is
in its registry and allocated; the state is well-formed again. -/
theorem collect_preserves_wellformed (h : Heap) (g : Option Nat)
    (frames : List EvaluationContext) (hwf : WellFormed h g frames) :
    ∃ h', collect_garbage h g (some frames) = .ok h'
      ∧ (∀ o ∈ h'.objects, ∀ r ∈ h'.refs o,
          ∃ o', r = some o' ∧ o' ∈ h'.objects ∧ h'.live o' = true)
      ∧ WellFormed h' g frames := by
  obtain ⟨h', e, hwf', _, _⟩ := collect_wf_again hwf
  refine ⟨h', e, ?_, hwf'⟩
  intro o ho r hr
  obtain ⟨o', ho', e'⟩ := hwf'.2.2.1 o ho r hr
  exact ⟨o', e', ho', hwf'.1.2.2 o' ho'⟩

/-- Witness of C18 on the example heap. -/
theorem collect_preserves_wellformed_witness :
    WellFormed exampleHeap (some 0) exampleFrames
      ∧ ∃ h', collect_garbage exampleHeap (some 0) (some exampleFrames) = .ok h'
        ∧ (∀ o ∈ h'.objects, ∀ r ∈ h'.refs o,
            ∃ o', r = some o' ∧ o' ∈ h'.objects ∧ h'.live o' = true)
        ∧ WellFormed h' (some 0) exampleFrames :=
  ⟨by decide, collect_preserves_wellformed exampleHeap (some 0) exampleFrames (by decide)⟩

/-- C19, `collect_garbage` is idempotent: on a well-formed heap a
collection returns, a second collection with the same roots right after it
returns too, and the second leaves the three registries, and the cell at
every address of the three memories (fields and mark flag), as the first
left them. -/
theorem collect_garbage_idempotent (h : Heap) (g : Option Nat)
    (frames : List EvaluationContext) (hwf : WellFormed h g frames) :
    ∃ h' h'', collect_garbage h g (some frames) = .ok h'
      ∧ collect_garbage h' g (some frames) = .ok h''
      ∧ h''.allocated_values = h'.allocated_values
      ∧ h''.allocated_lambdas = h'.allocated_lambdas
      ∧ h''.allocated_environments = h'.allocated_environments
      ∧ (∀ a, h''.value a = h'.value a) ∧ (∀ a, h''.lambda a = h'.lambda a)
      ∧ (∀ a, h''.environment a = h'.environment a) := by
  obtain ⟨h', e, hwf', hsurv, hrefs⟩ := collect_wf_again hwf
  have hall : ∀ o ∈ h'.objects, Reach h' (roots g frames) o := by
    intro o ho
    exact reach_survives hsurv hrefs hwf.2.2.1 hwf.2.2.2.2 ((hsurv o).1 ho).2
  obtain ⟨h'', e', r⟩ := collect_all_reachable hwf' hall
  exact ⟨h', h'', e, e', r⟩

/-- Witness of C19 on the example heap. -/
theorem collect_garbage_idempotent_witness :
    WellFormed exampleHeap (some 0) exampleFrames
      ∧ ∃ h' h'', collect_garbage exampleHeap (some 0) (some exampleFrames) = .ok h'
        ∧ collect_garbage h' (some 0) (some exampleFrames) = .ok h''
        ∧ h''.allocated_values = h'.allocated_values
        ∧ h''.allocated_lambdas = h'.allocated_lambdas
        ∧ h''.allocated_environments = h'.allocated_environments
        ∧ (∀ a, h''.value a = h'.value a) ∧ (∀ a, h''.lambda a = h'.lambda a)
        ∧ (∀ a, h''.environment a = h'.environment a) :=
  ⟨by decide, collect_garbage_idempotent exampleHeap (some 0) exampleFrames (by decide)⟩

/-- C20, the mark phase only sets mark flags: whenever `mark_value`,
`mark_lambda`, `mark_environment` or `mark_eval_stack` returns, the three
registries are the same lists as before, every object has the same fields
other than `marked` (type tag, string, lambda reference, car, cdr; native
flag, arg_spec, body, captured environment; parent and bindings), no flag
that was set is clear, and nothing is allocated or released; and whenever
`collect_garbage` returns, every object allocated afterwards was allocated
before with the same fields other than `marked`. -/
theorem mark_only_sets_flags (n : Nat) (h h' : Heap) :
    (∀ v, mark_value n h v = .ok h' → FlagsOnlySet h h')
      ∧ (∀ f, mark_lambda n h f = .ok h' → FlagsOnlySet h h')
      ∧ (∀ env, mark_environment n h env = .ok h' → FlagsOnlySet h h')
      ∧ (∀ eval_stack, mark_eval_stack n h eval_stack = .ok h' → FlagsOnlySet h h')
      ∧ (∀ g s, collect_garbage_steps n h g s = .ok h' → FieldsKept h h')
      ∧ (∀ g s, collect_garbage h g s = .ok h' → FieldsKept h h') :=
  ⟨fun _ e => flagsOnlySet_of_ext (mark_value_ext e),
    fun _ e => flagsOnlySet_of_ext (mark_lambda_ext e),
    fun _ e => flagsOnlySet_of_ext (mark_environment_ext e),
    fun _ e => flagsOnlySet_of_ext (mark_eval_stack_ext e),
    fun _ _ e => collect_steps_kept e,
    fun _ _ e => collect_steps_kept e⟩

/-- Witness of C20: marking the pair bound to `x` in the example heap
returns, and only sets flags. -/
theorem mark_only_sets_flags_witness :
    ∃ h', mark_value (gc_fuel exampleHeap) exampleHeap (some 0) = .ok h'
      ∧ h'.marked (Obj.value 0) = true ∧ FlagsOnlySet exampleHeap h' :=
  ⟨_, rfl, rfl, (mark_only_sets_flags (gc_fuel exampleHeap) exampleHeap _).1 (some 0) rfl⟩

end PScheme
